import Mathlib

/-!
# Tic-Tac-Toe with an alpha-beta minimax opponent

A shallow embedding of `src/main.cpp` and a verification of its move-search
engine.

* `char` cells `' '`, `'X'`, `'O'` become the three constructors of `Cell`;
* `std::vector<char>` becomes `List Cell`, `int` becomes `Int`;
* the search tree that `alphaBetaMinimax` grows through `TreeNode*` and the
  counter it bumps through `int&` are threaded explicitly: the embedded
  function returns the value together with the updated node and counter;
* the recursion of `alphaBetaMinimax` is made structural by a fuel argument;
  the result is `none` only when the fuel runs out.

The development has three layers. The embedding (`checkWin` ... `makeAiMove`)
follows the source. Its value part (`abValue`, `makeAiMoveV`) drops the tree
and the counter and is proved to return the same values. The reference
(`minimax`, `ForcesWin`, `Reachable`) states what the search is compared with:
plain minimax, forced wins and legal play. Values of positions with many empty
cells are obtained from strategy trees replayed by `boundOK`.

Around the search, `MainLoop` gives the states of the game loop of `main`,
`makeAiMoveTraced` the calls of `alphaBetaMinimax` within one decision,
`alphaBetaNoDepth` the search without its depth bound, and `TreeNode.size` the
number of nodes of the tree that a decision builds.
-/

namespace TicTacToe

/-! ## Board model -/

/-- One cell of the board: `' '`, `'X'` or `'O'` in the source. -/
inductive Cell where
  | empty
  | X
  | O
  deriving DecidableEq, Repr

/-- The board, a `std::vector<char>` of nine cells in the source. -/
abbrev Board := List Cell

/-- The read `board[i]`. An index past the end, which the source never uses
on its nine-cell boards, reads as `' '`. -/
def cellAt (board : Board) (i : Nat) : Cell := board.getD i Cell.empty

/-- The table `wins[8][3]` of `checkWin`: rows, columns, diagonals. -/
def wins : List (Nat × Nat × Nat) :=
  [(0, 1, 2), (3, 4, 5), (6, 7, 8), (0, 3, 6), (1, 4, 7), (2, 5, 8), (0, 4, 8), (2, 4, 6)]

/-- Source `checkWin`: some triple of `wins` holds `player` three times. -/
def checkWin (board : Board) (player : Cell) : Bool :=
  wins.any fun win =>
    cellAt board win.1 == player && cellAt board win.2.1 == player &&
      cellAt board win.2.2 == player

/-- Source `isFull`: no cell is `' '`. -/
def isFull (board : Board) : Bool := board.all fun cell => !(cell == Cell.empty)

/-- Source `isTerminal`. -/
def isTerminal (board : Board) : Bool :=
  checkWin board Cell.X || checkWin board Cell.O || isFull board

/-- Source `utility`: the human symbol is recomputed from `aiSymbol`. -/
def utility (board : Board) (aiSymbol : Cell) : Int :=
  let humanSymbol := if aiSymbol = Cell.X then Cell.O else Cell.X
  if checkWin board aiSymbol then 10
  else if checkWin board humanSymbol then -10
  else 0

/-- Source `getPossibleActions`: `i + 1` for each `i` in `0 .. 8` whose cell
is `' '`, in ascending order. -/
def getPossibleActions (board : Board) : List Int :=
  (List.range 9).filterMap fun i =>
    if cellAt board i = Cell.empty then some ((i : Int) + 1) else none

/-- Source `applyAction`: a copy of the board with cell `action - 1` set to
`player`. The callers pass an index between 1 and 9. -/
def applyAction (board : Board) (action : Int) (player : Cell) : Board :=
  board.set (action - 1).toNat player

/-- The depth computed by `makeAiMove`: the number of `' '` cells. -/
def countEmpty (board : Board) : Int := (board.count Cell.empty : Nat)

/-! ## Search tree -/

/-- Source `struct TreeNode`: a board, the move that led to it, the children. -/
inductive TreeNode where
  | mk (board : Board) (move : Int) (children : List TreeNode)

/-- Field `board` of a `TreeNode`. -/
def TreeNode.board : TreeNode → Board
  | TreeNode.mk b _ _ => b

/-- Field `move` of a `TreeNode`. -/
def TreeNode.move : TreeNode → Int
  | TreeNode.mk _ m _ => m

/-- Field `children` of a `TreeNode`. -/
def TreeNode.children : TreeNode → List TreeNode
  | TreeNode.mk _ _ cs => cs

/-- Source `insertChild`: push a fresh childless node on `parent->children`. -/
def insertChild (parent : TreeNode) (newBoard : Board) (move : Int) : TreeNode :=
  TreeNode.mk parent.board parent.move (parent.children ++ [TreeNode.mk newBoard move []])

/-- The node `node->children.back()`. -/
def lastChild (node : TreeNode) : TreeNode :=
  node.children.getLast?.getD (TreeNode.mk [] (-1) [])

/-- Write back the child that the recursive call has grown in place. -/
def setLastChild (node : TreeNode) (child : TreeNode) : TreeNode :=
  TreeNode.mk node.board node.move (node.children.dropLast ++ [child])

/-- What one call of `alphaBetaMinimax` leaves behind: the returned value,
the node with the children it has grown, and the counter. -/
structure SearchResult where
  value : Int
  node : TreeNode
  nodeCount : Int

/-! ## Search engine -/

/-- The `for` loop of the maximizing branch of `alphaBetaMinimax`; `search`
is the recursive call one ply deeper. -/
def maxLoop (search : TreeNode → Int → Int → Int → Option SearchResult) (player : Cell) :
    List Int → TreeNode → Int → Int → Int → Int → Option SearchResult
  | [], node, _, _, bestValue, nodeCount => some ⟨bestValue, node, nodeCount⟩
  | action :: rest, node, alpha, beta, bestValue, nodeCount =>
    let newBoard := applyAction node.board action player
    let node1 := insertChild node newBoard action
    match search (lastChild node1) alpha beta nodeCount with
    | none => none
    | some r =>
      let node2 := setLastChild node1 r.node
      let bestValue1 := max bestValue r.value
      let alpha1 := max alpha r.value
      if beta ≤ alpha1 then some ⟨bestValue1, node2, r.nodeCount⟩
      else maxLoop search player rest node2 alpha1 beta bestValue1 r.nodeCount

/-- The `for` loop of the minimizing branch of `alphaBetaMinimax`. -/
def minLoop (search : TreeNode → Int → Int → Int → Option SearchResult) (player : Cell) :
    List Int → TreeNode → Int → Int → Int → Int → Option SearchResult
  | [], node, _, _, bestValue, nodeCount => some ⟨bestValue, node, nodeCount⟩
  | action :: rest, node, alpha, beta, bestValue, nodeCount =>
    let newBoard := applyAction node.board action player
    let node1 := insertChild node newBoard action
    match search (lastChild node1) alpha beta nodeCount with
    | none => none
    | some r =>
      let node2 := setLastChild node1 r.node
      let bestValue1 := min bestValue r.value
      let beta1 := min beta r.value
      if beta1 ≤ alpha then some ⟨bestValue1, node2, r.nodeCount⟩
      else minLoop search player rest node2 alpha beta1 bestValue1 r.nodeCount

/-- Source `alphaBetaMinimax`. The first argument is the fuel of the
embedding; `nodeCount` is the `int&` counter, returned updated. -/
def alphaBetaMinimax :
    Nat → TreeNode → Int → Int → Int → Bool → Int → Cell → Cell → Option SearchResult
  | 0, _, _, _, _, _, _, _, _ => none
  | fuel + 1, node, depth, alpha, beta, isMaximizing, nodeCount, aiSymbol, humanSymbol =>
    let nodeCount1 := nodeCount + 1
    let board := node.board
    if isTerminal board || depth == 0 then
      some ⟨utility board aiSymbol, node, nodeCount1⟩
    else
      let player := if isMaximizing then aiSymbol else humanSymbol
      let actions := getPossibleActions board
      if isMaximizing then
        maxLoop
          (fun child a b c =>
            alphaBetaMinimax fuel child (depth - 1) a b false c aiSymbol humanSymbol)
          player actions node alpha beta (-1000) nodeCount1
      else
        minLoop
          (fun child a b c =>
            alphaBetaMinimax fuel child (depth - 1) a b true c aiSymbol humanSymbol)
          player actions node alpha beta 1000 nodeCount1

/-- The local variables of `makeAiMove` that its loop updates. -/
structure RootState where
  bestValue : Int
  bestMove : Int
  root : TreeNode
  nodeCount : Int

/-- The `for` loop of `makeAiMove` over the legal moves of `board`. -/
def rootLoop (fuel : Nat) (board : Board) (depth : Int) (aiSymbol humanSymbol : Cell) :
    List Int → RootState → Option RootState
  | [], s => some s
  | action :: rest, s =>
    let newBoard := applyAction board action aiSymbol
    let root1 := insertChild s.root newBoard action
    match alphaBetaMinimax fuel (lastChild root1) (depth - 1) (-1000) 1000 false s.nodeCount
        aiSymbol humanSymbol with
    | none => none
    | some r =>
      let root2 := setLastChild root1 r.node
      if r.value > s.bestValue then
        rootLoop fuel board depth aiSymbol humanSymbol rest ⟨r.value, action, root2, r.nodeCount⟩
      else
        rootLoop fuel board depth aiSymbol humanSymbol rest
          ⟨s.bestValue, s.bestMove, root2, r.nodeCount⟩

/-- Source `makeAiMove` up to its two output lines: the final `bestValue`,
`bestMove`, tree and `nodeCount`. The search below each root move gets one
unit of fuel per empty cell of the board. -/
def makeAiMoveState (board : Board) (aiSymbol humanSymbol : Cell) : Option RootState :=
  let depth := countEmpty board
  rootLoop depth.toNat board depth aiSymbol humanSymbol (getPossibleActions board)
    ⟨-1000, -1, TreeNode.mk board (-1) [], 1⟩

/-- Source `makeAiMove`: the returned `bestMove`. -/
def makeAiMove (board : Board) (aiSymbol humanSymbol : Cell) : Option Int :=
  (makeAiMoveState board aiSymbol humanSymbol).map fun s => s.bestMove

/-! ## The value computed by the search, without tree and counter -/

/-- The value part of `maxLoop`. -/
def maxLoopV (search : Board → Int → Int → Option Int) (board : Board) (player : Cell) :
    List Int → Int → Int → Int → Option Int
  | [], _, _, bestValue => some bestValue
  | action :: rest, alpha, beta, bestValue =>
    match search (applyAction board action player) alpha beta with
    | none => none
    | some value =>
      if beta ≤ max alpha value then some (max bestValue value)
      else maxLoopV search board player rest (max alpha value) beta (max bestValue value)

/-- The value part of `minLoop`. -/
def minLoopV (search : Board → Int → Int → Option Int) (board : Board) (player : Cell) :
    List Int → Int → Int → Int → Option Int
  | [], _, _, bestValue => some bestValue
  | action :: rest, alpha, beta, bestValue =>
    match search (applyAction board action player) alpha beta with
    | none => none
    | some value =>
      if min beta value ≤ alpha then some (min bestValue value)
      else minLoopV search board player rest alpha (min beta value) (min bestValue value)

/-- The value part of `alphaBetaMinimax`. -/
def abValue : Nat → Board → Int → Int → Int → Bool → Cell → Cell → Option Int
  | 0, _, _, _, _, _, _, _ => none
  | fuel + 1, board, depth, alpha, beta, isMaximizing, aiSymbol, humanSymbol =>
    if isTerminal board || depth == 0 then some (utility board aiSymbol)
    else if isMaximizing then
      maxLoopV (fun b a c => abValue fuel b (depth - 1) a c false aiSymbol humanSymbol)
        board aiSymbol (getPossibleActions board) alpha beta (-1000)
    else
      minLoopV (fun b a c => abValue fuel b (depth - 1) a c true aiSymbol humanSymbol)
        board humanSymbol (getPossibleActions board) alpha beta 1000

/-- The value part of `rootLoop`: the running `(bestValue, bestMove)`. -/
def rootLoopV (fuel : Nat) (board : Board) (depth : Int) (aiSymbol humanSymbol : Cell) :
    List Int → Int → Int → Option (Int × Int)
  | [], bestValue, bestMove => some (bestValue, bestMove)
  | action :: rest, bestValue, bestMove =>
    match abValue fuel (applyAction board action aiSymbol) (depth - 1) (-1000) 1000 false
        aiSymbol humanSymbol with
    | none => none
    | some value =>
      if value > bestValue then rootLoopV fuel board depth aiSymbol humanSymbol rest value action
      else rootLoopV fuel board depth aiSymbol humanSymbol rest bestValue bestMove

/-- The final `(bestValue, bestMove)` of `makeAiMove`. -/
def makeAiMoveV (board : Board) (aiSymbol humanSymbol : Cell) : Option (Int × Int) :=
  rootLoopV (countEmpty board).toNat board (countEmpty board) aiSymbol humanSymbol
    (getPossibleActions board) (-1000) (-1)

/-! ## Plain minimax, the reference the search is compared with -/

/-- Greatest value of a list, `d` when the list is empty. -/
def maxOfList (d : Int) : List Int → Int
  | [] => d
  | v :: vs => vs.foldl max v

/-- Least value of a list, `d` when the list is empty. -/
def minOfList (d : Int) : List Int → Int
  | [] => d
  | v :: vs => vs.foldl min v

/-- Exhaustive minimax without pruning and without depth bound, exploring at
most `n` plies: a terminal board is scored by `utility`; otherwise the
computer (`isMaximizing`) takes the greatest value over all legal moves and
the human the least. -/
def minimaxN : Nat → Board → Bool → Cell → Cell → Int
  | 0, board, _, aiSymbol, _ => utility board aiSymbol
  | n + 1, board, isMaximizing, aiSymbol, humanSymbol =>
    if isTerminal board then utility board aiSymbol
    else if isMaximizing then
      maxOfList (utility board aiSymbol) ((getPossibleActions board).map fun a =>
        minimaxN n (applyAction board a aiSymbol) false aiSymbol humanSymbol)
    else
      minOfList (utility board aiSymbol) ((getPossibleActions board).map fun a =>
        minimaxN n (applyAction board a humanSymbol) true aiSymbol humanSymbol)

/-- The minimax value of a board: `minimaxN` with one ply per empty cell,
which reaches the end of every line of play. -/
def minimax (board : Board) (isMaximizing : Bool) (aiSymbol humanSymbol : Cell) : Int :=
  minimaxN (board.count Cell.empty) board isMaximizing aiSymbol humanSymbol

/-- How the result `v` of a search with window `(alpha, beta)` relates to the
exact value `m`: equal inside the window, on the same side outside. -/
def Within (v m alpha beta : Int) : Prop :=
  (m ≤ alpha → v ≤ alpha) ∧ (beta ≤ m → beta ≤ v) ∧ (alpha < m → m < beta → v = m)

/-- The choice made by the loop of `makeAiMove` when move `a` gets the value
`val a`: the running `(bestValue, bestMove)`, replaced on a strictly greater
value only. -/
def pickLoop (val : Int → Int) : List Int → Int → Int → Int × Int
  | [], bestValue, bestMove => (bestValue, bestMove)
  | action :: rest, bestValue, bestMove =>
    if val action > bestValue then pickLoop val rest (val action) action
    else pickLoop val rest bestValue bestMove

/-- The value that the loop of `makeAiMove` obtains for the move `action`:
the result of `alphaBetaMinimax` on the child node, one ply deeper, with the
window `(-1000, 1000)`. The counter passed in does not influence it. -/
def searchValue (board : Board) (aiSymbol humanSymbol : Cell) (action : Int) : Option Int :=
  (alphaBetaMinimax (countEmpty board).toNat
      (TreeNode.mk (applyAction board action aiSymbol) action [])
      (countEmpty board - 1) (-1000) 1000 false 0 aiSymbol humanSymbol).map SearchResult.value

/-- The two players hold the complementary pair of symbols `X`, `O`. -/
def Complementary (aiSymbol humanSymbol : Cell) : Prop :=
  (aiSymbol = Cell.X ∧ humanSymbol = Cell.O) ∨ (aiSymbol = Cell.O ∧ humanSymbol = Cell.X)

/-- The board `[s, s, _, t, t, _, _, _, _]` of the examples of the specification. -/
def exampleBoard (s t : Cell) : Board :=
  [s, s, Cell.empty, t, t, Cell.empty, Cell.empty, Cell.empty, Cell.empty]

/-- The board `[X, X, X, O, O, _, _, _, _]`, won by `X` on the first row. -/
def rowBoard : Board :=
  [Cell.X, Cell.X, Cell.X, Cell.O, Cell.O, Cell.empty, Cell.empty, Cell.empty, Cell.empty]

/-- The board `[O, _, X, _, X, O, X, _, _]`, won by `X` on a diagonal. -/
def diagonalBoard : Board :=
  [Cell.O, Cell.empty, Cell.X, Cell.empty, Cell.X, Cell.O, Cell.X, Cell.empty, Cell.empty]

/-! ## The game around the search -/

/-- The toggle of `main`: `(currentPlayer == 'X') ? 'O' : 'X'`. -/
def other (p : Cell) : Cell := if p = Cell.X then Cell.O else Cell.X

/-- The initial board of `main`: nine `' '` cells. -/
def emptyBoard : Board := List.replicate 9 Cell.empty

/-- Boards reachable from the empty board by legal alternating play, with the
side to move: `X` moves first, each move puts the mover's symbol on an empty
cell, and no move is made from a terminal board. -/
inductive Reachable : Board → Cell → Prop where
  | start : Reachable emptyBoard Cell.X
  | move (b : Board) (p : Cell) (a : Int) :
      Reachable b p → isTerminal b = false → a ∈ getPossibleActions b →
      Reachable (applyAction b a p) (other p)

/-- The game-theoretic notion "`w` can force a win from board `b` with `p` to
move": the game is over and `w` has a completed triple, or it is not over and
`w` to move has a move after which `w` can force a win, or it is not over and
every move of the opponent, who is to move, leads to a board from which `w`
can force a win. -/
inductive ForcesWin (w : Cell) : Board → Cell → Prop where
  | won (b : Board) (p : Cell) : isTerminal b = true → checkWin b w = true → ForcesWin w b p
  | own (b : Board) (p : Cell) (a : Int) :
      isTerminal b = false → p = w → a ∈ getPossibleActions b →
      ForcesWin w (applyAction b a p) (other p) → ForcesWin w b p
  | opp (b : Board) (p : Cell) :
      isTerminal b = false → p ≠ w →
      (∀ a, a ∈ getPossibleActions b → ForcesWin w (applyAction b a p) (other p)) →
      ForcesWin w b p

/-- The board `[_, X, _, _, X, O, O, _, _]`, with `X` to move: cell 8 wins at
once, cell 1 wins two moves later. -/
def forkBoard : Board :=
  [Cell.empty, Cell.X, Cell.empty, Cell.empty, Cell.X, Cell.O, Cell.O, Cell.empty, Cell.empty]

/-! ## Checked bounds on minimax values

The value of a position with many empty cells is established through a
strategy tree: `boundOK` replays the tree on the board and `boundOK_sound`
turns a successful replay into a bound on `minimax`. -/

/-- A strategy tree: the move of the side that has the strategy, then one
subtree per legal reply of the opponent, in the order of `getPossibleActions`. -/
inductive Cert where
  | node (move : Int) (subs : List Cert)

/-- The move stored at the root of a strategy tree. -/
def Cert.move : Cert → Int
  | Cert.node m _ => m

/-- The subtrees of a strategy tree. -/
def Cert.subs : Cert → List Cert
  | Cert.node _ cs => cs

/-- Applies `k` to the cell, after bringing it to a constructor. -/
def forceCell {α : Type} (c : Cell) (k : Cell → α) : α :=
  match c with
  | Cell.empty => k Cell.empty
  | Cell.X => k Cell.X
  | Cell.O => k Cell.O

/-- Applies `k` to the board, after bringing every cell to a constructor. -/
def forceBoard {α : Type} : Board → (Board → α) → α
  | [], k => k []
  | c :: cs, k => forceCell c fun c1 => forceBoard cs fun cs1 => k (c1 :: cs1)

/-- Equality of two cells, by cases. -/
def same : Cell → Cell → Bool
  | Cell.empty, Cell.empty => true
  | Cell.X, Cell.X => true
  | Cell.O, Cell.O => true
  | _, _ => false

/-- The test of `checkWin` written out on the nine cells of a board. -/
def winFast (p : Cell) : Board → Bool
  | [c0, c1, c2, c3, c4, c5, c6, c7, c8] =>
    (same c0 p && same c1 p && same c2 p) || (same c3 p && same c4 p && same c5 p) ||
    (same c6 p && same c7 p && same c8 p) || (same c0 p && same c3 p && same c6 p) ||
    (same c1 p && same c4 p && same c7 p) || (same c2 p && same c5 p && same c8 p) ||
    (same c0 p && same c4 p && same c8 p) || (same c2 p && same c4 p && same c6 p)
  | _ => false

/-- The test of `isFull`, by cases on the cells. -/
def fullFast : Board → Bool
  | [] => true
  | Cell.empty :: _ => false
  | Cell.X :: cs => fullFast cs
  | Cell.O :: cs => fullFast cs

/-- The test of `isTerminal` through `winFast` and `fullFast`. -/
def terminalFast (b : Board) : Bool := winFast Cell.X b || winFast Cell.O b || fullFast b

/-- The score of `utility` through `winFast`. -/
def utilityFast (b : Board) (aiSymbol : Cell) : Int :=
  if winFast aiSymbol b then 10
  else if winFast (if aiSymbol = Cell.X then Cell.O else Cell.X) b then -10
  else 0

/-- Puts the index `i` in front of `rest` when the cell is empty. -/
def pick (c : Cell) (i : Int) (rest : List Int) : List Int :=
  match c with
  | Cell.empty => i :: rest
  | Cell.X => rest
  | Cell.O => rest

/-- The list of `getPossibleActions` written out on the nine cells of a board. -/
def actionsFast : Board → List Int
  | [c0, c1, c2, c3, c4, c5, c6, c7, c8] =>
    pick c0 1 (pick c1 2 (pick c2 3 (pick c3 4 (pick c4 5 (pick c5 6 (pick c6 7
      (pick c7 8 (pick c8 9 []))))))))
  | _ => []

/-- The test `f` holds for every move paired with the subtree at the same
position; there must be a subtree for every move. -/
def allZip (f : Int → Cert → Bool) : List Int → List Cert → Bool
  | [], _ => true
  | _ :: _, [] => false
  | a :: rest, c :: cs => f a c && allZip f rest cs

/-- Replays a strategy tree: with `lower` the tree shows `bound ≤ minimax`,
otherwise `minimax ≤ bound`. Where the side that wants the bound is to move
(the computer for a lower bound, the human for an upper bound) the move of the
tree is played; where the other side is to move every legal move is followed.
The board is read through `terminalFast`, `utilityFast` and `actionsFast`. -/
def boundOK : Nat → Cert → Board → Bool → Bool → Int → Cell → Cell → Bool
  | 0, _, _, _, _, _, _, _ => false
  | n + 1, cert, board0, isMaximizing, lower, bound, aiSymbol, humanSymbol =>
    forceBoard board0 fun board =>
      if terminalFast board then
        if lower then decide (bound ≤ utilityFast board aiSymbol)
        else decide (utilityFast board aiSymbol ≤ bound)
      else if isMaximizing == lower then
        (actionsFast board).contains cert.move &&
          boundOK n cert
            (applyAction board cert.move (if isMaximizing then aiSymbol else humanSymbol))
            (!isMaximizing) lower bound aiSymbol humanSymbol
      else
        allZip
          (fun a c =>
            boundOK n c (applyAction board a (if isMaximizing then aiSymbol else humanSymbol))
              (!isMaximizing) lower bound aiSymbol humanSymbol)
          (actionsFast board) cert.subs

/-- The bounds that make `move` the choice of `makeAiMove` with the value
`best`: every earlier legal move is worth less than `best`, `move` at least
`best`, every later legal move at most `best`; one strategy tree per legal
move. -/
def choiceOK (board : Board) (aiSymbol humanSymbol : Cell) (move best : Int)
    (certs : List Cert) : Bool :=
  (actionsFast board).contains move &&
    allZip
      (fun a c =>
        if a < move then
          boundOK 10 c (applyAction board a aiSymbol) false false (best - 1) aiSymbol humanSymbol
        else if a = move then
          boundOK 10 c (applyAction board a aiSymbol) false true best aiSymbol humanSymbol
        else
          boundOK 10 c (applyAction board a aiSymbol) false false best aiSymbol humanSymbol)
      (actionsFast board) certs

/-- Short name of `Cert.node`, for the trees below. -/
def nd (move : Int) (subs : List Cert) : Cert := Cert.node move subs

/-- The strategy tree of a board on which the game is over. -/
def leaf : Cert := Cert.node 0 []

/-- Strategy trees for the legal moves of the board `[_, _, _, _, _, _, _, _, _]`, X to move. -/
def certsOne : List Cert :=
  [nd 0 [nd 4 [nd 7 [], nd 7 [], nd 7 [], nd 5 [nd 6 [], nd 9 [], nd 6 [], nd 6 []], nd 7 [],
  nd 7 []], nd 4 [nd 7 [], nd 7 [], nd 7 [], nd 5 [nd 6 [], nd 9 [], nd 6 [], nd 6 []], nd 7 [],
  nd 7 []], nd 2 [nd 5 [nd 8 [], nd 8 [], nd 9 [], nd 8 []], nd 3 [], nd 3 [], nd 3 [], nd 3 [],
  nd 3 []], nd 2 [nd 7 [nd 6 [nd 9 [], nd 8 []], nd 4 [], nd 4 [], nd 4 []], nd 3 [], nd 3 [],
  nd 3 [], nd 3 [], nd 3 []], nd 3 [nd 5 [nd 7 [], nd 9 [], nd 7 [], nd 7 []], nd 2 [], nd 2 [],
  nd 2 [], nd 2 [], nd 2 []], nd 2 [nd 5 [nd 8 [], nd 8 [], nd 9 [], nd 8 []], nd 3 [], nd 3 [],
  nd 3 [], nd 3 [], nd 3 []], nd 3 [nd 5 [nd 7 [], nd 7 [], nd 9 [], nd 7 []], nd 2 [], nd 2 [],
  nd 2 [], nd 2 [], nd 2 []], nd 3 [nd 7 [nd 5 [], nd 4 [], nd 4 [], nd 4 []], nd 2 [], nd 2 [],
  nd 2 [], nd 2 [], nd 2 []]], nd 5 [nd 3 [nd 7 [], nd 7 [], nd 4 [nd 8 [leaf], nd 6 [],
  nd 6 []], nd 7 [], nd 7 []], nd 1 [nd 9 [], nd 9 [], nd 9 [], nd 9 [], nd 6 [nd 7 [leaf],
  nd 4 [], nd 4 []]], nd 1 [nd 9 [], nd 9 [], nd 9 [], nd 9 [], nd 3 [nd 7 [], nd 8 [leaf],
  nd 7 []]], nd 1 [nd 9 [], nd 9 [], nd 9 [], nd 9 [], nd 3 [nd 7 [], nd 8 [leaf], nd 7 []]],
  nd 4 [nd 6 [], nd 6 [], nd 9 [nd 3 [leaf], nd 1 [], nd 1 []], nd 6 [], nd 6 []], nd 1 [nd 9 [],
  nd 9 [], nd 9 [], nd 9 [], nd 7 [nd 4 [], nd 3 [], nd 3 []]], nd 4 [nd 6 [], nd 6 [],
  nd 3 [nd 7 [], nd 8 [leaf], nd 7 []], nd 6 [], nd 6 []]], nd 5 [nd 2 [nd 8 [], nd 8 [],
  nd 8 [], nd 4 [nd 9 [leaf], nd 6 [], nd 6 []], nd 8 []], nd 1 [nd 9 [], nd 9 [], nd 9 [],
  nd 9 [], nd 6 [nd 7 [leaf], nd 4 [], nd 4 []]], nd 2 [nd 8 [], nd 8 [], nd 8 [],
  nd 9 [nd 7 [leaf], nd 1 [], nd 1 []], nd 8 []], nd 9 [nd 2 [nd 8 [], nd 8 [], nd 4 [leaf]],
  nd 1 [], nd 1 [], nd 1 [], nd 1 []], nd 2 [nd 8 [], nd 8 [], nd 8 [], nd 9 [nd 4 [leaf],
  nd 1 [], nd 1 []], nd 8 []], nd 4 [nd 6 [], nd 6 [], nd 9 [nd 2 [leaf], nd 1 [], nd 1 []],
  nd 6 [], nd 6 []], nd 6 [nd 4 [], nd 4 [], nd 2 [nd 8 [], nd 8 [], nd 7 [leaf]], nd 4 [],
  nd 4 []]], nd 5 [nd 7 [nd 3 [], nd 2 [nd 8 [], nd 6 [leaf], nd 8 []], nd 3 [], nd 3 [],
  nd 3 []], nd 1 [nd 9 [], nd 9 [], nd 9 [], nd 9 [], nd 3 [nd 7 [], nd 8 [leaf], nd 7 []]],
  nd 2 [nd 8 [], nd 8 [], nd 8 [], nd 9 [nd 7 [leaf], nd 1 [], nd 1 []], nd 8 []], nd 1 [nd 9 [],
  nd 9 [], nd 9 [], nd 9 [], nd 3 [nd 7 [], nd 2 [], nd 2 []]], nd 1 [nd 9 [], nd 9 [], nd 9 [],
  nd 9 [], nd 8 [nd 3 [leaf], nd 2 [], nd 2 []]], nd 1 [nd 9 [], nd 9 [], nd 9 [], nd 9 [],
  nd 7 [nd 3 [], nd 6 [leaf], nd 3 []]], nd 2 [nd 8 [], nd 8 [], nd 8 [], nd 8 [], nd 7 [nd 3 [],
  nd 6 [leaf], nd 3 []]]], nd 1 [nd 8 [nd 7 [nd 9 [], nd 4 [], nd 4 []], nd 6 [nd 7 [leaf],
  nd 3 [leaf], nd 3 [leaf]], nd 4 [nd 7 [], nd 3 [leaf], nd 7 []], nd 3 [nd 6 [leaf],
  nd 4 [leaf], nd 4 [leaf]], nd 4 [nd 7 [], nd 7 [], nd 3 [leaf]]], nd 7 [nd 4 [],
  nd 6 [nd 8 [leaf], nd 2 [leaf], nd 2 [leaf]], nd 4 [], nd 4 [], nd 4 []],
  nd 6 [nd 8 [nd 7 [leaf], nd 3 [leaf], nd 3 [leaf]], nd 7 [nd 8 [leaf], nd 2 [leaf],
  nd 2 [leaf]], nd 3 [nd 9 [], nd 2 [], nd 2 []], nd 2 [nd 7 [leaf], nd 3 [], nd 3 []],
  nd 2 [nd 7 [leaf], nd 3 [], nd 3 []]], nd 4 [nd 7 [], nd 7 [], nd 3 [nd 8 [leaf], nd 2 [],
  nd 2 []], nd 7 [], nd 7 []], nd 3 [nd 8 [nd 6 [leaf], nd 4 [leaf], nd 4 [leaf]], nd 2 [],
  nd 2 [], nd 2 [], nd 2 []], nd 2 [nd 7 [nd 6 [leaf], nd 4 [], nd 4 []], nd 3 [], nd 3 [],
  nd 3 [], nd 3 []], nd 3 [nd 8 [nd 6 [leaf], nd 4 [leaf], nd 4 [leaf]], nd 2 [], nd 2 [],
  nd 2 [], nd 2 []]], nd 5 [nd 2 [nd 8 [], nd 8 [], nd 8 [], nd 7 [nd 9 [leaf], nd 3 [],
  nd 3 []], nd 8 []], nd 1 [nd 9 [], nd 9 [], nd 9 [], nd 9 [], nd 3 [nd 7 [], nd 8 [leaf],
  nd 7 []]], nd 9 [nd 2 [nd 8 [], nd 8 [], nd 4 [leaf]], nd 1 [], nd 1 [], nd 1 [], nd 1 []],
  nd 1 [nd 9 [], nd 9 [], nd 9 [], nd 9 [], nd 3 [nd 7 [], nd 2 [], nd 2 []]], nd 2 [nd 8 [],
  nd 8 [], nd 8 [], nd 9 [nd 4 [leaf], nd 1 [], nd 1 []], nd 8 []], nd 3 [nd 7 [], nd 7 [],
  nd 7 [], nd 9 [nd 4 [leaf], nd 1 [], nd 1 []], nd 7 []], nd 3 [nd 7 [], nd 7 [], nd 7 [],
  nd 8 [nd 2 [], nd 1 [leaf], nd 2 []], nd 7 []]], nd 5 [nd 4 [nd 6 [], nd 6 [], nd 2 [nd 8 [],
  nd 9 [leaf], nd 8 []], nd 6 [], nd 6 []], nd 4 [nd 6 [], nd 6 [], nd 9 [nd 3 [leaf], nd 1 [],
  nd 1 []], nd 6 [], nd 6 []], nd 2 [nd 8 [], nd 8 [], nd 8 [], nd 9 [nd 4 [leaf], nd 1 [],
  nd 1 []], nd 8 []], nd 1 [nd 9 [], nd 9 [], nd 9 [], nd 9 [], nd 8 [nd 3 [leaf], nd 2 [],
  nd 2 []]], nd 2 [nd 8 [], nd 8 [], nd 8 [], nd 9 [nd 4 [leaf], nd 1 [], nd 1 []], nd 8 []],
  nd 9 [nd 4 [nd 6 [], nd 6 [], nd 2 [leaf]], nd 1 [], nd 1 [], nd 1 [], nd 1 []], nd 8 [nd 2 [],
  nd 4 [nd 6 [], nd 6 [], nd 3 [leaf]], nd 2 [], nd 2 [], nd 2 []]], nd 5 [nd 4 [nd 6 [],
  nd 6 [], nd 3 [nd 7 [], nd 9 [leaf], nd 7 []], nd 6 [], nd 6 []], nd 1 [nd 9 [], nd 9 [],
  nd 9 [], nd 9 [], nd 7 [nd 4 [], nd 3 [], nd 3 []]], nd 4 [nd 6 [], nd 6 [], nd 9 [nd 2 [leaf],
  nd 1 [], nd 1 []], nd 6 [], nd 6 []], nd 1 [nd 9 [], nd 9 [], nd 9 [], nd 9 [], nd 7 [nd 3 [],
  nd 6 [leaf], nd 3 []]], nd 3 [nd 7 [], nd 7 [], nd 7 [], nd 9 [nd 4 [leaf], nd 1 [], nd 1 []],
  nd 7 []], nd 9 [nd 4 [nd 6 [], nd 6 [], nd 2 [leaf]], nd 1 [], nd 1 [], nd 1 [], nd 1 []],
  nd 7 [nd 3 [], nd 3 [], nd 6 [nd 4 [], nd 4 [], nd 1 [leaf]], nd 3 [], nd 3 []]],
  nd 5 [nd 2 [nd 8 [], nd 8 [], nd 8 [], nd 8 [], nd 7 [nd 6 [leaf], nd 3 [], nd 3 []]],
  nd 4 [nd 6 [], nd 6 [], nd 3 [nd 7 [], nd 8 [leaf], nd 7 []], nd 6 [], nd 6 []], nd 6 [nd 4 [],
  nd 4 [], nd 2 [nd 8 [], nd 8 [], nd 7 [leaf]], nd 4 [], nd 4 []], nd 2 [nd 8 [], nd 8 [],
  nd 8 [], nd 8 [], nd 7 [nd 3 [], nd 6 [leaf], nd 3 []]], nd 3 [nd 7 [], nd 7 [], nd 7 [],
  nd 8 [nd 2 [], nd 1 [leaf], nd 2 []], nd 7 []], nd 8 [nd 2 [], nd 4 [nd 6 [], nd 6 [],
  nd 3 [leaf]], nd 2 [], nd 2 [], nd 2 []], nd 7 [nd 3 [], nd 3 [], nd 6 [nd 4 [], nd 4 [],
  nd 1 [leaf]], nd 3 [], nd 3 []]]]

/-- Strategy trees for the legal moves of the board `[X, _, _, _, _, _, _, _, _]`, O to move. -/
def certsTwo : List Cert :=
  [nd 4 [nd 7 [], nd 7 [], nd 7 [], nd 5 [nd 6 [], nd 9 [], nd 6 [], nd 6 []], nd 7 [], nd 7 []],
  nd 4 [nd 7 [], nd 7 [], nd 7 [], nd 5 [nd 6 [], nd 9 [], nd 6 [], nd 6 []], nd 7 [], nd 7 []],
  nd 2 [nd 5 [nd 8 [], nd 8 [], nd 9 [], nd 8 []], nd 3 [], nd 3 [], nd 3 [], nd 3 [], nd 3 []],
  nd 0 [nd 3 [nd 7 [], nd 7 [], nd 4 [nd 8 [leaf], nd 6 [], nd 6 []], nd 7 [], nd 7 []],
  nd 2 [nd 8 [], nd 8 [], nd 8 [], nd 4 [nd 9 [leaf], nd 6 [], nd 6 []], nd 8 []], nd 7 [nd 3 [],
  nd 2 [nd 8 [], nd 6 [leaf], nd 8 []], nd 3 [], nd 3 [], nd 3 []], nd 2 [nd 8 [], nd 8 [],
  nd 8 [], nd 7 [nd 9 [leaf], nd 3 [], nd 3 []], nd 8 []], nd 4 [nd 6 [], nd 6 [], nd 2 [nd 8 [],
  nd 9 [leaf], nd 8 []], nd 6 [], nd 6 []], nd 4 [nd 6 [], nd 6 [], nd 3 [nd 7 [], nd 9 [leaf],
  nd 7 []], nd 6 [], nd 6 []], nd 2 [nd 8 [], nd 8 [], nd 8 [], nd 8 [], nd 7 [nd 6 [leaf],
  nd 3 [], nd 3 []]]], nd 3 [nd 5 [nd 7 [], nd 9 [], nd 7 [], nd 7 []], nd 2 [], nd 2 [],
  nd 2 [], nd 2 [], nd 2 []], nd 2 [nd 5 [nd 8 [], nd 8 [], nd 9 [], nd 8 []], nd 3 [], nd 3 [],
  nd 3 [], nd 3 [], nd 3 []], nd 3 [nd 5 [nd 7 [], nd 7 [], nd 9 [], nd 7 []], nd 2 [], nd 2 [],
  nd 2 [], nd 2 [], nd 2 []], nd 3 [nd 7 [nd 5 [], nd 4 [], nd 4 [], nd 4 []], nd 2 [], nd 2 [],
  nd 2 [], nd 2 [], nd 2 []]]

/-- Strategy trees for the legal moves of the board `[X, _, _, _, O, _, _, _, _]`, X to move. -/
def certsThree : List Cert :=
  [nd 0 [nd 7 [nd 6 [nd 9 [], nd 8 []], nd 4 [], nd 4 [], nd 4 []], nd 3 [], nd 3 [], nd 3 [],
  nd 3 [], nd 3 []], nd 2 [nd 8 [], nd 8 [], nd 8 [], nd 4 [nd 9 [leaf], nd 6 [], nd 6 []],
  nd 8 []], nd 7 [nd 3 [], nd 2 [nd 8 [], nd 6 [leaf], nd 8 []], nd 3 [], nd 3 [], nd 3 []],
  nd 2 [nd 8 [], nd 8 [], nd 8 [], nd 7 [nd 9 [leaf], nd 3 [], nd 3 []], nd 8 []], nd 4 [nd 6 [],
  nd 6 [], nd 2 [nd 8 [], nd 9 [leaf], nd 8 []], nd 6 [], nd 6 []], nd 4 [nd 6 [], nd 6 [],
  nd 3 [nd 7 [], nd 9 [leaf], nd 7 []], nd 6 [], nd 6 []], nd 2 [nd 8 [], nd 8 [], nd 8 [],
  nd 8 [], nd 7 [nd 6 [leaf], nd 3 [], nd 3 []]]]

/-- Strategy trees for the legal moves of the board `[X, X, _, _, O, _, _, _, _]`, O to move. -/
def certsFour : List Cert :=
  [nd 0 [nd 7 [], nd 7 [], nd 4 [nd 8 [leaf], nd 6 [], nd 6 []], nd 7 [], nd 7 []], nd 3 [],
  nd 3 [], nd 3 [], nd 3 [], nd 3 []]

/-- Strategy trees for the legal moves of the board `[X, X, O, _, O, _, _, _, _]`, X to move. -/
def certsFive : List Cert :=
  [nd 7 [], nd 7 [], nd 0 [nd 6 [nd 9 [], nd 8 []], nd 4 [], nd 4 [], nd 4 []], nd 7 [],
  nd 7 []]

/-- Strategy trees for the legal moves of the board `[X, X, O, _, O, _, X, _, _]`, O to move. -/
def certsSix : List Cert :=
  [nd 0 [nd 8 [leaf], nd 6 [], nd 6 []], nd 4 [], nd 4 [], nd 4 []]

/-- Strategy trees for the legal moves of the board `[X, X, O, O, O, _, X, _, _]`, X to move. -/
def certsSeven : List Cert :=
  [nd 0 [nd 9 [], nd 8 []], nd 6 [], nd 6 []]

/-- Strategy trees for the legal moves of the board `[X, X, O, O, O, X, X, _, _]`, O to move. -/
def certsEight : List Cert :=
  [nd 0 [leaf], nd 8 []]

/-- Strategy trees for the legal moves of the board `[X, X, O, O, O, X, X, O, _]`, X to move. -/
def certsNine : List Cert :=
  [leaf]

/-- The game loop of `main` with `makeAiMove` playing both sides: until the
board is terminal, the side to move plays the move that `makeAiMove` returns
for it and the turn passes to the other side. The first argument bounds the
number of turns; the result is the board on which the loop stops. -/
def selfPlay : Nat → Board → Cell → Option Board
  | 0, _, _ => none
  | fuel + 1, board, currentPlayer =>
    if isTerminal board then some board
    else
      match makeAiMove board currentPlayer (other currentPlayer) with
      | none => none
      | some move => selfPlay fuel (applyAction board move currentPlayer) (other currentPlayer)

/-- The board of the self-play game after 1 move. -/
def playOne : Board :=
  [Cell.X, Cell.empty, Cell.empty, Cell.empty, Cell.empty,
    Cell.empty, Cell.empty, Cell.empty, Cell.empty]

/-- The board of the self-play game after 2 moves. -/
def playTwo : Board :=
  [Cell.X, Cell.empty, Cell.empty, Cell.empty, Cell.O,
    Cell.empty, Cell.empty, Cell.empty, Cell.empty]

/-- The board of the self-play game after 3 moves. -/
def playThree : Board :=
  [Cell.X, Cell.X, Cell.empty, Cell.empty, Cell.O,
    Cell.empty, Cell.empty, Cell.empty, Cell.empty]

/-- The board of the self-play game after 4 moves. -/
def playFour : Board :=
  [Cell.X, Cell.X, Cell.O, Cell.empty, Cell.O,
    Cell.empty, Cell.empty, Cell.empty, Cell.empty]

/-- The board of the self-play game after 5 moves. -/
def playFive : Board :=
  [Cell.X, Cell.X, Cell.O, Cell.empty, Cell.O,
    Cell.empty, Cell.X, Cell.empty, Cell.empty]

/-- The board of the self-play game after 6 moves. -/
def playSix : Board :=
  [Cell.X, Cell.X, Cell.O, Cell.O, Cell.O,
    Cell.empty, Cell.X, Cell.empty, Cell.empty]

/-- The board of the self-play game after 7 moves. -/
def playSeven : Board :=
  [Cell.X, Cell.X, Cell.O, Cell.O, Cell.O,
    Cell.X, Cell.X, Cell.empty, Cell.empty]

/-- The board of the self-play game after 8 moves. -/
def playEight : Board :=
  [Cell.X, Cell.X, Cell.O, Cell.O, Cell.O,
    Cell.X, Cell.X, Cell.O, Cell.empty]

/-- The board on which the self-play game ends. -/
def playNine : Board :=
  [Cell.X, Cell.X, Cell.O, Cell.O, Cell.O,
    Cell.X, Cell.X, Cell.O, Cell.X]

/-- The root node that `makeAiMove` creates for the board
`[X, X, _, O, O, _, _, _, _]`. -/
def exampleRoot : TreeNode := TreeNode.mk (exampleBoard Cell.X Cell.O) (-1) []

mutual
/-- The number of nodes of a search tree: the node and all its descendants. -/
def TreeNode.size : TreeNode → Nat
  | TreeNode.mk _ _ cs => 1 + sizeList cs
/-- The number of nodes of a list of search trees. -/
def sizeList : List TreeNode → Nat
  | [] => 0
  | c :: cs => c.size + sizeList cs
end

/-- The search of `alphaBetaMinimax` with the depth bound taken out: the same
function without the `depth` argument and without the test `depth == 0`. -/
def alphaBetaNoDepth :
    Nat → TreeNode → Int → Int → Bool → Int → Cell → Cell → Option SearchResult
  | 0, _, _, _, _, _, _, _ => none
  | fuel + 1, node, alpha, beta, isMaximizing, nodeCount, aiSymbol, humanSymbol =>
    let nodeCount1 := nodeCount + 1
    let board := node.board
    if isTerminal board then
      some ⟨utility board aiSymbol, node, nodeCount1⟩
    else
      let player := if isMaximizing then aiSymbol else humanSymbol
      let actions := getPossibleActions board
      if isMaximizing then
        maxLoop
          (fun child a b c => alphaBetaNoDepth fuel child a b false c aiSymbol humanSymbol)
          player actions node alpha beta (-1000) nodeCount1
      else
        minLoop
          (fun child a b c => alphaBetaNoDepth fuel child a b true c aiSymbol humanSymbol)
          player actions node alpha beta 1000 nodeCount1

/-! ## The search with a record of its calls -/

/-- The arguments of one call of `alphaBetaMinimax` that the depth bound is
about: the board of the node, `depth` and `isMaximizing`. -/
structure Call where
  board : Board
  depth : Int
  isMaximizing : Bool

/-- The loop `maxLoop` with the record of calls handed from one recursive call
to the next. -/
def maxLoopTraced
    (search : TreeNode → Int → Int → Int → List Call → Option (SearchResult × List Call))
    (player : Cell) :
    List Int → TreeNode → Int → Int → Int → Int → List Call →
      Option (SearchResult × List Call)
  | [], node, _, _, bestValue, nodeCount, calls => some (⟨bestValue, node, nodeCount⟩, calls)
  | action :: rest, node, alpha, beta, bestValue, nodeCount, calls =>
    let newBoard := applyAction node.board action player
    let node1 := insertChild node newBoard action
    match search (lastChild node1) alpha beta nodeCount calls with
    | none => none
    | some (r, calls1) =>
      let node2 := setLastChild node1 r.node
      let bestValue1 := max bestValue r.value
      let alpha1 := max alpha r.value
      if beta ≤ alpha1 then some (⟨bestValue1, node2, r.nodeCount⟩, calls1)
      else maxLoopTraced search player rest node2 alpha1 beta bestValue1 r.nodeCount calls1

/-- The loop `minLoop` with the record of calls handed from one recursive call
to the next. -/
def minLoopTraced
    (search : TreeNode → Int → Int → Int → List Call → Option (SearchResult × List Call))
    (player : Cell) :
    List Int → TreeNode → Int → Int → Int → Int → List Call →
      Option (SearchResult × List Call)
  | [], node, _, _, bestValue, nodeCount, calls => some (⟨bestValue, node, nodeCount⟩, calls)
  | action :: rest, node, alpha, beta, bestValue, nodeCount, calls =>
    let newBoard := applyAction node.board action player
    let node1 := insertChild node newBoard action
    match search (lastChild node1) alpha beta nodeCount calls with
    | none => none
    | some (r, calls1) =>
      let node2 := setLastChild node1 r.node
      let bestValue1 := min bestValue r.value
      let beta1 := min beta r.value
      if beta1 ≤ alpha then some (⟨bestValue1, node2, r.nodeCount⟩, calls1)
      else minLoopTraced search player rest node2 alpha beta1 bestValue1 r.nodeCount calls1

/-- Source `alphaBetaMinimax`, keeping a record of its calls: on entry, where
the source increments `nodeCount`, the call appends the board of its node and
the `depth` and `isMaximizing` it was given to `calls`. Nothing reads the
record, and the rest is `alphaBetaMinimax` as embedded above. -/
def alphaBetaMinimaxTraced :
    Nat → TreeNode → Int → Int → Int → Bool → Int → Cell → Cell → List Call →
      Option (SearchResult × List Call)
  | 0, _, _, _, _, _, _, _, _, _ => none
  | fuel + 1, node, depth, alpha, beta, isMaximizing, nodeCount, aiSymbol, humanSymbol, calls =>
    let nodeCount1 := nodeCount + 1
    let board := node.board
    let calls1 := calls ++ [⟨board, depth, isMaximizing⟩]
    if isTerminal board || depth == 0 then
      some (⟨utility board aiSymbol, node, nodeCount1⟩, calls1)
    else
      let player := if isMaximizing then aiSymbol else humanSymbol
      let actions := getPossibleActions board
      if isMaximizing then
        maxLoopTraced
          (fun child a b c l =>
            alphaBetaMinimaxTraced fuel child (depth - 1) a b false c aiSymbol humanSymbol l)
          player actions node alpha beta (-1000) nodeCount1 calls1
      else
        minLoopTraced
          (fun child a b c l =>
            alphaBetaMinimaxTraced fuel child (depth - 1) a b true c aiSymbol humanSymbol l)
          player actions node alpha beta 1000 nodeCount1 calls1

/-- The loop `rootLoop` of `makeAiMove` with the record of calls. -/
def rootLoopTraced (fuel : Nat) (board : Board) (depth : Int) (aiSymbol humanSymbol : Cell) :
    List Int → RootState → List Call → Option (RootState × List Call)
  | [], s, calls => some (s, calls)
  | action :: rest, s, calls =>
    let newBoard := applyAction board action aiSymbol
    let root1 := insertChild s.root newBoard action
    match alphaBetaMinimaxTraced fuel (lastChild root1) (depth - 1) (-1000) 1000 false
        s.nodeCount aiSymbol humanSymbol calls with
    | none => none
    | some (r, calls1) =>
      let root2 := setLastChild root1 r.node
      if r.value > s.bestValue then
        rootLoopTraced fuel board depth aiSymbol humanSymbol rest
          ⟨r.value, action, root2, r.nodeCount⟩ calls1
      else
        rootLoopTraced fuel board depth aiSymbol humanSymbol rest
          ⟨s.bestValue, s.bestMove, root2, r.nodeCount⟩ calls1

/-- Source `makeAiMove` up to its two output lines, with the record of the
calls of `alphaBetaMinimax` made during the decision, in the order in which
they are made. The record starts empty: the root is counted in `nodeCount` but
`alphaBetaMinimax` is not called on it. -/
def makeAiMoveTraced (board : Board) (aiSymbol humanSymbol : Cell) :
    Option (RootState × List Call) :=
  let depth := countEmpty board
  rootLoopTraced depth.toNat board depth aiSymbol humanSymbol (getPossibleActions board)
    ⟨-1000, -1, TreeNode.mk board (-1) [], 1⟩ []

/-- The states of the game loop of `main`, as board and `currentPlayer`, for
the human symbol `playerSymbol`; the computer holds `other playerSymbol`. The
loop starts on the empty board with `X` to move. While the board is not
terminal, either it is the human's turn and any index between 1 and 9 of an
empty cell is accepted and gets the human's symbol, or it is the computer's
turn and the cell returned by `makeAiMove` gets the computer's symbol; then
the turn passes to the other side. -/
inductive MainLoop (playerSymbol : Cell) : Board → Cell → Prop where
  | start : MainLoop playerSymbol emptyBoard Cell.X
  | human (board : Board) (currentPlayer : Cell) (move : Int) :
      MainLoop playerSymbol board currentPlayer → isTerminal board = false →
      currentPlayer = playerSymbol →
      1 ≤ move → move ≤ 9 → cellAt board (move - 1).toNat = Cell.empty →
      MainLoop playerSymbol (applyAction board move playerSymbol) (other currentPlayer)
  | computer (board : Board) (currentPlayer : Cell) (move : Int) :
      MainLoop playerSymbol board currentPlayer → isTerminal board = false →
      currentPlayer ≠ playerSymbol →
      makeAiMove board (other playerSymbol) playerSymbol = some move →
      MainLoop playerSymbol (applyAction board move (other playerSymbol)) (other currentPlayer)

/-- A strategy tree for the lower bound 0 on the minimax value of the empty
board when the computer holds `X` and moves first. -/
def certFirst : Cert :=
  nd 1 [nd 4 [nd 7 [], nd 7 [], nd 7 [], nd 5 [nd 6 [], nd 9 [], nd 6 [], nd 6 []], nd 7 [],
  nd 7 []], nd 4 [nd 7 [], nd 7 [], nd 7 [], nd 5 [nd 6 [], nd 9 [], nd 6 [], nd 6 []], nd 7 [],
  nd 7 []], nd 2 [nd 5 [nd 8 [], nd 8 [], nd 9 [], nd 8 []], nd 3 [], nd 3 [], nd 3 [], nd 3 [],
  nd 3 []], nd 2 [nd 7 [nd 6 [nd 9 [], nd 8 []], nd 4 [], nd 4 [], nd 4 []], nd 3 [], nd 3 [],
  nd 3 [], nd 3 [], nd 3 []], nd 3 [nd 5 [nd 7 [], nd 9 [], nd 7 [], nd 7 []], nd 2 [], nd 2 [],
  nd 2 [], nd 2 [], nd 2 []], nd 2 [nd 5 [nd 8 [], nd 8 [], nd 9 [], nd 8 []], nd 3 [], nd 3 [],
  nd 3 [], nd 3 [], nd 3 []], nd 3 [nd 5 [nd 7 [], nd 7 [], nd 9 [], nd 7 []], nd 2 [], nd 2 [],
  nd 2 [], nd 2 [], nd 2 []], nd 3 [nd 7 [nd 5 [], nd 4 [], nd 4 [], nd 4 []], nd 2 [], nd 2 [],
  nd 2 [], nd 2 [], nd 2 []]]

/-- A strategy tree for the lower bound 0 on the minimax value of the empty
board when the computer holds `O` and the human moves first. -/
def certSecond : Cert :=
  nd 0 [nd 5 [nd 3 [nd 7 [], nd 7 [], nd 4 [nd 8 [leaf], nd 6 [], nd 6 []], nd 7 [], nd 7 []],
  nd 2 [nd 8 [], nd 8 [], nd 8 [], nd 4 [nd 9 [leaf], nd 6 [], nd 6 []], nd 8 []], nd 7 [nd 3 [],
  nd 2 [nd 8 [], nd 6 [leaf], nd 8 []], nd 3 [], nd 3 [], nd 3 []], nd 2 [nd 8 [], nd 8 [],
  nd 8 [], nd 7 [nd 9 [leaf], nd 3 [], nd 3 []], nd 8 []], nd 4 [nd 6 [], nd 6 [], nd 2 [nd 8 [],
  nd 9 [leaf], nd 8 []], nd 6 [], nd 6 []], nd 4 [nd 6 [], nd 6 [], nd 3 [nd 7 [], nd 9 [leaf],
  nd 7 []], nd 6 [], nd 6 []], nd 2 [nd 8 [], nd 8 [], nd 8 [], nd 8 [], nd 7 [nd 6 [leaf],
  nd 3 [], nd 3 []]]], nd 5 [nd 3 [nd 7 [], nd 7 [], nd 4 [nd 8 [leaf], nd 6 [], nd 6 []],
  nd 7 [], nd 7 []], nd 1 [nd 9 [], nd 9 [], nd 9 [], nd 9 [], nd 6 [nd 7 [leaf], nd 4 [],
  nd 4 []]], nd 1 [nd 9 [], nd 9 [], nd 9 [], nd 9 [], nd 3 [nd 7 [], nd 8 [leaf], nd 7 []]],
  nd 1 [nd 9 [], nd 9 [], nd 9 [], nd 9 [], nd 3 [nd 7 [], nd 8 [leaf], nd 7 []]], nd 4 [nd 6 [],
  nd 6 [], nd 9 [nd 3 [leaf], nd 1 [], nd 1 []], nd 6 [], nd 6 []], nd 1 [nd 9 [], nd 9 [],
  nd 9 [], nd 9 [], nd 7 [nd 4 [], nd 3 [], nd 3 []]], nd 4 [nd 6 [], nd 6 [], nd 3 [nd 7 [],
  nd 8 [leaf], nd 7 []], nd 6 [], nd 6 []]], nd 5 [nd 2 [nd 8 [], nd 8 [], nd 8 [],
  nd 4 [nd 9 [leaf], nd 6 [], nd 6 []], nd 8 []], nd 1 [nd 9 [], nd 9 [], nd 9 [], nd 9 [],
  nd 6 [nd 7 [leaf], nd 4 [], nd 4 []]], nd 2 [nd 8 [], nd 8 [], nd 8 [], nd 9 [nd 7 [leaf],
  nd 1 [], nd 1 []], nd 8 []], nd 9 [nd 2 [nd 8 [], nd 8 [], nd 4 [leaf]], nd 1 [], nd 1 [],
  nd 1 [], nd 1 []], nd 2 [nd 8 [], nd 8 [], nd 8 [], nd 9 [nd 4 [leaf], nd 1 [], nd 1 []],
  nd 8 []], nd 4 [nd 6 [], nd 6 [], nd 9 [nd 2 [leaf], nd 1 [], nd 1 []], nd 6 [], nd 6 []],
  nd 6 [nd 4 [], nd 4 [], nd 2 [nd 8 [], nd 8 [], nd 7 [leaf]], nd 4 [], nd 4 []]],
  nd 5 [nd 7 [nd 3 [], nd 2 [nd 8 [], nd 6 [leaf], nd 8 []], nd 3 [], nd 3 [], nd 3 []],
  nd 1 [nd 9 [], nd 9 [], nd 9 [], nd 9 [], nd 3 [nd 7 [], nd 8 [leaf], nd 7 []]], nd 2 [nd 8 [],
  nd 8 [], nd 8 [], nd 9 [nd 7 [leaf], nd 1 [], nd 1 []], nd 8 []], nd 1 [nd 9 [], nd 9 [],
  nd 9 [], nd 9 [], nd 3 [nd 7 [], nd 2 [], nd 2 []]], nd 1 [nd 9 [], nd 9 [], nd 9 [], nd 9 [],
  nd 8 [nd 3 [leaf], nd 2 [], nd 2 []]], nd 1 [nd 9 [], nd 9 [], nd 9 [], nd 9 [], nd 7 [nd 3 [],
  nd 6 [leaf], nd 3 []]], nd 2 [nd 8 [], nd 8 [], nd 8 [], nd 8 [], nd 7 [nd 3 [], nd 6 [leaf],
  nd 3 []]]], nd 1 [nd 8 [nd 7 [nd 9 [], nd 4 [], nd 4 []], nd 6 [nd 7 [leaf], nd 3 [leaf],
  nd 3 [leaf]], nd 4 [nd 7 [], nd 3 [leaf], nd 7 []], nd 3 [nd 6 [leaf], nd 4 [leaf],
  nd 4 [leaf]], nd 4 [nd 7 [], nd 7 [], nd 3 [leaf]]], nd 7 [nd 4 [], nd 6 [nd 8 [leaf],
  nd 2 [leaf], nd 2 [leaf]], nd 4 [], nd 4 [], nd 4 []], nd 6 [nd 8 [nd 7 [leaf], nd 3 [leaf],
  nd 3 [leaf]], nd 7 [nd 8 [leaf], nd 2 [leaf], nd 2 [leaf]], nd 3 [nd 9 [], nd 2 [], nd 2 []],
  nd 2 [nd 7 [leaf], nd 3 [], nd 3 []], nd 2 [nd 7 [leaf], nd 3 [], nd 3 []]], nd 4 [nd 7 [],
  nd 7 [], nd 3 [nd 8 [leaf], nd 2 [], nd 2 []], nd 7 [], nd 7 []], nd 3 [nd 8 [nd 6 [leaf],
  nd 4 [leaf], nd 4 [leaf]], nd 2 [], nd 2 [], nd 2 [], nd 2 []], nd 2 [nd 7 [nd 6 [leaf],
  nd 4 [], nd 4 []], nd 3 [], nd 3 [], nd 3 [], nd 3 []], nd 3 [nd 8 [nd 6 [leaf], nd 4 [leaf],
  nd 4 [leaf]], nd 2 [], nd 2 [], nd 2 [], nd 2 []]], nd 5 [nd 2 [nd 8 [], nd 8 [], nd 8 [],
  nd 7 [nd 9 [leaf], nd 3 [], nd 3 []], nd 8 []], nd 1 [nd 9 [], nd 9 [], nd 9 [], nd 9 [],
  nd 3 [nd 7 [], nd 8 [leaf], nd 7 []]], nd 9 [nd 2 [nd 8 [], nd 8 [], nd 4 [leaf]], nd 1 [],
  nd 1 [], nd 1 [], nd 1 []], nd 1 [nd 9 [], nd 9 [], nd 9 [], nd 9 [], nd 3 [nd 7 [], nd 2 [],
  nd 2 []]], nd 2 [nd 8 [], nd 8 [], nd 8 [], nd 9 [nd 4 [leaf], nd 1 [], nd 1 []], nd 8 []],
  nd 3 [nd 7 [], nd 7 [], nd 7 [], nd 9 [nd 4 [leaf], nd 1 [], nd 1 []], nd 7 []], nd 3 [nd 7 [],
  nd 7 [], nd 7 [], nd 8 [nd 2 [], nd 1 [leaf], nd 2 []], nd 7 []]], nd 5 [nd 4 [nd 6 [],
  nd 6 [], nd 2 [nd 8 [], nd 9 [leaf], nd 8 []], nd 6 [], nd 6 []], nd 4 [nd 6 [], nd 6 [],
  nd 9 [nd 3 [leaf], nd 1 [], nd 1 []], nd 6 [], nd 6 []], nd 2 [nd 8 [], nd 8 [], nd 8 [],
  nd 9 [nd 4 [leaf], nd 1 [], nd 1 []], nd 8 []], nd 1 [nd 9 [], nd 9 [], nd 9 [], nd 9 [],
  nd 8 [nd 3 [leaf], nd 2 [], nd 2 []]], nd 2 [nd 8 [], nd 8 [], nd 8 [], nd 9 [nd 4 [leaf],
  nd 1 [], nd 1 []], nd 8 []], nd 9 [nd 4 [nd 6 [], nd 6 [], nd 2 [leaf]], nd 1 [], nd 1 [],
  nd 1 [], nd 1 []], nd 8 [nd 2 [], nd 4 [nd 6 [], nd 6 [], nd 3 [leaf]], nd 2 [], nd 2 [],
  nd 2 []]], nd 5 [nd 4 [nd 6 [], nd 6 [], nd 3 [nd 7 [], nd 9 [leaf], nd 7 []], nd 6 [],
  nd 6 []], nd 1 [nd 9 [], nd 9 [], nd 9 [], nd 9 [], nd 7 [nd 4 [], nd 3 [], nd 3 []]],
  nd 4 [nd 6 [], nd 6 [], nd 9 [nd 2 [leaf], nd 1 [], nd 1 []], nd 6 [], nd 6 []], nd 1 [nd 9 [],
  nd 9 [], nd 9 [], nd 9 [], nd 7 [nd 3 [], nd 6 [leaf], nd 3 []]], nd 3 [nd 7 [], nd 7 [],
  nd 7 [], nd 9 [nd 4 [leaf], nd 1 [], nd 1 []], nd 7 []], nd 9 [nd 4 [nd 6 [], nd 6 [],
  nd 2 [leaf]], nd 1 [], nd 1 [], nd 1 [], nd 1 []], nd 7 [nd 3 [], nd 3 [], nd 6 [nd 4 [],
  nd 4 [], nd 1 [leaf]], nd 3 [], nd 3 []]], nd 5 [nd 2 [nd 8 [], nd 8 [], nd 8 [], nd 8 [],
  nd 7 [nd 6 [leaf], nd 3 [], nd 3 []]], nd 4 [nd 6 [], nd 6 [], nd 3 [nd 7 [], nd 8 [leaf],
  nd 7 []], nd 6 [], nd 6 []], nd 6 [nd 4 [], nd 4 [], nd 2 [nd 8 [], nd 8 [], nd 7 [leaf]],
  nd 4 [], nd 4 []], nd 2 [nd 8 [], nd 8 [], nd 8 [], nd 8 [], nd 7 [nd 3 [], nd 6 [leaf],
  nd 3 []]], nd 3 [nd 7 [], nd 7 [], nd 7 [], nd 8 [nd 2 [], nd 1 [leaf], nd 2 []], nd 7 []],
  nd 8 [nd 2 [], nd 4 [nd 6 [], nd 6 [], nd 3 [leaf]], nd 2 [], nd 2 [], nd 2 []], nd 7 [nd 3 [],
  nd 3 [], nd 6 [nd 4 [], nd 4 [], nd 1 [leaf]], nd 3 [], nd 3 []]]]

/-! ## Theorems -/

/-! ### The value part agrees with the embedded search -/

theorem board_mk (b : Board) (m : Int) (cs : List TreeNode) : (TreeNode.mk b m cs).board = b := rfl

theorem lastChild_insertChild (node : TreeNode) (b : Board) (m : Int) :
    lastChild (insertChild node b m) = TreeNode.mk b m [] := by
  simp [lastChild, insertChild, TreeNode.children]

theorem board_insertChild (node : TreeNode) (b : Board) (m : Int) :
    (insertChild node b m).board = node.board := by
  simp [insertChild, TreeNode.board]

theorem board_setLastChild (node child : TreeNode) :
    (setLastChild node child).board = node.board := by
  simp [setLastChild, TreeNode.board]

theorem maxLoop_value (search : TreeNode → Int → Int → Int → Option SearchResult)
    (searchV : Board → Int → Int → Option Int) (player : Cell)
    (h : ∀ child a b c, (search child a b c).map SearchResult.value = searchV child.board a b) :
    ∀ (actions : List Int) (node : TreeNode) (alpha beta bestValue nodeCount : Int),
      (maxLoop search player actions node alpha beta bestValue nodeCount).map SearchResult.value
        = maxLoopV searchV node.board player actions alpha beta bestValue := by
  intro actions
  induction actions with
  | nil => intro node alpha beta bestValue nodeCount; simp [maxLoop, maxLoopV]
  | cons action rest ih =>
    intro node alpha beta bestValue nodeCount
    have hc := h (TreeNode.mk (applyAction node.board action player) action []) alpha beta nodeCount
    simp only [maxLoop, maxLoopV, lastChild_insertChild]
    simp only [board_mk] at hc
    cases hs : search (TreeNode.mk (applyAction node.board action player) action [])
        alpha beta nodeCount with
    | none =>
      rw [hs] at hc
      simp only [Option.map_none'] at hc
      simp [← hc]
    | some r =>
      rw [hs] at hc
      simp only [Option.map_some'] at hc
      simp only [← hc]
      by_cases hb : beta ≤ max alpha r.value
      · simp [hb]
      · simp only [hb, if_false]
        rw [ih]
        simp [board_setLastChild, board_insertChild]

theorem minLoop_value (search : TreeNode → Int → Int → Int → Option SearchResult)
    (searchV : Board → Int → Int → Option Int) (player : Cell)
    (h : ∀ child a b c, (search child a b c).map SearchResult.value = searchV child.board a b) :
    ∀ (actions : List Int) (node : TreeNode) (alpha beta bestValue nodeCount : Int),
      (minLoop search player actions node alpha beta bestValue nodeCount).map SearchResult.value
        = minLoopV searchV node.board player actions alpha beta bestValue := by
  intro actions
  induction actions with
  | nil => intro node alpha beta bestValue nodeCount; simp [minLoop, minLoopV]
  | cons action rest ih =>
    intro node alpha beta bestValue nodeCount
    have hc := h (TreeNode.mk (applyAction node.board action player) action []) alpha beta nodeCount
    simp only [minLoop, minLoopV, lastChild_insertChild]
    simp only [board_mk] at hc
    cases hs : search (TreeNode.mk (applyAction node.board action player) action [])
        alpha beta nodeCount with
    | none =>
      rw [hs] at hc
      simp only [Option.map_none'] at hc
      simp [← hc]
    | some r =>
      rw [hs] at hc
      simp only [Option.map_some'] at hc
      simp only [← hc]
      by_cases hb : min beta r.value ≤ alpha
      · simp [hb]
      · simp only [hb, if_false]
        rw [ih]
        simp [board_setLastChild, board_insertChild]

/-- The value returned by `alphaBetaMinimax` depends on the board of the node
only, not on the tree grown so far nor on the counter. -/
theorem alphaBetaMinimax_value (fuel : Nat) :
    ∀ (node : TreeNode) (depth alpha beta : Int) (isMaximizing : Bool) (nodeCount : Int)
      (aiSymbol humanSymbol : Cell),
      (alphaBetaMinimax fuel node depth alpha beta isMaximizing nodeCount aiSymbol
          humanSymbol).map SearchResult.value
        = abValue fuel node.board depth alpha beta isMaximizing aiSymbol humanSymbol := by
  induction fuel with
  | zero => intros; simp [alphaBetaMinimax, abValue]
  | succ fuel ih =>
    intro node depth alpha beta isMaximizing nodeCount aiSymbol humanSymbol
    simp only [alphaBetaMinimax, abValue]
    by_cases ht : (isTerminal node.board || depth == 0) = true
    · simp [ht]
    · simp only [ht, if_false]
      cases isMaximizing with
      | true =>
        simp only [if_true]
        exact maxLoop_value _ _ _ (fun child a b c => ih child (depth - 1) a b false c _ _) _ _ _ _ _ _
      | false =>
        simp only [Bool.false_eq_true, if_false]
        exact minLoop_value _ _ _ (fun child a b c => ih child (depth - 1) a b true c _ _) _ _ _ _ _ _

theorem rootLoop_value (fuel : Nat) (board : Board) (depth : Int) (aiSymbol humanSymbol : Cell) :
    ∀ (actions : List Int) (s : RootState),
      (rootLoop fuel board depth aiSymbol humanSymbol actions s).map
          (fun t => (t.bestValue, t.bestMove))
        = rootLoopV fuel board depth aiSymbol humanSymbol actions s.bestValue s.bestMove := by
  intro actions
  induction actions with
  | nil => intro s; simp [rootLoop, rootLoopV]
  | cons action rest ih =>
    intro s
    have hc := alphaBetaMinimax_value fuel (TreeNode.mk (applyAction board action aiSymbol) action [])
      (depth - 1) (-1000) 1000 false s.nodeCount aiSymbol humanSymbol
    simp only [rootLoop, rootLoopV, lastChild_insertChild]
    simp only [board_mk] at hc
    cases hs : alphaBetaMinimax fuel (TreeNode.mk (applyAction board action aiSymbol) action [])
        (depth - 1) (-1000) 1000 false s.nodeCount aiSymbol humanSymbol with
    | none =>
      rw [hs] at hc
      simp only [Option.map_none'] at hc
      simp [← hc]
    | some r =>
      rw [hs] at hc
      simp only [Option.map_some'] at hc
      simp only [← hc]
      by_cases hb : r.value > s.bestValue
      · simp only [hb, if_true]
        rw [ih]
      · simp only [hb, if_false]
        rw [ih]

/-- The move returned by `makeAiMove` is the second component of the value
part of its loop. -/
theorem makeAiMove_eq (board : Board) (aiSymbol humanSymbol : Cell) :
    makeAiMove board aiSymbol humanSymbol
      = (makeAiMoveV board aiSymbol humanSymbol).map fun r => r.2 := by
  have h := rootLoop_value (countEmpty board).toNat board (countEmpty board) aiSymbol humanSymbol
    (getPossibleActions board) ⟨-1000, -1, TreeNode.mk board (-1) [], 1⟩
  simp only [makeAiMove, makeAiMoveState, makeAiMoveV]
  rw [← h]
  simp [Option.map_map, Function.comp_def]

/-! ### Board lemmas -/

theorem cellAt_eq_getElem (b : Board) (i : Nat) (h : i < b.length) : cellAt b i = b[i] := by
  simp [cellAt, List.getD_eq_getElem?_getD, List.getElem?_eq_getElem h]

theorem mem_getPossibleActions {b : Board} {a : Int} :
    a ∈ getPossibleActions b ↔ ∃ i : Nat, i < 9 ∧ cellAt b i = Cell.empty ∧ a = (i : Int) + 1 := by
  simp only [getPossibleActions, List.mem_filterMap, List.mem_range]
  constructor
  · rintro ⟨i, hi, h⟩
    by_cases hc : cellAt b i = Cell.empty
    · simp only [hc, if_true, Option.some.injEq] at h
      exact ⟨i, hi, hc, h.symm⟩
    · simp [hc] at h
  · rintro ⟨i, hi, hc, rfl⟩
    exact ⟨i, hi, by simp [hc]⟩

theorem length_applyAction (b : Board) (a : Int) (p : Cell) :
    (applyAction b a p).length = b.length := by
  simp [applyAction]

theorem applyAction_succ (b : Board) (i : Nat) (p : Cell) :
    applyAction b ((i : Int) + 1) p = b.set i p := by
  simp [applyAction]

theorem count_applyAction {b : Board} {a : Int} {p : Cell} (hlen : b.length = 9)
    (ha : a ∈ getPossibleActions b) (hp : p ≠ Cell.empty) :
    (applyAction b a p).count Cell.empty + 1 = b.count Cell.empty := by
  obtain ⟨i, hi, hc, rfl⟩ := mem_getPossibleActions.1 ha
  have hil : i < b.length := by omega
  rw [applyAction_succ, List.count_set _ _ _ _ hil]
  rw [cellAt_eq_getElem b i hil] at hc
  have hpos : 0 < b.count Cell.empty := by
    rw [List.count_pos_iff]
    rw [← hc]
    exact List.getElem_mem hil
  have h1 : (b[i] == Cell.empty) = true := by simp [hc]
  have h2 : (p == Cell.empty) = false := by simp [hp]
  simp only [h1, h2, if_true]
  simp only [Bool.false_eq_true, if_false]
  omega

theorem isFull_iff_count (b : Board) : isFull b = true ↔ b.count Cell.empty = 0 := by
  simp only [isFull, List.all_eq_true, List.count_eq_zero]
  constructor
  · intro h hm
    have := h _ hm
    simp at this
  · intro h c hc
    by_cases he : c = Cell.empty
    · subst he; exact absurd hc h
    · simp [he]

theorem getPossibleActions_ne_nil {b : Board} (hlen : b.length = 9) (hf : isFull b = false) :
    getPossibleActions b ≠ [] := by
  have hc : b.count Cell.empty ≠ 0 := by
    intro h
    rw [(isFull_iff_count b).2 h] at hf
    exact Bool.noConfusion hf
  have hm : Cell.empty ∈ b := by
    by_contra hm
    exact hc (List.count_eq_zero.2 hm)
  obtain ⟨i, hi, hbi⟩ := List.getElem_of_mem hm
  have hmem : ((i : Int) + 1) ∈ getPossibleActions b :=
    mem_getPossibleActions.2 ⟨i, by omega, by rw [cellAt_eq_getElem b i hi]; exact hbi, rfl⟩
  intro hnil
  rw [hnil] at hmem
  exact List.not_mem_nil _ hmem

theorem isFull_of_isTerminal_false {b : Board} (h : isTerminal b = false) : isFull b = false := by
  simp only [isTerminal, Bool.or_eq_false_iff] at h
  exact h.2

theorem utility_range (b : Board) (ai : Cell) : -10 ≤ utility b ai ∧ utility b ai ≤ 10 := by
  simp only [utility]
  split_ifs <;> omega

/-! ### Alpha-beta against plain minimax -/

theorem le_foldl_max (l : List Int) (a : Int) : a ≤ l.foldl max a := by
  induction l generalizing a with
  | nil => simp
  | cons x xs ih =>
    simp only [List.foldl_cons]
    have := ih (max a x)
    omega

theorem foldl_min_le (l : List Int) (a : Int) : l.foldl min a ≤ a := by
  induction l generalizing a with
  | nil => simp
  | cons x xs ih =>
    simp only [List.foldl_cons]
    have := ih (min a x)
    omega

theorem foldl_max_range (lo hi : Int) (l : List Int) (a : Int) (ha : lo ≤ a ∧ a ≤ hi)
    (hl : ∀ x ∈ l, lo ≤ x ∧ x ≤ hi) : lo ≤ l.foldl max a ∧ l.foldl max a ≤ hi := by
  induction l generalizing a with
  | nil => simpa using ha
  | cons x xs ih =>
    simp only [List.foldl_cons]
    have hx := hl x (List.mem_cons_self _ _)
    exact ih (max a x) (by omega) (fun y hy => hl y (List.mem_cons_of_mem _ hy))

theorem foldl_min_range (lo hi : Int) (l : List Int) (a : Int) (ha : lo ≤ a ∧ a ≤ hi)
    (hl : ∀ x ∈ l, lo ≤ x ∧ x ≤ hi) : lo ≤ l.foldl min a ∧ l.foldl min a ≤ hi := by
  induction l generalizing a with
  | nil => simpa using ha
  | cons x xs ih =>
    simp only [List.foldl_cons]
    have hx := hl x (List.mem_cons_self _ _)
    exact ih (min a x) (by omega) (fun y hy => hl y (List.mem_cons_of_mem _ hy))

theorem maxOfList_range (lo hi d : Int) (l : List Int) (hd : lo ≤ d ∧ d ≤ hi)
    (hl : ∀ x ∈ l, lo ≤ x ∧ x ≤ hi) : lo ≤ maxOfList d l ∧ maxOfList d l ≤ hi := by
  cases l with
  | nil => simpa [maxOfList] using hd
  | cons x xs =>
    simp only [maxOfList]
    exact foldl_max_range lo hi xs x (hl x (List.mem_cons_self _ _))
      (fun y hy => hl y (List.mem_cons_of_mem _ hy))

theorem minOfList_range (lo hi d : Int) (l : List Int) (hd : lo ≤ d ∧ d ≤ hi)
    (hl : ∀ x ∈ l, lo ≤ x ∧ x ≤ hi) : lo ≤ minOfList d l ∧ minOfList d l ≤ hi := by
  cases l with
  | nil => simpa [minOfList] using hd
  | cons x xs =>
    simp only [minOfList]
    exact foldl_min_range lo hi xs x (hl x (List.mem_cons_self _ _))
      (fun y hy => hl y (List.mem_cons_of_mem _ hy))

theorem maxOfList_eq_foldl (d c : Int) (l : List Int) (hne : l ≠ []) (hl : ∀ x ∈ l, c ≤ x) :
    maxOfList d l = l.foldl max c := by
  cases l with
  | nil => exact absurd rfl hne
  | cons x xs =>
    have hx := hl x (List.mem_cons_self _ _)
    simp only [maxOfList, List.foldl_cons]
    rw [max_eq_right hx]

theorem minOfList_eq_foldl (d c : Int) (l : List Int) (hne : l ≠ []) (hl : ∀ x ∈ l, x ≤ c) :
    minOfList d l = l.foldl min c := by
  cases l with
  | nil => exact absurd rfl hne
  | cons x xs =>
    have hx := hl x (List.mem_cons_self _ _)
    simp only [minOfList, List.foldl_cons]
    rw [min_eq_right hx]

/-- Every minimax value is one of the utilities, hence within `[-10, 10]`. -/
theorem minimaxN_range (ai hu : Cell) :
    ∀ (n : Nat) (b : Board) (isMax : Bool),
      -10 ≤ minimaxN n b isMax ai hu ∧ minimaxN n b isMax ai hu ≤ 10 := by
  intro n
  induction n with
  | zero => intro b isMax; simpa [minimaxN] using utility_range b ai
  | succ n ih =>
    intro b isMax
    simp only [minimaxN]
    split_ifs
    · exact utility_range b ai
    · apply maxOfList_range _ _ _ _ (utility_range b ai)
      intro x hx
      obtain ⟨a, _, rfl⟩ := List.mem_map.1 hx
      exact ih _ _
    · apply minOfList_range _ _ _ _ (utility_range b ai)
      intro x hx
      obtain ⟨a, _, rfl⟩ := List.mem_map.1 hx
      exact ih _ _

theorem maxLoopV_within (search : Board → Int → Int → Option Int) (mm : Board → Int)
    (board : Board) (player : Cell) (alpha0 beta : Int) (h0 : -1000 ≤ alpha0) :
    ∀ (actions : List Int) (alpha best acc : Int),
      (∀ a ∈ actions, ∀ al : Int, -1000 ≤ al → al < beta →
        ∃ v, search (applyAction board a player) al beta = some v ∧
          Within v (mm (applyAction board a player)) al beta) →
      alpha0 ≤ alpha → alpha < beta → best ≤ alpha → acc ≤ alpha →
      (alpha0 < alpha → best = alpha ∧ acc = alpha) →
      ∃ v, maxLoopV search board player actions alpha beta best = some v ∧
        Within v ((actions.map fun a => mm (applyAction board a player)).foldl max acc)
          alpha0 beta := by
  intro actions
  induction actions with
  | nil =>
    intro alpha best acc _ h1 h2 h3 h4 h5
    refine ⟨best, rfl, ?_⟩
    simp only [List.map_nil, List.foldl_nil, Within]
    omega
  | cons a rest ih =>
    intro alpha best acc hs h1 h2 h3 h4 h5
    obtain ⟨v, hv, hw⟩ := hs a (List.mem_cons_self _ _) alpha (by omega) h2
    simp only [maxLoopV, hv, List.map_cons, List.foldl_cons]
    simp only [Within] at hw
    by_cases hb : beta ≤ max alpha v
    · simp only [hb, if_true]
      refine ⟨_, rfl, ?_⟩
      have hge := le_foldl_max (rest.map fun a => mm (applyAction board a player))
        (max acc (mm (applyAction board a player)))
      simp only [Within]
      omega
    · simp only [hb, if_false]
      exact ih (max alpha v) (max best v) (max acc (mm (applyAction board a player)))
        (fun a' ha' => hs a' (List.mem_cons_of_mem _ ha')) (by omega) (by omega) (by omega)
        (by omega) (by omega)

theorem minLoopV_within (search : Board → Int → Int → Option Int) (mm : Board → Int)
    (board : Board) (player : Cell) (alpha beta0 : Int) (h0 : beta0 ≤ 1000) :
    ∀ (actions : List Int) (beta best acc : Int),
      (∀ a ∈ actions, ∀ be : Int, be ≤ 1000 → alpha < be →
        ∃ v, search (applyAction board a player) alpha be = some v ∧
          Within v (mm (applyAction board a player)) alpha be) →
      beta ≤ beta0 → alpha < beta → beta ≤ best → beta ≤ acc →
      (beta < beta0 → best = beta ∧ acc = beta) →
      ∃ v, minLoopV search board player actions alpha beta best = some v ∧
        Within v ((actions.map fun a => mm (applyAction board a player)).foldl min acc)
          alpha beta0 := by
  intro actions
  induction actions with
  | nil =>
    intro beta best acc _ h1 h2 h3 h4 h5
    refine ⟨best, rfl, ?_⟩
    simp only [List.map_nil, List.foldl_nil, Within]
    omega
  | cons a rest ih =>
    intro beta best acc hs h1 h2 h3 h4 h5
    obtain ⟨v, hv, hw⟩ := hs a (List.mem_cons_self _ _) beta (by omega) h2
    simp only [minLoopV, hv, List.map_cons, List.foldl_cons]
    simp only [Within] at hw
    by_cases hb : min beta v ≤ alpha
    · simp only [hb, if_true]
      refine ⟨_, rfl, ?_⟩
      have hge := foldl_min_le (rest.map fun a => mm (applyAction board a player))
        (min acc (mm (applyAction board a player)))
      simp only [Within]
      omega
    · simp only [hb, if_false]
      exact ih (min beta v) (min best v) (min acc (mm (applyAction board a player)))
        (fun a' ha' => hs a' (List.mem_cons_of_mem _ ha')) (by omega) (by omega) (by omega)
        (by omega) (by omega)

theorem within_self (u alpha beta : Int) : Within u u alpha beta :=
  ⟨fun h => h, fun h => h, fun _ _ => rfl⟩

theorem isTerminal_of_count_zero {b : Board} (h : b.count Cell.empty = 0) :
    isTerminal b = true := by
  simp [isTerminal, (isFull_iff_count b).2 h]

/-- Alpha-beta against minimax: on a nine-cell board with `n` empty cells,
given fuel and depth for `n` plies and a window inside `[-1000, 1000]`, the
search returns a value that is `Within` the window of the minimax value. -/
theorem abValue_within (ai hu : Cell) (hai : ai ≠ Cell.empty) (hhu : hu ≠ Cell.empty) :
    ∀ (n : Nat) (b : Board), b.length = 9 → b.count Cell.empty = n →
      ∀ (fuel : Nat) (depth alpha beta : Int) (isMax : Bool),
        n < fuel → (n : Int) ≤ depth → -1000 ≤ alpha → alpha < beta → beta ≤ 1000 →
        ∃ v, abValue fuel b depth alpha beta isMax ai hu = some v ∧
          Within v (minimaxN n b isMax ai hu) alpha beta := by
  intro n
  induction n with
  | zero =>
    intro b _ hc fuel depth alpha beta isMax hf _ _ _ _
    obtain ⟨f, rfl⟩ : ∃ f, fuel = f + 1 := ⟨fuel - 1, by omega⟩
    refine ⟨utility b ai, ?_, ?_⟩
    · simp [abValue, isTerminal_of_count_zero hc]
    · simp only [minimaxN]
      exact within_self _ _ _
  | succ n ih =>
    intro b hlen hc fuel depth alpha beta isMax hf hd ha hab hb
    obtain ⟨f, rfl⟩ : ∃ f, fuel = f + 1 := ⟨fuel - 1, by omega⟩
    by_cases ht : isTerminal b = true
    · refine ⟨utility b ai, ?_, ?_⟩
      · simp [abValue, ht]
      · simp only [minimaxN, ht, if_true]
        exact within_self _ _ _
    · have ht' : isTerminal b = false := by simpa using ht
      have hd0 : (depth == 0) = false := by
        simp only [beq_eq_false_iff_ne, ne_eq]
        omega
      have hne := getPossibleActions_ne_nil hlen (isFull_of_isTerminal_false ht')
      have hchild : ∀ (p : Cell), p ≠ Cell.empty → ∀ a ∈ getPossibleActions b,
          (applyAction b a p).length = 9 ∧ (applyAction b a p).count Cell.empty = n := by
        intro p hp a hmem
        refine ⟨by rw [length_applyAction, hlen], ?_⟩
        have := count_applyAction hlen hmem hp
        omega
      cases isMax with
      | true =>
        obtain ⟨v, hv, hw⟩ := maxLoopV_within
          (fun b' a c => abValue f b' (depth - 1) a c false ai hu)
          (fun b' => minimaxN n b' false ai hu) b ai alpha beta ha
          (getPossibleActions b) alpha (-1000) (-1000)
          (fun a hmem al hal halb =>
            ih _ (hchild ai hai a hmem).1 (hchild ai hai a hmem).2 f (depth - 1) al beta false
              (by omega) (by omega) hal halb hb)
          (le_refl _) hab ha ha (fun h => absurd h (lt_irrefl _))
        refine ⟨v, ?_, ?_⟩
        · simp only [abValue, ht', hd0, Bool.or_self, Bool.false_eq_true, if_false, if_true]
          exact hv
        · simp only [minimaxN, ht', Bool.false_eq_true, if_false, if_true]
          rw [maxOfList_eq_foldl _ (-1000) _ (by simpa using hne)]
          · exact hw
          · intro x hx
            obtain ⟨a, _, rfl⟩ := List.mem_map.1 hx
            have := (minimaxN_range ai hu n (applyAction b a ai) false).1
            omega
      | false =>
        obtain ⟨v, hv, hw⟩ := minLoopV_within
          (fun b' a c => abValue f b' (depth - 1) a c true ai hu)
          (fun b' => minimaxN n b' true ai hu) b hu alpha beta hb
          (getPossibleActions b) beta 1000 1000
          (fun a hmem be hbe habe =>
            ih _ (hchild hu hhu a hmem).1 (hchild hu hhu a hmem).2 f (depth - 1) alpha be true
              (by omega) (by omega) ha habe hbe)
          (le_refl _) hab hb hb (fun h => absurd h (lt_irrefl _))
        refine ⟨v, ?_, ?_⟩
        · simp only [abValue, ht', hd0, Bool.or_self, Bool.false_eq_true, if_false]
          exact hv
        · simp only [minimaxN, ht', Bool.false_eq_true, if_false]
          rw [minOfList_eq_foldl _ 1000 _ (by simpa using hne)]
          · exact hw
          · intro x hx
            obtain ⟨a, _, rfl⟩ := List.mem_map.1 hx
            have := (minimaxN_range ai hu n (applyAction b a hu) true).2
            omega

/-- With the wide-open root window the search returns the minimax value. -/
theorem abValue_root_window (ai hu : Cell) (hai : ai ≠ Cell.empty) (hhu : hu ≠ Cell.empty)
    (b : Board) (hlen : b.length = 9) (fuel : Nat) (depth : Int) (isMax : Bool)
    (hf : b.count Cell.empty < fuel) (hd : (b.count Cell.empty : Int) ≤ depth) :
    abValue fuel b depth (-1000) 1000 isMax ai hu = some (minimax b isMax ai hu) := by
  obtain ⟨v, hv, hw⟩ := abValue_within ai hu hai hhu _ b hlen rfl fuel depth (-1000) 1000 isMax
    hf hd (le_refl _) (by decide) (le_refl _)
  have hr := minimaxN_range ai hu (b.count Cell.empty) b isMax
  simp only [Within] at hw
  rw [hv, minimax]
  congr 1
  omega

/-! ### Unfolding the minimax value -/

theorem minimax_terminal (b : Board) (isMax : Bool) (ai hu : Cell) (ht : isTerminal b = true) :
    minimax b isMax ai hu = utility b ai := by
  unfold minimax
  cases b.count Cell.empty with
  | zero => rfl
  | succ n => simp [minimaxN, ht]

theorem minimax_max (b : Board) (ai hu : Cell) (hlen : b.length = 9) (hai : ai ≠ Cell.empty)
    (ht : isTerminal b = false) :
    minimax b true ai hu = maxOfList (utility b ai)
      ((getPossibleActions b).map fun a => minimax (applyAction b a ai) false ai hu) := by
  unfold minimax
  cases hc : b.count Cell.empty with
  | zero => rw [isTerminal_of_count_zero hc] at ht; exact Bool.noConfusion ht
  | succ n =>
    simp only [minimaxN, ht, Bool.false_eq_true, if_false, if_true]
    congr 1
    apply List.map_congr_left
    intro a ha
    have := count_applyAction hlen ha hai
    rw [show (applyAction b a ai).count Cell.empty = n by omega]

theorem minimax_min (b : Board) (ai hu : Cell) (hlen : b.length = 9) (hhu : hu ≠ Cell.empty)
    (ht : isTerminal b = false) :
    minimax b false ai hu = minOfList (utility b ai)
      ((getPossibleActions b).map fun a => minimax (applyAction b a hu) true ai hu) := by
  unfold minimax
  cases hc : b.count Cell.empty with
  | zero => rw [isTerminal_of_count_zero hc] at ht; exact Bool.noConfusion ht
  | succ n =>
    simp only [minimaxN, ht, Bool.false_eq_true, if_false]
    congr 1
    apply List.map_congr_left
    intro a ha
    have := count_applyAction hlen ha hhu
    rw [show (applyAction b a hu).count Cell.empty = n by omega]

/-! ### The choice at the root -/

theorem rootLoopV_eq_pick (fuel : Nat) (board : Board) (depth : Int) (ai hu : Cell)
    (val : Int → Int) :
    ∀ (actions : List Int) (bv bm : Int),
      (∀ a ∈ actions, abValue fuel (applyAction board a ai) (depth - 1) (-1000) 1000 false ai hu
        = some (val a)) →
      rootLoopV fuel board depth ai hu actions bv bm = some (pickLoop val actions bv bm) := by
  intro actions
  induction actions with
  | nil => intro bv bm _; rfl
  | cons a rest ih =>
    intro bv bm h
    have ha := h a (List.mem_cons_self _ _)
    have hr : ∀ x ∈ rest, abValue fuel (applyAction board x ai) (depth - 1) (-1000) 1000 false
        ai hu = some (val x) := fun x hx => h x (List.mem_cons_of_mem _ hx)
    simp only [rootLoopV, ha, pickLoop]
    by_cases hgt : val a > bv
    · simp only [hgt, if_true]
      exact ih _ _ hr
    · simp only [hgt, if_false]
      exact ih _ _ hr

/-- The loop keeps the first move of greatest value: either nothing beats the
initial `bestValue`, or the list splits around the chosen move into strictly
smaller values before it and no greater value after it. -/
theorem pickLoop_spec (val : Int → Int) :
    ∀ (actions : List Int) (bv bm : Int),
      (pickLoop val actions bv bm = (bv, bm) ∧ ∀ a ∈ actions, val a ≤ bv) ∨
      (∃ pre post, actions = pre ++ (pickLoop val actions bv bm).2 :: post ∧
        (pickLoop val actions bv bm).1 = val (pickLoop val actions bv bm).2 ∧
        bv < val (pickLoop val actions bv bm).2 ∧
        (∀ a ∈ pre, val a < val (pickLoop val actions bv bm).2) ∧
        ∀ a ∈ post, val a ≤ val (pickLoop val actions bv bm).2) := by
  intro actions
  induction actions with
  | nil => intro bv bm; left; exact ⟨rfl, fun a ha => absurd ha (List.not_mem_nil _)⟩
  | cons a rest ih =>
    intro bv bm
    simp only [pickLoop]
    by_cases hgt : val a > bv
    · simp only [hgt, if_true]
      rcases ih (val a) a with ⟨he, hall⟩ | ⟨pre, post, hsplit, hv, hlt, hpre, hpost⟩
      · right
        refine ⟨[], rest, ?_, ?_, ?_, ?_, ?_⟩
        · rw [he]; rfl
        · rw [he]
        · rw [he]; exact hgt
        · intro x hx; exact absurd hx (List.not_mem_nil _)
        · rw [he]; exact hall
      · right
        refine ⟨a :: pre, post, ?_, hv, ?_, ?_, hpost⟩
        · rw [List.cons_append, ← hsplit]
        · omega
        · intro x hx
          rcases List.mem_cons.1 hx with rfl | hx
          · exact hlt
          · exact hpre x hx
    · simp only [hgt, if_false]
      rcases ih bv bm with ⟨he, hall⟩ | ⟨pre, post, hsplit, hv, hlt, hpre, hpost⟩
      · left
        refine ⟨he, ?_⟩
        intro x hx
        rcases List.mem_cons.1 hx with rfl | hx
        · omega
        · exact hall x hx
      · right
        refine ⟨a :: pre, post, ?_, hv, hlt, ?_, hpost⟩
        · rw [List.cons_append, ← hsplit]
        · intro x hx
          rcases List.mem_cons.1 hx with rfl | hx
          · omega
          · exact hpre x hx

theorem getPossibleActions_pairwise (b : Board) :
    (getPossibleActions b).Pairwise (fun x y => x < y) := by
  unfold getPossibleActions
  refine List.Pairwise.filterMap _ ?_ (List.pairwise_lt_range 9)
  intro i j hij x hx y hy
  by_cases hi : cellAt b i = Cell.empty
  · by_cases hj : cellAt b j = Cell.empty
    · simp only [hi, if_true, Option.mem_def, Option.some.injEq] at hx
      simp only [hj, if_true, Option.mem_def, Option.some.injEq] at hy
      omega
    · simp [hj] at hy
  · simp [hi] at hx

theorem child_search_value (b : Board) (ai hu : Cell) (hlen : b.length = 9)
    (hai : ai ≠ Cell.empty) (hhu : hu ≠ Cell.empty) (a : Int) (ha : a ∈ getPossibleActions b) :
    abValue (countEmpty b).toNat (applyAction b a ai) (countEmpty b - 1) (-1000) 1000 false ai hu
      = some (minimax (applyAction b a ai) false ai hu) := by
  have hc := count_applyAction hlen ha hai
  apply abValue_root_window ai hu hai hhu _ (by rw [length_applyAction, hlen])
  · simp only [countEmpty, Int.toNat_ofNat]
    omega
  · simp only [countEmpty]
    omega

theorem searchValue_eq (b : Board) (ai hu : Cell) (hlen : b.length = 9)
    (hai : ai ≠ Cell.empty) (hhu : hu ≠ Cell.empty) (a : Int) (ha : a ∈ getPossibleActions b) :
    searchValue b ai hu a = some (minimax (applyAction b a ai) false ai hu) := by
  unfold searchValue
  rw [alphaBetaMinimax_value, board_mk]
  exact child_search_value b ai hu hlen hai hhu a ha

theorem makeAiMoveV_eq_pick (b : Board) (ai hu : Cell) (hlen : b.length = 9)
    (hai : ai ≠ Cell.empty) (hhu : hu ≠ Cell.empty) :
    makeAiMoveV b ai hu = some (pickLoop (fun a => minimax (applyAction b a ai) false ai hu)
      (getPossibleActions b) (-1000) (-1)) := by
  unfold makeAiMoveV
  exact rootLoopV_eq_pick _ b _ ai hu _ _ _ _
    (fun a ha => child_search_value b ai hu hlen hai hhu a ha)

/-- On a nine-cell board that is not full, `makeAiMove` returns the first
legal move whose child has the greatest minimax value. -/
theorem makeAiMove_spec (b : Board) (ai hu : Cell) (hlen : b.length = 9)
    (hai : ai ≠ Cell.empty) (hhu : hu ≠ Cell.empty) (hfull : isFull b = false) :
    ∃ m pre post, makeAiMove b ai hu = some m ∧ getPossibleActions b = pre ++ m :: post ∧
      (∀ a ∈ pre, minimax (applyAction b a ai) false ai hu
        < minimax (applyAction b m ai) false ai hu) ∧
      (∀ a ∈ post, minimax (applyAction b a ai) false ai hu
        ≤ minimax (applyAction b m ai) false ai hu) := by
  have hpick := makeAiMoveV_eq_pick b ai hu hlen hai hhu
  have hne := getPossibleActions_ne_nil hlen hfull
  rcases pickLoop_spec (fun a => minimax (applyAction b a ai) false ai hu)
    (getPossibleActions b) (-1000) (-1) with ⟨_, hall⟩ | ⟨pre, post, hsplit, _, _, hpre, hpost⟩
  · exfalso
    cases hacts : getPossibleActions b with
    | nil => exact hne hacts
    | cons a rest =>
      have h1 := hall a (by rw [hacts]; exact List.mem_cons_self _ _)
      have h2 := (minimaxN_range ai hu ((applyAction b a ai).count Cell.empty)
        (applyAction b a ai) false).1
      simp only [minimax] at h1
      omega
  · refine ⟨_, pre, post, ?_, hsplit, hpre, hpost⟩
    rw [makeAiMove_eq, hpick]
    rfl

/-! ### Contract of `makeAiMove` -/

theorem Complementary.ne_empty {ai hu : Cell} (h : Complementary ai hu) :
    ai ≠ Cell.empty ∧ hu ≠ Cell.empty := by
  rcases h with ⟨rfl, rfl⟩ | ⟨rfl, rfl⟩ <;> exact ⟨by decide, by decide⟩

theorem le_maxOfList (d : Int) (l : List Int) (x : Int) (hx : x ∈ l) : x ≤ maxOfList d l := by
  cases l with
  | nil => exact absurd hx (List.not_mem_nil _)
  | cons y ys =>
    simp only [maxOfList]
    have key : ∀ (zs : List Int) (a : Int), x = a ∨ x ∈ zs → x ≤ zs.foldl max a := by
      intro zs
      induction zs with
      | nil =>
        intro a h
        rcases h with rfl | h
        · simp
        · exact absurd h (List.not_mem_nil _)
      | cons z zs ih =>
        intro a h
        simp only [List.foldl_cons]
        rcases h with rfl | h
        · exact le_trans (le_max_left _ _) (le_foldl_max zs _)
        · rcases List.mem_cons.1 h with rfl | h
          · exact le_trans (le_max_right _ _) (le_foldl_max zs _)
          · exact ih _ (Or.inr h)
    exact key ys y (by rcases List.mem_cons.1 hx with h | h; exact Or.inl h; exact Or.inr h)

theorem minOfList_le (d : Int) (l : List Int) (x : Int) (hx : x ∈ l) : minOfList d l ≤ x := by
  cases l with
  | nil => exact absurd hx (List.not_mem_nil _)
  | cons y ys =>
    simp only [minOfList]
    have key : ∀ (zs : List Int) (a : Int), x = a ∨ x ∈ zs → zs.foldl min a ≤ x := by
      intro zs
      induction zs with
      | nil =>
        intro a h
        rcases h with rfl | h
        · simp
        · exact absurd h (List.not_mem_nil _)
      | cons z zs ih =>
        intro a h
        simp only [List.foldl_cons]
        rcases h with rfl | h
        · exact le_trans (foldl_min_le zs _) (min_le_left _ _)
        · rcases List.mem_cons.1 h with rfl | h
          · exact le_trans (foldl_min_le zs _) (min_le_right _ _)
          · exact ih _ (Or.inr h)
    exact key ys y (by rcases List.mem_cons.1 hx with h | h; exact Or.inl h; exact Or.inr h)

theorem foldl_max_le (c : Int) (l : List Int) (a : Int) (ha : a ≤ c) (hl : ∀ x ∈ l, x ≤ c) :
    l.foldl max a ≤ c := by
  induction l generalizing a with
  | nil => simpa using ha
  | cons x xs ih =>
    simp only [List.foldl_cons]
    exact ih (max a x) (max_le ha (hl x (List.mem_cons_self _ _)))
      (fun y hy => hl y (List.mem_cons_of_mem _ hy))

theorem le_foldl_min (c : Int) (l : List Int) (a : Int) (ha : c ≤ a) (hl : ∀ x ∈ l, c ≤ x) :
    c ≤ l.foldl min a := by
  induction l generalizing a with
  | nil => simpa using ha
  | cons x xs ih =>
    simp only [List.foldl_cons]
    exact ih (min a x) (le_min ha (hl x (List.mem_cons_self _ _)))
      (fun y hy => hl y (List.mem_cons_of_mem _ hy))

theorem maxOfList_le (d c : Int) (l : List Int) (hne : l ≠ []) (hl : ∀ x ∈ l, x ≤ c) :
    maxOfList d l ≤ c := by
  cases l with
  | nil => exact absurd rfl hne
  | cons y ys =>
    simp only [maxOfList]
    exact foldl_max_le c ys y (hl y (List.mem_cons_self _ _))
      (fun z hz => hl z (List.mem_cons_of_mem _ hz))

theorem le_minOfList (d c : Int) (l : List Int) (hne : l ≠ []) (hl : ∀ x ∈ l, c ≤ x) :
    c ≤ minOfList d l := by
  cases l with
  | nil => exact absurd rfl hne
  | cons y ys =>
    simp only [minOfList]
    exact le_foldl_min c ys y (hl y (List.mem_cons_self _ _))
      (fun z hz => hl z (List.mem_cons_of_mem _ hz))

theorem cellAt_of_mem_actions {b : Board} {a : Int} (ha : a ∈ getPossibleActions b) :
    1 ≤ a ∧ a ≤ 9 ∧ cellAt b (a - 1).toNat = Cell.empty := by
  obtain ⟨i, hi, hc, rfl⟩ := mem_getPossibleActions.1 ha
  refine ⟨by omega, by omega, ?_⟩
  simpa using hc

/-- The move returned by `makeAiMove` is legal and no legal move reaches a
position of greater minimax value. -/
theorem makeAiMove_greatest (b : Board) (ai hu : Cell) (hlen : b.length = 9)
    (ht : isTerminal b = false) (hsym : Complementary ai hu) :
    ∃ m, makeAiMove b ai hu = some m ∧ m ∈ getPossibleActions b ∧
      ∀ a ∈ getPossibleActions b,
        minimax (applyAction b a ai) false ai hu ≤ minimax (applyAction b m ai) false ai hu := by
  obtain ⟨hai, hhu⟩ := hsym.ne_empty
  obtain ⟨m, pre, post, hm, hsplit, hpre, hpost⟩ :=
    makeAiMove_spec b ai hu hlen hai hhu (isFull_of_isTerminal_false ht)
  have hmem : m ∈ getPossibleActions b := by rw [hsplit]; simp
  refine ⟨m, hm, hmem, ?_⟩
  intro a ha
  rw [hsplit] at ha
  rcases List.mem_append.1 ha with h | h
  · exact le_of_lt (hpre a h)
  · rcases List.mem_cons.1 h with rfl | h
    · exact le_refl _
    · exact hpost a h

/-- C1: on every nine-cell board that is not terminal, with complementary
symbols, the move returned by `makeAiMove` is legal and optimal for plain
exhaustive minimax: the minimax value of the position it reaches is at least
that of every legal move, and it is the minimax value of the board itself
with the computer to move (the maximum over all legal moves). -/
theorem makeAiMove_minimax_optimal (b : Board) (ai hu : Cell) (hlen : b.length = 9)
    (ht : isTerminal b = false) (hsym : Complementary ai hu) :
    ∃ m, makeAiMove b ai hu = some m ∧ m ∈ getPossibleActions b ∧
      (∀ a ∈ getPossibleActions b,
        minimax (applyAction b a ai) false ai hu ≤ minimax (applyAction b m ai) false ai hu) ∧
      minimax (applyAction b m ai) false ai hu
        = maxOfList (utility b ai)
            ((getPossibleActions b).map fun a => minimax (applyAction b a ai) false ai hu) ∧
      minimax (applyAction b m ai) false ai hu = minimax b true ai hu := by
  obtain ⟨hai, hhu⟩ := hsym.ne_empty
  obtain ⟨m, hm, hmem, hall⟩ := makeAiMove_greatest b ai hu hlen ht hsym
  have hmax : minimax (applyAction b m ai) false ai hu
      = maxOfList (utility b ai)
          ((getPossibleActions b).map fun a => minimax (applyAction b a ai) false ai hu) := by
    apply le_antisymm
    · exact le_maxOfList _ _ _ (List.mem_map.2 ⟨m, hmem, rfl⟩)
    · apply maxOfList_le
      · intro h
        rw [List.map_eq_nil_iff] at h
        rw [h] at hmem
        exact List.not_mem_nil _ hmem
      · intro x hx
        obtain ⟨a, ha, rfl⟩ := List.mem_map.1 hx
        exact hall a ha
  exact ⟨m, hm, hmem, hall, hmax, by rw [minimax_max b ai hu hlen hai ht]; exact hmax⟩

/-- Witness of C1 on the board `[X, X, _, O, O, _, _, _, _]`. -/
theorem makeAiMove_minimax_optimal_witness :
    (exampleBoard Cell.X Cell.O).length = 9 ∧ isTerminal (exampleBoard Cell.X Cell.O) = false ∧
    Complementary Cell.X Cell.O ∧
    ∃ m, makeAiMove (exampleBoard Cell.X Cell.O) Cell.X Cell.O = some m ∧
      m ∈ getPossibleActions (exampleBoard Cell.X Cell.O) ∧
      (∀ a ∈ getPossibleActions (exampleBoard Cell.X Cell.O),
        minimax (applyAction (exampleBoard Cell.X Cell.O) a Cell.X) false Cell.X Cell.O
          ≤ minimax (applyAction (exampleBoard Cell.X Cell.O) m Cell.X) false Cell.X Cell.O) ∧
      minimax (applyAction (exampleBoard Cell.X Cell.O) m Cell.X) false Cell.X Cell.O
        = maxOfList (utility (exampleBoard Cell.X Cell.O) Cell.X)
            ((getPossibleActions (exampleBoard Cell.X Cell.O)).map fun a =>
              minimax (applyAction (exampleBoard Cell.X Cell.O) a Cell.X) false Cell.X Cell.O) ∧
      minimax (applyAction (exampleBoard Cell.X Cell.O) m Cell.X) false Cell.X Cell.O
        = minimax (exampleBoard Cell.X Cell.O) true Cell.X Cell.O :=
  ⟨rfl, by decide, Or.inl ⟨rfl, rfl⟩,
    makeAiMove_minimax_optimal (exampleBoard Cell.X Cell.O) Cell.X Cell.O rfl (by decide)
      (Or.inl ⟨rfl, rfl⟩)⟩

/-- C2: on every nine-cell board that is not terminal, with complementary
symbols, `makeAiMove` returns an index between 1 and 9 whose cell is empty in
the input board; it is never the sentinel `-1`. -/
theorem makeAiMove_returns_empty_cell (b : Board) (ai hu : Cell) (hlen : b.length = 9)
    (ht : isTerminal b = false) (hsym : Complementary ai hu) :
    ∃ m, makeAiMove b ai hu = some m ∧ 1 ≤ m ∧ m ≤ 9 ∧
      cellAt b (m - 1).toNat = Cell.empty ∧ m ≠ -1 := by
  obtain ⟨hai, hhu⟩ := hsym.ne_empty
  obtain ⟨m, pre, post, hm, hsplit, _, _⟩ :=
    makeAiMove_spec b ai hu hlen hai hhu (isFull_of_isTerminal_false ht)
  have hmem : m ∈ getPossibleActions b := by rw [hsplit]; simp
  obtain ⟨h1, h9, hc⟩ := cellAt_of_mem_actions hmem
  exact ⟨m, hm, h1, h9, hc, by omega⟩

/-- Witness of C2 on the board `[O, O, _, X, X, _, _, _, _]`. -/
theorem makeAiMove_returns_empty_cell_witness :
    (exampleBoard Cell.O Cell.X).length = 9 ∧ isTerminal (exampleBoard Cell.O Cell.X) = false ∧
    Complementary Cell.O Cell.X ∧
    ∃ m, makeAiMove (exampleBoard Cell.O Cell.X) Cell.O Cell.X = some m ∧ 1 ≤ m ∧ m ≤ 9 ∧
      cellAt (exampleBoard Cell.O Cell.X) (m - 1).toNat = Cell.empty ∧ m ≠ -1 :=
  ⟨rfl, by decide, Or.inr ⟨rfl, rfl⟩,
    makeAiMove_returns_empty_cell (exampleBoard Cell.O Cell.X) Cell.O Cell.X rfl (by decide)
      (Or.inr ⟨rfl, rfl⟩)⟩

/-- C3: on every nine-cell board that is not terminal, with complementary
symbols, `makeAiMove` returns the lowest-indexed legal move of greatest search
value: no legal move has a greater search value, and every legal move with a
smaller index has a strictly smaller one. -/
theorem makeAiMove_first_of_greatest (b : Board) (ai hu : Cell) (hlen : b.length = 9)
    (ht : isTerminal b = false) (hsym : Complementary ai hu) :
    ∃ m v, makeAiMove b ai hu = some m ∧ m ∈ getPossibleActions b ∧
      searchValue b ai hu m = some v ∧
      ∀ a ∈ getPossibleActions b, ∃ w, searchValue b ai hu a = some w ∧ w ≤ v ∧
        (a < m → w < v) := by
  obtain ⟨hai, hhu⟩ := hsym.ne_empty
  obtain ⟨m, pre, post, hm, hsplit, hpre, hpost⟩ :=
    makeAiMove_spec b ai hu hlen hai hhu (isFull_of_isTerminal_false ht)
  have hmem : m ∈ getPossibleActions b := by rw [hsplit]; simp
  have hsorted := getPossibleActions_pairwise b
  rw [hsplit, List.pairwise_append] at hsorted
  obtain ⟨_, hmp, _⟩ := hsorted
  rw [List.pairwise_cons] at hmp
  refine ⟨m, _, hm, hmem, searchValue_eq b ai hu hlen hai hhu m hmem, ?_⟩
  intro a ha
  refine ⟨_, searchValue_eq b ai hu hlen hai hhu a ha, ?_, ?_⟩
  · rw [hsplit] at ha
    rcases List.mem_append.1 ha with h | h
    · exact le_of_lt (hpre a h)
    · rcases List.mem_cons.1 h with rfl | h
      · exact le_refl _
      · exact hpost a h
  · intro hlt
    rw [hsplit] at ha
    rcases List.mem_append.1 ha with h | h
    · exact hpre a h
    · rcases List.mem_cons.1 h with rfl | h
      · exact absurd hlt (lt_irrefl _)
      · have := hmp.1 a h
        omega

/-- Witness of C3 on the board `[X, X, _, O, O, _, _, _, _]`. -/
theorem makeAiMove_first_of_greatest_witness :
    (exampleBoard Cell.X Cell.O).length = 9 ∧ isTerminal (exampleBoard Cell.X Cell.O) = false ∧
    Complementary Cell.X Cell.O ∧
    ∃ m v, makeAiMove (exampleBoard Cell.X Cell.O) Cell.X Cell.O = some m ∧
      m ∈ getPossibleActions (exampleBoard Cell.X Cell.O) ∧
      searchValue (exampleBoard Cell.X Cell.O) Cell.X Cell.O m = some v ∧
      ∀ a ∈ getPossibleActions (exampleBoard Cell.X Cell.O),
        ∃ w, searchValue (exampleBoard Cell.X Cell.O) Cell.X Cell.O a = some w ∧ w ≤ v ∧
          (a < m → w < v) :=
  ⟨rfl, by decide, Or.inl ⟨rfl, rfl⟩,
    makeAiMove_first_of_greatest (exampleBoard Cell.X Cell.O) Cell.X Cell.O rfl (by decide)
      (Or.inl ⟨rfl, rfl⟩)⟩

/-! ### Board model contract -/

/-- C9: on a nine-cell board where the two symbols do not both have a completed
triple, with complementary symbols, `utility` is `10` when the computer has
won, `-10` when the human has won, and `0` when neither has. -/
theorem utility_by_winner (b : Board) (ai hu : Cell) (hlen : b.length = 9)
    (hone : ¬(checkWin b Cell.X = true ∧ checkWin b Cell.O = true))
    (hsym : Complementary ai hu) :
    (checkWin b ai = true → utility b ai = 10) ∧
    (checkWin b hu = true → utility b ai = -10) ∧
    (checkWin b ai = false → checkWin b hu = false → utility b ai = 0) := by
  rcases hsym with ⟨rfl, rfl⟩ | ⟨rfl, rfl⟩
  · refine ⟨fun h => by simp [utility, h], fun h => ?_, fun h1 h2 => by simp [utility, h1, h2]⟩
    have hx : checkWin b Cell.X = false := by
      cases hx : checkWin b Cell.X with
      | false => rfl
      | true => exact absurd ⟨hx, h⟩ hone
    simp [utility, h, hx]
  · refine ⟨fun h => by simp [utility, h], fun h => ?_, fun h1 h2 => by simp [utility, h1, h2]⟩
    have ho : checkWin b Cell.O = false := by
      cases ho : checkWin b Cell.O with
      | false => rfl
      | true => exact absurd ⟨h, ho⟩ hone
    simp [utility, h, ho]

/-- Witness of C9 on the board `[X, X, X, O, O, _, _, _, _]`, won by `X`. -/
theorem utility_by_winner_witness :
    rowBoard.length = 9 ∧ Complementary Cell.X Cell.O ∧ utility rowBoard Cell.X = 10 :=
  ⟨rfl, Or.inl ⟨rfl, rfl⟩,
    (utility_by_winner rowBoard Cell.X Cell.O rfl (by decide) (Or.inl ⟨rfl, rfl⟩)).1
      (by decide)⟩

/-- C10: on a nine-cell board, for a player symbol `X` or `O`, `checkWin` is
true exactly when one of the eight triples `{0,1,2}`, `{3,4,5}`, `{6,7,8}`,
`{0,3,6}`, `{1,4,7}`, `{2,5,8}`, `{0,4,8}`, `{2,4,6}` holds the player's
symbol in its three cells. -/
theorem checkWin_iff_triple (b : Board) (p : Cell) (hlen : b.length = 9)
    (hp : p = Cell.X ∨ p = Cell.O) :
    checkWin b p = true ↔
      (cellAt b 0 = p ∧ cellAt b 1 = p ∧ cellAt b 2 = p) ∨
      (cellAt b 3 = p ∧ cellAt b 4 = p ∧ cellAt b 5 = p) ∨
      (cellAt b 6 = p ∧ cellAt b 7 = p ∧ cellAt b 8 = p) ∨
      (cellAt b 0 = p ∧ cellAt b 3 = p ∧ cellAt b 6 = p) ∨
      (cellAt b 1 = p ∧ cellAt b 4 = p ∧ cellAt b 7 = p) ∨
      (cellAt b 2 = p ∧ cellAt b 5 = p ∧ cellAt b 8 = p) ∨
      (cellAt b 0 = p ∧ cellAt b 4 = p ∧ cellAt b 8 = p) ∨
      (cellAt b 2 = p ∧ cellAt b 4 = p ∧ cellAt b 6 = p) := by
  simp only [checkWin, wins, List.any_cons, List.any_nil, Bool.or_false, Bool.or_eq_true,
    Bool.and_eq_true, beq_iff_eq, and_assoc]

/-- Witness of C10 on the board `[O, _, X, _, X, O, X, _, _]`, where `X`
holds the triple `{2,4,6}`. -/
theorem checkWin_iff_triple_witness :
    diagonalBoard.length = 9 ∧
    (checkWin diagonalBoard Cell.X = true ↔
      (cellAt diagonalBoard 0 = Cell.X ∧ cellAt diagonalBoard 1 = Cell.X ∧
        cellAt diagonalBoard 2 = Cell.X) ∨
      (cellAt diagonalBoard 3 = Cell.X ∧ cellAt diagonalBoard 4 = Cell.X ∧
        cellAt diagonalBoard 5 = Cell.X) ∨
      (cellAt diagonalBoard 6 = Cell.X ∧ cellAt diagonalBoard 7 = Cell.X ∧
        cellAt diagonalBoard 8 = Cell.X) ∨
      (cellAt diagonalBoard 0 = Cell.X ∧ cellAt diagonalBoard 3 = Cell.X ∧
        cellAt diagonalBoard 6 = Cell.X) ∨
      (cellAt diagonalBoard 1 = Cell.X ∧ cellAt diagonalBoard 4 = Cell.X ∧
        cellAt diagonalBoard 7 = Cell.X) ∨
      (cellAt diagonalBoard 2 = Cell.X ∧ cellAt diagonalBoard 5 = Cell.X ∧
        cellAt diagonalBoard 8 = Cell.X) ∨
      (cellAt diagonalBoard 0 = Cell.X ∧ cellAt diagonalBoard 4 = Cell.X ∧
        cellAt diagonalBoard 8 = Cell.X) ∨
      (cellAt diagonalBoard 2 = Cell.X ∧ cellAt diagonalBoard 4 = Cell.X ∧
        cellAt diagonalBoard 6 = Cell.X)) :=
  ⟨rfl, checkWin_iff_triple diagonalBoard Cell.X rfl (Or.inl rfl)⟩

/-! ### The examples of the specification -/

/-- C6: for either symbol `s` with `t` the other one, on the board
`[s, s, _, t, t, _, _, _, _]` the call `makeAiMove` with computer `s` and human
`t` returns 3, and the search value of that move is `10`. -/
theorem makeAiMove_exampleBoard (s t : Cell) (hsym : Complementary s t) :
    makeAiMove (exampleBoard s t) s t = some 3 ∧
    searchValue (exampleBoard s t) s t 3 = some 10 := by
  rcases hsym with ⟨rfl, rfl⟩ | ⟨rfl, rfl⟩
  · have h : makeAiMoveV (exampleBoard Cell.X Cell.O) Cell.X Cell.O = some (10, 3) := by decide!
    refine ⟨by rw [makeAiMove_eq, h]; rfl, ?_⟩
    rw [searchValue_eq (exampleBoard Cell.X Cell.O) Cell.X Cell.O rfl (by decide) (by decide) 3
      (by decide), minimax_terminal _ _ _ _ (by decide)]
    decide
  · have h : makeAiMoveV (exampleBoard Cell.O Cell.X) Cell.O Cell.X = some (10, 3) := by decide!
    refine ⟨by rw [makeAiMove_eq, h]; rfl, ?_⟩
    rw [searchValue_eq (exampleBoard Cell.O Cell.X) Cell.O Cell.X rfl (by decide) (by decide) 3
      (by decide), minimax_terminal _ _ _ _ (by decide)]
    decide

/-- Witness of C6 with `s = X`, `t = O`. -/
theorem makeAiMove_exampleBoard_witness :
    Complementary Cell.X Cell.O ∧
    makeAiMove (exampleBoard Cell.X Cell.O) Cell.X Cell.O = some 3 ∧
    searchValue (exampleBoard Cell.X Cell.O) Cell.X Cell.O 3 = some 10 :=
  ⟨Or.inl ⟨rfl, rfl⟩, makeAiMove_exampleBoard Cell.X Cell.O (Or.inl ⟨rfl, rfl⟩)⟩

/-! ### Legal play keeps at most one winner -/

theorem cellAt_set_eq_of_ne (b : Board) (i j : Nat) (p q : Cell) (hq : q ≠ p)
    (h : cellAt (b.set i p) j = q) : cellAt b j = q := by
  simp only [cellAt, List.getD_eq_getElem?_getD, List.getElem?_set] at h ⊢
  by_cases hij : i = j
  · subst hij
    by_cases hl : i < b.length
    · simp only [hl, if_true, Option.getD_some] at h
      exact absurd h.symm hq
    · simp only [hl, if_false, Option.getD_none] at h
      rw [List.getElem?_eq_none (by omega)]
      simpa using h
  · simpa [hij] using h

theorem checkWin_applyAction_of_ne (b : Board) (a : Int) (p q : Cell) (hq : q ≠ p)
    (h : checkWin (applyAction b a p) q = true) : checkWin b q = true := by
  simp only [checkWin, applyAction, List.any_eq_true, Bool.and_eq_true, beq_iff_eq] at h ⊢
  obtain ⟨w, hw, ⟨h1, h2⟩, h3⟩ := h
  exact ⟨w, hw, ⟨cellAt_set_eq_of_ne _ _ _ _ _ hq h1, cellAt_set_eq_of_ne _ _ _ _ _ hq h2⟩,
    cellAt_set_eq_of_ne _ _ _ _ _ hq h3⟩

theorem other_X : other Cell.X = Cell.O := rfl

theorem other_O : other Cell.O = Cell.X := rfl

theorem Complementary.other_eq {ai hu : Cell} (h : Complementary ai hu) :
    other ai = hu ∧ other hu = ai := by
  rcases h with ⟨rfl, rfl⟩ | ⟨rfl, rfl⟩ <;> exact ⟨rfl, rfl⟩

theorem Complementary.ne {ai hu : Cell} (h : Complementary ai hu) : ai ≠ hu := by
  rcases h with ⟨rfl, rfl⟩ | ⟨rfl, rfl⟩ <;> decide

/-- After a legal move from a board without winner, only the mover can have a
completed triple. -/
theorem one_winner_after_move (b : Board) (a : Int) (p : Cell) (hp : p = Cell.X ∨ p = Cell.O)
    (ht : isTerminal b = false) :
    ¬(checkWin (applyAction b a p) Cell.X = true ∧ checkWin (applyAction b a p) Cell.O = true) := by
  simp only [isTerminal, Bool.or_eq_false_iff] at ht
  obtain ⟨⟨hx, ho⟩, _⟩ := ht
  rintro ⟨h1, h2⟩
  rcases hp with rfl | rfl
  · have := checkWin_applyAction_of_ne b a Cell.X Cell.O (by decide) h2
    rw [ho] at this
    exact Bool.noConfusion this
  · have := checkWin_applyAction_of_ne b a Cell.O Cell.X (by decide) h1
    rw [hx] at this
    exact Bool.noConfusion this

/-- What reachability gives the search: nine cells, a side to move that is
`X` or `O`, and at most one winner. -/
theorem Reachable.good {b : Board} {p : Cell} (h : Reachable b p) :
    b.length = 9 ∧ (p = Cell.X ∨ p = Cell.O) ∧
      ¬(checkWin b Cell.X = true ∧ checkWin b Cell.O = true) := by
  induction h with
  | start => exact ⟨rfl, Or.inl rfl, by decide⟩
  | move b p a _ ht _ ih =>
    obtain ⟨hlen, hp, _⟩ := ih
    refine ⟨by rw [length_applyAction, hlen], ?_, one_winner_after_move b a p hp ht⟩
    rcases hp with rfl | rfl
    · exact Or.inr rfl
    · exact Or.inl rfl

theorem Reachable.step {b b' : Board} {p p' : Cell} (a : Int) (h : Reachable b p)
    (ht : isTerminal b = false) (ha : a ∈ getPossibleActions b) (hb : b' = applyAction b a p)
    (hp : p' = other p) : Reachable b' p' := by
  subst hb
  subst hp
  exact Reachable.move b p a h ht ha

theorem reachable_forkBoard : Reachable forkBoard Cell.X := by
  have h0 : Reachable emptyBoard Cell.X := Reachable.start
  have h1 : Reachable [Cell.empty, Cell.X, Cell.empty, Cell.empty, Cell.empty, Cell.empty,
      Cell.empty, Cell.empty, Cell.empty] Cell.O :=
    Reachable.step 2 h0 (by decide) (by decide) (by decide) (by decide)
  have h2 : Reachable [Cell.empty, Cell.X, Cell.empty, Cell.empty, Cell.empty, Cell.O,
      Cell.empty, Cell.empty, Cell.empty] Cell.X :=
    Reachable.step 6 h1 (by decide) (by decide) (by decide) (by decide)
  have h3 : Reachable [Cell.empty, Cell.X, Cell.empty, Cell.empty, Cell.X, Cell.O,
      Cell.empty, Cell.empty, Cell.empty] Cell.O :=
    Reachable.step 5 h2 (by decide) (by decide) (by decide) (by decide)
  exact Reachable.step 7 h3 (by decide) (by decide) (by decide) (by decide)

/-! ### Immediate wins -/

/-- C5, counterexample: the board `[_, X, _, _, X, O, O, _, _]` is reachable
with `X` to move and not terminal, cell 8 completes the triple `{1,4,7}` of
`X`, and yet `makeAiMove` returns 1, which completes no triple. -/
theorem makeAiMove_skips_immediate_win :
    Reachable forkBoard Cell.X ∧ isTerminal forkBoard = false ∧
    Complementary Cell.X Cell.O ∧
    (8 ∈ getPossibleActions forkBoard ∧ checkWin (applyAction forkBoard 8 Cell.X) Cell.X = true) ∧
    makeAiMove forkBoard Cell.X Cell.O = some 1 ∧
    checkWin (applyAction forkBoard 1 Cell.X) Cell.X = false := by
  have h : makeAiMoveV forkBoard Cell.X Cell.O = some (10, 1) := by decide!
  exact ⟨reachable_forkBoard, by decide, Or.inl ⟨rfl, rfl⟩, ⟨by decide, by decide⟩,
    by rw [makeAiMove_eq, h]; rfl, by decide⟩

/-- C5, amended: on a reachable board that is not terminal, with the computer
to move, if some empty cell completes a triple of the computer, then the move
returned by `makeAiMove` has the search value `10`, the value of a won game:
the position it reaches has minimax value `10`. -/
theorem makeAiMove_keeps_win (b : Board) (ai hu : Cell) (hreach : Reachable b ai)
    (ht : isTerminal b = false) (hsym : Complementary ai hu)
    (hwin : ∃ a ∈ getPossibleActions b, checkWin (applyAction b a ai) ai = true) :
    ∃ m, makeAiMove b ai hu = some m ∧ m ∈ getPossibleActions b ∧
      searchValue b ai hu m = some 10 ∧ minimax (applyAction b m ai) false ai hu = 10 := by
  obtain ⟨hlen, _, _⟩ := hreach.good
  obtain ⟨hai, hhu⟩ := hsym.ne_empty
  obtain ⟨m, hm, hmem, hall⟩ := makeAiMove_greatest b ai hu hlen ht hsym
  obtain ⟨a, ha, hw⟩ := hwin
  have hta : isTerminal (applyAction b a ai) = true := by
    simp only [isTerminal]
    rcases hsym with ⟨rfl, rfl⟩ | ⟨rfl, rfl⟩ <;> simp [hw]
  have hva : minimax (applyAction b a ai) false ai hu = 10 := by
    rw [minimax_terminal _ _ _ _ hta]
    simp [utility, hw]
  have hle := hall a ha
  have hr := (minimaxN_range ai hu ((applyAction b m ai).count Cell.empty)
    (applyAction b m ai) false).2
  have hv : minimax (applyAction b m ai) false ai hu = 10 := by
    simp only [minimax] at hle hva ⊢
    omega
  exact ⟨m, hm, hmem, by rw [searchValue_eq b ai hu hlen hai hhu m hmem, hv], hv⟩

/-- Witness of the amended C5 on the board `[_, X, _, _, X, O, O, _, _]`. -/
theorem makeAiMove_keeps_win_witness :
    Reachable forkBoard Cell.X ∧ isTerminal forkBoard = false ∧ Complementary Cell.X Cell.O ∧
    (∃ a ∈ getPossibleActions forkBoard, checkWin (applyAction forkBoard a Cell.X) Cell.X = true) ∧
    ∃ m, makeAiMove forkBoard Cell.X Cell.O = some m ∧ m ∈ getPossibleActions forkBoard ∧
      searchValue forkBoard Cell.X Cell.O m = some 10 ∧
      minimax (applyAction forkBoard m Cell.X) false Cell.X Cell.O = 10 :=
  ⟨reachable_forkBoard, by decide, Or.inl ⟨rfl, rfl⟩, ⟨8, by decide, by decide⟩,
    makeAiMove_keeps_win forkBoard Cell.X Cell.O reachable_forkBoard (by decide)
      (Or.inl ⟨rfl, rfl⟩) ⟨8, by decide, by decide⟩⟩

/-! ### Forced wins and the minimax value -/

theorem utility_neg_iff (b : Board) (ai hu : Cell) (hsym : Complementary ai hu)
    (hone : ¬(checkWin b Cell.X = true ∧ checkWin b Cell.O = true)) :
    utility b ai < 0 ↔ checkWin b hu = true := by
  rcases hsym with ⟨rfl, rfl⟩ | ⟨rfl, rfl⟩ <;>
    cases hx : checkWin b Cell.X <;> cases ho : checkWin b Cell.O <;>
    simp_all [utility]

/-- A forced win of the human shows in the minimax value: it is negative. -/
theorem minimax_neg_of_forcesWin (ai hu : Cell) (hsym : Complementary ai hu) (b : Board)
    (p : Cell) (h : ForcesWin hu b p) :
    b.length = 9 → ¬(checkWin b Cell.X = true ∧ checkWin b Cell.O = true) →
      (p = ai → minimax b true ai hu < 0) ∧ (p = hu → minimax b false ai hu < 0) := by
  obtain ⟨hai, hhu⟩ := hsym.ne_empty
  obtain ⟨hoa, hoh⟩ := hsym.other_eq
  have hne := hsym.ne
  have hXO : ∀ q : Cell, q = ai ∨ q = hu → q = Cell.X ∨ q = Cell.O := by
    intro q hq
    rcases hsym with ⟨rfl, rfl⟩ | ⟨rfl, rfl⟩ <;> rcases hq with rfl | rfl <;> simp
  induction h with
  | won b p ht hw =>
    intro _ hone
    have hu0 := (utility_neg_iff b ai hu hsym hone).2 hw
    exact ⟨fun _ => by rw [minimax_terminal _ _ _ _ ht]; exact hu0,
      fun _ => by rw [minimax_terminal _ _ _ _ ht]; exact hu0⟩
  | own b p a ht hp ha _ ih =>
    intro hlen _
    subst hp
    refine ⟨fun h => absurd h.symm hne, fun _ => ?_⟩
    have hc := (ih (by rw [length_applyAction, hlen])
      (one_winner_after_move b a p (hXO p (Or.inr rfl)) ht)).1 hoh
    rw [minimax_min b ai p hlen hhu ht]
    exact lt_of_le_of_lt (minOfList_le _ _ _ (List.mem_map.2 ⟨a, ha, rfl⟩)) hc
  | opp b p ht hp _ ih =>
    intro hlen _
    refine ⟨fun h => ?_, fun h => absurd h hp⟩
    subst h
    rw [minimax_max b p hu hlen hai ht]
    have hle : maxOfList (utility b p)
        ((getPossibleActions b).map fun a => minimax (applyAction b a p) false p hu) ≤ -1 := by
      apply maxOfList_le
      · intro hnil
        rw [List.map_eq_nil_iff] at hnil
        exact getPossibleActions_ne_nil hlen (isFull_of_isTerminal_false ht) hnil
      · intro x hx
        obtain ⟨a, ha, rfl⟩ := List.mem_map.1 hx
        have := (ih a ha (by rw [length_applyAction, hlen])
          (one_winner_after_move b a p (hXO p (Or.inl rfl)) ht)).2 hoa
        omega
    omega

/-- A negative minimax value is a forced win of the human. -/
theorem forcesWin_of_minimax_neg (ai hu : Cell) (hsym : Complementary ai hu) :
    ∀ (n : Nat) (b : Board), b.count Cell.empty = n → b.length = 9 →
      ¬(checkWin b Cell.X = true ∧ checkWin b Cell.O = true) →
      (minimax b true ai hu < 0 → ForcesWin hu b ai) ∧
      (minimax b false ai hu < 0 → ForcesWin hu b hu) := by
  obtain ⟨hai, hhu⟩ := hsym.ne_empty
  obtain ⟨hoa, hoh⟩ := hsym.other_eq
  have hne := hsym.ne
  have hXO : ∀ q : Cell, q = ai ∨ q = hu → q = Cell.X ∨ q = Cell.O := by
    intro q hq
    rcases hsym with ⟨rfl, rfl⟩ | ⟨rfl, rfl⟩ <;> rcases hq with rfl | rfl <;> simp
  intro n
  induction n with
  | zero =>
    intro b hc _ hone
    have ht := isTerminal_of_count_zero hc
    constructor
    · intro h
      rw [minimax_terminal _ _ _ _ ht] at h
      exact ForcesWin.won b ai ht ((utility_neg_iff b ai hu hsym hone).1 h)
    · intro h
      rw [minimax_terminal _ _ _ _ ht] at h
      exact ForcesWin.won b hu ht ((utility_neg_iff b ai hu hsym hone).1 h)
  | succ n ih =>
    intro b hc hlen hone
    by_cases ht : isTerminal b = true
    · constructor
      · intro h
        rw [minimax_terminal _ _ _ _ ht] at h
        exact ForcesWin.won b ai ht ((utility_neg_iff b ai hu hsym hone).1 h)
      · intro h
        rw [minimax_terminal _ _ _ _ ht] at h
        exact ForcesWin.won b hu ht ((utility_neg_iff b ai hu hsym hone).1 h)
    · have ht' : isTerminal b = false := by simpa using ht
      have hchild : ∀ (p : Cell), p = ai ∨ p = hu → ∀ a ∈ getPossibleActions b,
          (applyAction b a p).count Cell.empty = n ∧ (applyAction b a p).length = 9 ∧
          ¬(checkWin (applyAction b a p) Cell.X = true ∧
            checkWin (applyAction b a p) Cell.O = true) := by
        intro p hp a ha
        have hpe : p ≠ Cell.empty := by rcases hp with rfl | rfl; exact hai; exact hhu
        have := count_applyAction hlen ha hpe
        exact ⟨by omega, by rw [length_applyAction, hlen],
          one_winner_after_move b a p (hXO p hp) ht'⟩
      constructor
      · intro h
        rw [minimax_max b ai hu hlen hai ht'] at h
        refine ForcesWin.opp b ai ht' hne ?_
        intro a ha
        obtain ⟨h1, h2, h3⟩ := hchild ai (Or.inl rfl) a ha
        rw [hoa]
        apply (ih _ h1 h2 h3).2
        exact lt_of_le_of_lt (le_maxOfList _ _ _ (List.mem_map.2 ⟨a, ha, rfl⟩)) h
      · intro h
        rw [minimax_min b ai hu hlen hhu ht'] at h
        have hex : ∃ a ∈ getPossibleActions b, minimax (applyAction b a hu) true ai hu < 0 := by
          by_contra hcon
          push_neg at hcon
          have := le_minOfList (utility b ai) 0
            ((getPossibleActions b).map fun a => minimax (applyAction b a hu) true ai hu)
            (by
              intro hnil
              rw [List.map_eq_nil_iff] at hnil
              exact getPossibleActions_ne_nil hlen (isFull_of_isTerminal_false ht') hnil)
            (by
              intro x hx
              obtain ⟨a, ha, rfl⟩ := List.mem_map.1 hx
              exact hcon a ha)
          omega
        obtain ⟨a, ha, hlt⟩ := hex
        obtain ⟨h1, h2, h3⟩ := hchild hu (Or.inr rfl) a ha
        refine ForcesWin.own b hu a ht' rfl ha ?_
        rw [hoh]
        exact (ih _ h1 h2 h3).1 hlt

/-- C4: on a reachable board that is not terminal, with the computer to move,
if some legal move leads to a position from which the human cannot force a
win, then the move returned by `makeAiMove` leads to such a position too. -/
theorem makeAiMove_avoids_forced_loss (b : Board) (ai hu : Cell) (hreach : Reachable b ai)
    (ht : isTerminal b = false) (hsym : Complementary ai hu)
    (hsafe : ∃ a ∈ getPossibleActions b, ¬ForcesWin hu (applyAction b a ai) hu) :
    ∃ m, makeAiMove b ai hu = some m ∧ m ∈ getPossibleActions b ∧
      ¬ForcesWin hu (applyAction b m ai) hu := by
  obtain ⟨hlen, hp, _⟩ := hreach.good
  obtain ⟨hai, _⟩ := hsym.ne_empty
  obtain ⟨m, hm, hmem, hall⟩ := makeAiMove_greatest b ai hu hlen ht hsym
  obtain ⟨a, ha, hna⟩ := hsafe
  have hgood : ∀ x, x ∈ getPossibleActions b → (applyAction b x ai).length = 9 ∧
      ¬(checkWin (applyAction b x ai) Cell.X = true ∧
        checkWin (applyAction b x ai) Cell.O = true) :=
    fun x _ => ⟨by rw [length_applyAction, hlen], one_winner_after_move b x ai hp ht⟩
  have hva : 0 ≤ minimax (applyAction b a ai) false ai hu := by
    by_contra hneg
    exact hna ((forcesWin_of_minimax_neg ai hu hsym _ _ rfl (hgood a ha).1 (hgood a ha).2).2
      (by omega))
  refine ⟨m, hm, hmem, ?_⟩
  intro hf
  have := (minimax_neg_of_forcesWin ai hu hsym _ _ hf (hgood m hmem).1 (hgood m hmem).2).2 rfl
  have := hall a ha
  omega

theorem forkBoard_safe_move :
    ∃ a ∈ getPossibleActions forkBoard, ¬ForcesWin Cell.O (applyAction forkBoard a Cell.X) Cell.O := by
  refine ⟨8, by decide, ?_⟩
  intro h
  cases h with
  | won _ _ _ hw => exact absurd hw (by decide)
  | own _ _ _ ht _ _ _ => exact absurd ht (by decide)
  | opp _ _ ht _ _ => exact absurd ht (by decide)

/-- Witness of C4 on the board `[_, X, _, _, X, O, O, _, _]` with `X` to move. -/
theorem makeAiMove_avoids_forced_loss_witness :
    Reachable forkBoard Cell.X ∧ isTerminal forkBoard = false ∧ Complementary Cell.X Cell.O ∧
    (∃ a ∈ getPossibleActions forkBoard,
      ¬ForcesWin Cell.O (applyAction forkBoard a Cell.X) Cell.O) ∧
    ∃ m, makeAiMove forkBoard Cell.X Cell.O = some m ∧ m ∈ getPossibleActions forkBoard ∧
      ¬ForcesWin Cell.O (applyAction forkBoard m Cell.X) Cell.O :=
  ⟨reachable_forkBoard, by decide, Or.inl ⟨rfl, rfl⟩, forkBoard_safe_move,
    makeAiMove_avoids_forced_loss forkBoard Cell.X Cell.O reachable_forkBoard (by decide)
      (Or.inl ⟨rfl, rfl⟩) forkBoard_safe_move⟩

/-! ### Soundness of the checked bounds -/

theorem forceCell_eq {α : Type} (c : Cell) (k : Cell → α) : forceCell c k = k c := by
  cases c <;> rfl

theorem forceBoard_eq {α : Type} (b : Board) : ∀ (k : Board → α), forceBoard b k = k b := by
  induction b with
  | nil => intro k; rfl
  | cons c cs ih =>
    intro k
    simp only [forceBoard, forceCell_eq, ih]

theorem same_eq_beq (a b : Cell) : same a b = (a == b) := by
  cases a <;> cases b <;> rfl

theorem nine_cells (b : Board) (h : b.length = 9) :
    ∃ c0 c1 c2 c3 c4 c5 c6 c7 c8, b = [c0, c1, c2, c3, c4, c5, c6, c7, c8] := by
  match b, h with
  | [c0, c1, c2, c3, c4, c5, c6, c7, c8], _ => exact ⟨c0, c1, c2, c3, c4, c5, c6, c7, c8, rfl⟩

theorem winFast_eq (b : Board) (p : Cell) (h : b.length = 9) : winFast p b = checkWin b p := by
  obtain ⟨c0, c1, c2, c3, c4, c5, c6, c7, c8, rfl⟩ := nine_cells b h
  simp [winFast, checkWin, wins, cellAt, same_eq_beq, Bool.or_assoc]

theorem fullFast_eq (b : Board) : fullFast b = isFull b := by
  induction b with
  | nil => rfl
  | cons c cs ih =>
    cases c
    · simp [fullFast, isFull]
    · simp only [fullFast, ih]; simp [isFull]
    · simp only [fullFast, ih]; simp [isFull]

theorem terminalFast_eq (b : Board) (h : b.length = 9) : terminalFast b = isTerminal b := by
  simp only [terminalFast, isTerminal, winFast_eq b _ h, fullFast_eq]

theorem utilityFast_eq (b : Board) (ai : Cell) (h : b.length = 9) :
    utilityFast b ai = utility b ai := by
  simp only [utilityFast, utility, winFast_eq b _ h]

theorem filterMap_cons_pick (f : Nat → Option Int) (a : Nat) (l : List Nat) (c : Cell) (i : Int)
    (h : f a = if c = Cell.empty then some i else none) :
    List.filterMap f (a :: l) = pick c i (List.filterMap f l) := by
  rw [List.filterMap_cons, h]
  cases c <;> rfl

theorem actionsFast_eq (b : Board) (h : b.length = 9) : actionsFast b = getPossibleActions b := by
  obtain ⟨c0, c1, c2, c3, c4, c5, c6, c7, c8, rfl⟩ := nine_cells b h
  have hr : List.range 9 = [0, 1, 2, 3, 4, 5, 6, 7, 8] := by decide
  simp only [getPossibleActions, hr, actionsFast]
  rw [filterMap_cons_pick _ _ _ c0 1 (by simp [cellAt]),
    filterMap_cons_pick _ _ _ c1 2 (by simp [cellAt]),
    filterMap_cons_pick _ _ _ c2 3 (by simp [cellAt]),
    filterMap_cons_pick _ _ _ c3 4 (by simp [cellAt]),
    filterMap_cons_pick _ _ _ c4 5 (by simp [cellAt]),
    filterMap_cons_pick _ _ _ c5 6 (by simp [cellAt]),
    filterMap_cons_pick _ _ _ c6 7 (by simp [cellAt]),
    filterMap_cons_pick _ _ _ c7 8 (by simp [cellAt]),
    filterMap_cons_pick _ _ _ c8 9 (by simp [cellAt])]
  rfl

theorem allZip_forall (f : Int → Cert → Bool) :
    ∀ (l : List Int) (cs : List Cert), allZip f l cs = true → ∀ a ∈ l, ∃ c, f a c = true := by
  intro l
  induction l with
  | nil => intro cs _ a ha; exact absurd ha (List.not_mem_nil _)
  | cons x xs ih =>
    intro cs h a ha
    cases cs with
    | nil => simp [allZip] at h
    | cons c cs =>
      simp only [allZip, Bool.and_eq_true] at h
      rcases List.mem_cons.1 ha with rfl | ha
      · exact ⟨c, h.1⟩
      · exact ih cs h.2 a ha

/-- A successful replay of a strategy tree bounds the minimax value. -/
theorem boundOK_sound (ai hu : Cell) (hai : ai ≠ Cell.empty) (hhu : hu ≠ Cell.empty) :
    ∀ (n : Nat) (cert : Cert) (b : Board) (isMax lower : Bool) (bound : Int),
      b.length = 9 → boundOK n cert b isMax lower bound ai hu = true →
      (lower = true → bound ≤ minimax b isMax ai hu) ∧
      (lower = false → minimax b isMax ai hu ≤ bound) := by
  intro n
  induction n with
  | zero => intro cert b isMax lower bound _ h; simp [boundOK] at h
  | succ n ih =>
    intro cert b isMax lower bound hlen h
    simp only [boundOK, forceBoard_eq, terminalFast_eq b hlen, utilityFast_eq b ai hlen,
      actionsFast_eq b hlen] at h
    by_cases ht : isTerminal b = true
    · simp only [ht, if_true] at h
      rw [minimax_terminal _ _ _ _ ht]
      cases lower with
      | true => simpa using h
      | false => simpa using h
    · have ht' : isTerminal b = false := by simpa using ht
      have hne := getPossibleActions_ne_nil hlen (isFull_of_isTerminal_false ht')
      simp only [ht', Bool.false_eq_true, if_false] at h
      cases isMax with
      | true =>
        rw [minimax_max b ai hu hlen hai ht']
        cases lower with
        | true =>
          simp only [beq_self_eq_true, if_true, Bool.and_eq_true, Bool.not_true,
            List.contains_iff_exists_mem_beq, beq_iff_eq] at h
          obtain ⟨⟨a, ha, hae⟩, hrec⟩ := h
          subst hae
          have := (ih cert _ false true bound (by rw [length_applyAction, hlen]) hrec).1 rfl
          refine ⟨fun _ => ?_, fun hc => Bool.noConfusion hc⟩
          exact le_trans this (le_maxOfList _ _ _ (List.mem_map.2 ⟨_, ha, rfl⟩))
        | false =>
          simp only [Bool.not_true] at h
          have hall := allZip_forall _ _ _ (by simpa using h)
          refine ⟨fun hc => Bool.noConfusion hc, fun _ => ?_⟩
          apply maxOfList_le
          · intro hnil
            rw [List.map_eq_nil_iff] at hnil
            exact hne hnil
          · intro x hx
            obtain ⟨a, ha, rfl⟩ := List.mem_map.1 hx
            obtain ⟨c, hc⟩ := hall a ha
            exact (ih c _ false false bound (by rw [length_applyAction, hlen]) hc).2 rfl
      | false =>
        rw [minimax_min b ai hu hlen hhu ht']
        cases lower with
        | true =>
          simp only [Bool.not_false] at h
          have hall := allZip_forall _ _ _ (by simpa using h)
          refine ⟨fun _ => ?_, fun hc => Bool.noConfusion hc⟩
          apply le_minOfList
          · intro hnil
            rw [List.map_eq_nil_iff] at hnil
            exact hne hnil
          · intro x hx
            obtain ⟨a, ha, rfl⟩ := List.mem_map.1 hx
            obtain ⟨c, hc⟩ := hall a ha
            exact (ih c _ true true bound (by rw [length_applyAction, hlen]) hc).1 rfl
        | false =>
          simp only [beq_self_eq_true, if_true, Bool.and_eq_true, Bool.not_false,
            List.contains_iff_exists_mem_beq, beq_iff_eq] at h
          obtain ⟨⟨a, ha, hae⟩, hrec⟩ := h
          subst hae
          have := (ih cert _ true false bound (by rw [length_applyAction, hlen]) hrec).2 rfl
          refine ⟨fun hc => Bool.noConfusion hc, fun _ => ?_⟩
          exact le_trans (minOfList_le _ _ _ (List.mem_map.2 ⟨_, ha, rfl⟩)) this

/-- The move returned by `makeAiMove` is worth at least as much as every legal
move and strictly more than every legal move of smaller index. -/
theorem makeAiMove_first_greatest (b : Board) (ai hu : Cell) (hlen : b.length = 9)
    (ht : isTerminal b = false) (hsym : Complementary ai hu) :
    ∃ m, makeAiMove b ai hu = some m ∧ m ∈ getPossibleActions b ∧
      ∀ a ∈ getPossibleActions b,
        minimax (applyAction b a ai) false ai hu ≤ minimax (applyAction b m ai) false ai hu ∧
        (a < m → minimax (applyAction b a ai) false ai hu
          < minimax (applyAction b m ai) false ai hu) := by
  obtain ⟨hai, hhu⟩ := hsym.ne_empty
  obtain ⟨m, pre, post, hm, hsplit, hpre, hpost⟩ :=
    makeAiMove_spec b ai hu hlen hai hhu (isFull_of_isTerminal_false ht)
  have hmem : m ∈ getPossibleActions b := by rw [hsplit]; simp
  have hsorted := getPossibleActions_pairwise b
  rw [hsplit, List.pairwise_append] at hsorted
  obtain ⟨_, hmp, _⟩ := hsorted
  rw [List.pairwise_cons] at hmp
  refine ⟨m, hm, hmem, ?_⟩
  intro a ha
  rw [hsplit] at ha
  rcases List.mem_append.1 ha with h | h
  · exact ⟨le_of_lt (hpre a h), fun _ => hpre a h⟩
  · rcases List.mem_cons.1 h with rfl | h
    · exact ⟨le_refl _, fun hlt => absurd hlt (lt_irrefl _)⟩
    · refine ⟨hpost a h, fun hlt => ?_⟩
      have := hmp.1 a h
      omega

/-- Checked bounds around a move determine the result of `makeAiMove`. -/
theorem choiceOK_sound (b : Board) (ai hu : Cell) (m best : Int) (certs : List Cert)
    (hlen : b.length = 9) (ht : isTerminal b = false) (hsym : Complementary ai hu)
    (h : choiceOK b ai hu m best certs = true) : makeAiMove b ai hu = some m := by
  obtain ⟨hai, hhu⟩ := hsym.ne_empty
  simp only [choiceOK, actionsFast_eq b hlen, Bool.and_eq_true, List.contains_iff_exists_mem_beq,
    beq_iff_eq] at h
  obtain ⟨⟨m0, hm0, hmm⟩, hz⟩ := h
  subst hmm
  have hall := allZip_forall _ _ _ hz
  have hb : ∀ a ∈ getPossibleActions b,
      (a < m → minimax (applyAction b a ai) false ai hu ≤ best - 1) ∧
      (a = m → best ≤ minimax (applyAction b a ai) false ai hu) ∧
      (m < a → minimax (applyAction b a ai) false ai hu ≤ best) := by
    intro a ha
    obtain ⟨c, hc⟩ := hall a ha
    have hl : (applyAction b a ai).length = 9 := by rw [length_applyAction, hlen]
    by_cases h1 : a < m
    · simp only [h1, if_true] at hc
      exact ⟨fun _ => (boundOK_sound ai hu hai hhu _ _ _ _ _ _ hl hc).2 rfl,
        fun h => by omega, fun h => by omega⟩
    · simp only [h1, if_false] at hc
      by_cases h2 : a = m
      · simp only [h2, if_true] at hc
        exact ⟨fun h => by omega, fun _ => by
          rw [h2]; exact (boundOK_sound ai hu hai hhu _ _ _ _ _ _ (by rw [← h2]; exact hl) hc).1 rfl,
          fun h => by omega⟩
      · simp only [h2, if_false] at hc
        exact ⟨fun h => by omega, fun h => absurd h h2,
          fun _ => (boundOK_sound ai hu hai hhu _ _ _ _ _ _ hl hc).2 rfl⟩
  obtain ⟨m', hm', hmem', hfirst⟩ := makeAiMove_first_greatest b ai hu hlen ht hsym
  have hmv := (hb m hm0).2.1 rfl
  rcases lt_trichotomy m' m with hlt | heq | hgt
  · have h1 := (hb m' hmem').1 hlt
    have h2 := (hfirst m hm0).1
    omega
  · rw [hm', heq]
  · have h1 := (hb m' hmem').2.2 hgt
    have h2 := (hfirst m hm0).2 hgt
    omega

/-! ### Self-play from the empty board -/

theorem choiceOK_emptyBoard : choiceOK emptyBoard Cell.X Cell.O 1 0 certsOne = true := by decide!

theorem choiceOK_playOne : choiceOK playOne Cell.O Cell.X 5 0 certsTwo = true := by decide!

theorem choiceOK_playTwo : choiceOK playTwo Cell.X Cell.O 2 0 certsThree = true := by decide!

theorem choiceOK_playThree : choiceOK playThree Cell.O Cell.X 3 0 certsFour = true := by decide!

theorem choiceOK_playFour : choiceOK playFour Cell.X Cell.O 7 0 certsFive = true := by decide!

theorem choiceOK_playFive : choiceOK playFive Cell.O Cell.X 4 0 certsSix = true := by decide!

theorem choiceOK_playSix : choiceOK playSix Cell.X Cell.O 6 0 certsSeven = true := by decide!

theorem choiceOK_playSeven : choiceOK playSeven Cell.O Cell.X 8 0 certsEight = true := by decide!

theorem choiceOK_playEight : choiceOK playEight Cell.X Cell.O 9 0 certsNine = true := by decide!

theorem makeAiMove_emptyBoard : makeAiMove emptyBoard Cell.X Cell.O = some 1 :=
  choiceOK_sound emptyBoard Cell.X Cell.O 1 0 certsOne rfl (by decide)
    (Or.inl ⟨rfl, rfl⟩) choiceOK_emptyBoard

theorem makeAiMove_playOne : makeAiMove playOne Cell.O Cell.X = some 5 :=
  choiceOK_sound playOne Cell.O Cell.X 5 0 certsTwo rfl (by decide)
    (Or.inr ⟨rfl, rfl⟩) choiceOK_playOne

theorem makeAiMove_playTwo : makeAiMove playTwo Cell.X Cell.O = some 2 :=
  choiceOK_sound playTwo Cell.X Cell.O 2 0 certsThree rfl (by decide)
    (Or.inl ⟨rfl, rfl⟩) choiceOK_playTwo

theorem makeAiMove_playThree : makeAiMove playThree Cell.O Cell.X = some 3 :=
  choiceOK_sound playThree Cell.O Cell.X 3 0 certsFour rfl (by decide)
    (Or.inr ⟨rfl, rfl⟩) choiceOK_playThree

theorem makeAiMove_playFour : makeAiMove playFour Cell.X Cell.O = some 7 :=
  choiceOK_sound playFour Cell.X Cell.O 7 0 certsFive rfl (by decide)
    (Or.inl ⟨rfl, rfl⟩) choiceOK_playFour

theorem makeAiMove_playFive : makeAiMove playFive Cell.O Cell.X = some 4 :=
  choiceOK_sound playFive Cell.O Cell.X 4 0 certsSix rfl (by decide)
    (Or.inr ⟨rfl, rfl⟩) choiceOK_playFive

theorem makeAiMove_playSix : makeAiMove playSix Cell.X Cell.O = some 6 :=
  choiceOK_sound playSix Cell.X Cell.O 6 0 certsSeven rfl (by decide)
    (Or.inl ⟨rfl, rfl⟩) choiceOK_playSix

theorem makeAiMove_playSeven : makeAiMove playSeven Cell.O Cell.X = some 8 :=
  choiceOK_sound playSeven Cell.O Cell.X 8 0 certsEight rfl (by decide)
    (Or.inr ⟨rfl, rfl⟩) choiceOK_playSeven

theorem makeAiMove_playEight : makeAiMove playEight Cell.X Cell.O = some 9 :=
  choiceOK_sound playEight Cell.X Cell.O 9 0 certsNine rfl (by decide)
    (Or.inl ⟨rfl, rfl⟩) choiceOK_playEight

theorem choiceOK_emptyBoard_O : choiceOK emptyBoard Cell.O Cell.X 1 0 certsOne = true := by
  decide!

theorem makeAiMove_emptyBoard_O : makeAiMove emptyBoard Cell.O Cell.X = some 1 :=
  choiceOK_sound emptyBoard Cell.O Cell.X 1 0 certsOne rfl (by decide)
    (Or.inr ⟨rfl, rfl⟩) choiceOK_emptyBoard_O

theorem selfPlay_step (fuel : Nat) (b b' : Board) (p p' : Cell) (m : Int)
    (ht : isTerminal b = false) (hm : makeAiMove b p (other p) = some m)
    (hb : applyAction b m p = b') (hp : other p = p') :
    selfPlay (fuel + 1) b p = selfPlay fuel b' p' := by
  subst hp
  subst hb
  simp only [selfPlay, ht, Bool.false_eq_true, if_false, hm]

/-- C7: self-play from the empty board with `X` to move, every move being the
one `makeAiMove` returns for the side to move, stops (given ten turns or more)
on a board that is full and on which neither `X` nor `O` has a completed
triple: the game is a draw. -/
theorem selfPlay_draw (n : Nat) :
    ∃ final, selfPlay (n + 10) emptyBoard Cell.X = some final ∧ isTerminal final = true ∧
      isFull final = true ∧ checkWin final Cell.X = false ∧ checkWin final Cell.O = false := by
  have h1 : selfPlay (n + 10) emptyBoard Cell.X = selfPlay (n + 9) playOne Cell.O :=
    selfPlay_step (n + 9) emptyBoard playOne Cell.X Cell.O 1 (by decide) makeAiMove_emptyBoard
      rfl rfl
  have h2 : selfPlay (n + 9) playOne Cell.O = selfPlay (n + 8) playTwo Cell.X :=
    selfPlay_step (n + 8) playOne playTwo Cell.O Cell.X 5 (by decide) makeAiMove_playOne rfl rfl
  have h3 : selfPlay (n + 8) playTwo Cell.X = selfPlay (n + 7) playThree Cell.O :=
    selfPlay_step (n + 7) playTwo playThree Cell.X Cell.O 2 (by decide) makeAiMove_playTwo rfl rfl
  have h4 : selfPlay (n + 7) playThree Cell.O = selfPlay (n + 6) playFour Cell.X :=
    selfPlay_step (n + 6) playThree playFour Cell.O Cell.X 3 (by decide) makeAiMove_playThree
      rfl rfl
  have h5 : selfPlay (n + 6) playFour Cell.X = selfPlay (n + 5) playFive Cell.O :=
    selfPlay_step (n + 5) playFour playFive Cell.X Cell.O 7 (by decide) makeAiMove_playFour
      rfl rfl
  have h6 : selfPlay (n + 5) playFive Cell.O = selfPlay (n + 4) playSix Cell.X :=
    selfPlay_step (n + 4) playFive playSix Cell.O Cell.X 4 (by decide) makeAiMove_playFive rfl rfl
  have h7 : selfPlay (n + 4) playSix Cell.X = selfPlay (n + 3) playSeven Cell.O :=
    selfPlay_step (n + 3) playSix playSeven Cell.X Cell.O 6 (by decide) makeAiMove_playSix rfl rfl
  have h8 : selfPlay (n + 3) playSeven Cell.O = selfPlay (n + 2) playEight Cell.X :=
    selfPlay_step (n + 2) playSeven playEight Cell.O Cell.X 8 (by decide) makeAiMove_playSeven
      rfl rfl
  have h9 : selfPlay (n + 2) playEight Cell.X = selfPlay (n + 1) playNine Cell.O :=
    selfPlay_step (n + 1) playEight playNine Cell.X Cell.O 9 (by decide) makeAiMove_playEight
      rfl rfl
  have h10 : selfPlay (n + 1) playNine Cell.O = some playNine := by
    simp only [selfPlay]
    rfl
  exact ⟨playNine, by rw [h1, h2, h3, h4, h5, h6, h7, h8, h9, h10], by decide, by decide,
    by decide, by decide⟩

/-- C8: on the empty board `makeAiMove` returns a corner or the center, an
index among 1, 3, 5, 7, 9, both with computer `X` and with computer `O`. -/
theorem makeAiMove_emptyBoard_corner_or_center (ai hu : Cell) (hsym : Complementary ai hu) :
    ∃ m, makeAiMove emptyBoard ai hu = some m ∧
      (m = 1 ∨ m = 3 ∨ m = 5 ∨ m = 7 ∨ m = 9) := by
  rcases hsym with ⟨rfl, rfl⟩ | ⟨rfl, rfl⟩
  · exact ⟨1, makeAiMove_emptyBoard, Or.inl rfl⟩
  · exact ⟨1, makeAiMove_emptyBoard_O, Or.inl rfl⟩

/-- Witness of C8 with computer `O`. -/
theorem makeAiMove_emptyBoard_corner_or_center_witness :
    Complementary Cell.O Cell.X ∧
    ∃ m, makeAiMove emptyBoard Cell.O Cell.X = some m ∧
      (m = 1 ∨ m = 3 ∨ m = 5 ∨ m = 7 ∨ m = 9) :=
  ⟨Or.inr ⟨rfl, rfl⟩, makeAiMove_emptyBoard_corner_or_center Cell.O Cell.X (Or.inr ⟨rfl, rfl⟩)⟩

/-! ### Contract of the board operations -/

theorem length_pick (c : Cell) (i : Int) (r : List Int) :
    (pick c i r).length = (if c = Cell.empty then 1 else 0) + r.length := by
  cases c <;> simp [pick, Nat.add_comm]

theorem count_empty_cons (c : Cell) (l : List Cell) :
    List.count Cell.empty (c :: l) = (if c = Cell.empty then 1 else 0) + List.count Cell.empty l := by
  cases c <;> simp [List.count_cons, Nat.add_comm]

theorem length_getPossibleActions (b : Board) (hlen : b.length = 9) :
    (getPossibleActions b).length = b.count Cell.empty := by
  rw [← actionsFast_eq b hlen]
  obtain ⟨c0, c1, c2, c3, c4, c5, c6, c7, c8, rfl⟩ := nine_cells b hlen
  simp only [actionsFast, length_pick, count_empty_cons, List.length_nil, List.count_nil]

theorem mem_getPossibleActions_iff (b : Board) (i : Int) :
    i ∈ getPossibleActions b ↔ 1 ≤ i ∧ i ≤ 9 ∧ cellAt b (i - 1).toNat = Cell.empty := by
  constructor
  · exact fun h => cellAt_of_mem_actions h
  · rintro ⟨h1, h9, hc⟩
    exact mem_getPossibleActions.2 ⟨(i - 1).toNat, by omega, hc, by omega⟩

/-- C11: on every nine-cell board `getPossibleActions` returns a strictly
ascending list that contains `i` exactly when `1 ≤ i ≤ 9` and cell `i - 1` is
empty, and whose length is 9 minus the number of occupied cells. -/
theorem getPossibleActions_contract (b : Board) (hlen : b.length = 9) :
    (getPossibleActions b).Pairwise (fun x y => x < y) ∧
    (∀ i : Int, i ∈ getPossibleActions b ↔
      1 ≤ i ∧ i ≤ 9 ∧ cellAt b (i - 1).toNat = Cell.empty) ∧
    ((getPossibleActions b).length : Int)
      = 9 - ((b.countP fun c => !(c == Cell.empty) : Nat) : Int) := by
  refine ⟨getPossibleActions_pairwise b, mem_getPossibleActions_iff b, ?_⟩
  have h1 := length_getPossibleActions b hlen
  have h2 := List.length_eq_countP_add_countP (fun c => c == Cell.empty) b
  have h3 : b.count Cell.empty = b.countP (fun c => c == Cell.empty) := rfl
  have h4 : (b.countP fun c => !(c == Cell.empty)) = b.countP (fun a => ¬(a == Cell.empty) = true) := by
    congr 1
    funext c
    cases c <;> rfl
  omega

/-- Witness of C11 on the board `[X, X, _, O, O, _, _, _, _]`. -/
theorem getPossibleActions_contract_witness :
    (exampleBoard Cell.X Cell.O).length = 9 ∧
    (getPossibleActions (exampleBoard Cell.X Cell.O)).Pairwise (fun x y => x < y) ∧
    (∀ i : Int, i ∈ getPossibleActions (exampleBoard Cell.X Cell.O) ↔
      1 ≤ i ∧ i ≤ 9 ∧ cellAt (exampleBoard Cell.X Cell.O) (i - 1).toNat = Cell.empty) ∧
    ((getPossibleActions (exampleBoard Cell.X Cell.O)).length : Int)
      = 9 - (((exampleBoard Cell.X Cell.O).countP fun c => !(c == Cell.empty) : Nat) : Int) :=
  ⟨rfl, getPossibleActions_contract (exampleBoard Cell.X Cell.O) rfl⟩

theorem cellAt_set (b : Board) (i j : Nat) (p : Cell) (hj : j < b.length) :
    cellAt (b.set i p) j = if i = j then p else cellAt b j := by
  simp only [cellAt, List.getD_eq_getElem?_getD, List.getElem?_set]
  by_cases hij : i = j
  · subst hij
    simp [hj]
  · simp [hij]

theorem cellAt_set_of_ne (b : Board) (i j : Nat) (p : Cell) (hij : j ≠ i) :
    cellAt (b.set i p) j = cellAt b j := by
  simp only [cellAt, List.getD_eq_getElem?_getD, List.getElem?_set]
  have : ¬ i = j := fun h => hij h.symm
  simp [this]

/-- C12: on every nine-cell board, for an index `i` with `1 ≤ i ≤ 9` and a
symbol `p`, `applyAction board i p` is a nine-cell board whose cell `i - 1` is
`p` and whose other cells are those of `board`. The function returns a new
value; its argument `board` is the same value before and after the call. -/
theorem applyAction_frame (b : Board) (i : Int) (p : Cell) (hlen : b.length = 9)
    (h1 : 1 ≤ i) (h9 : i ≤ 9) :
    (applyAction b i p).length = 9 ∧
    cellAt (applyAction b i p) (i - 1).toNat = p ∧
    ∀ j : Nat, j ≠ (i - 1).toNat → cellAt (applyAction b i p) j = cellAt b j := by
  refine ⟨by rw [length_applyAction, hlen], ?_, ?_⟩
  · simp only [applyAction]
    rw [cellAt_set b _ _ p (by omega)]
    simp
  · intro j hj
    simp only [applyAction]
    exact cellAt_set_of_ne b _ j p hj

/-- Witness of C12: the move 3 of `X` on the board `[X, X, _, O, O, _, _, _, _]`. -/
theorem applyAction_frame_witness :
    (exampleBoard Cell.X Cell.O).length = 9 ∧ (1 : Int) ≤ 3 ∧ (3 : Int) ≤ 9 ∧
    (applyAction (exampleBoard Cell.X Cell.O) 3 Cell.X).length = 9 ∧
    cellAt (applyAction (exampleBoard Cell.X Cell.O) 3 Cell.X) ((3 : Int) - 1).toNat = Cell.X ∧
    ∀ j : Nat, j ≠ ((3 : Int) - 1).toNat →
      cellAt (applyAction (exampleBoard Cell.X Cell.O) 3 Cell.X) j
        = cellAt (exampleBoard Cell.X Cell.O) j :=
  ⟨rfl, by decide, by decide,
    applyAction_frame (exampleBoard Cell.X Cell.O) 3 Cell.X rfl (by decide) (by decide)⟩

theorem isFull_iff_cells (b : Board) (hlen : b.length = 9) :
    isFull b = true ↔ ∀ i : Nat, i < 9 → cellAt b i ≠ Cell.empty := by
  rw [isFull_iff_count, List.count_eq_zero]
  constructor
  · intro h i hi hc
    apply h
    rw [← hc, cellAt_eq_getElem b i (by omega)]
    exact List.getElem_mem _
  · intro h hm
    obtain ⟨i, hi, hbi⟩ := List.getElem_of_mem hm
    exact h i (by omega) (by rw [cellAt_eq_getElem b i hi]; exact hbi)

/-- C13: on every nine-cell board `isTerminal` is true exactly when `checkWin`
holds for `X`, or for `O`, or no cell is empty; and `isFull` is true exactly
when no cell is empty. -/
theorem isTerminal_isFull_iff (b : Board) (hlen : b.length = 9) :
    (isTerminal b = true ↔
      checkWin b Cell.X = true ∨ checkWin b Cell.O = true ∨
        ∀ i : Nat, i < 9 → cellAt b i ≠ Cell.empty) ∧
    (isFull b = true ↔ ∀ i : Nat, i < 9 → cellAt b i ≠ Cell.empty) := by
  refine ⟨?_, isFull_iff_cells b hlen⟩
  rw [← isFull_iff_cells b hlen]
  simp only [isTerminal, Bool.or_eq_true, or_assoc]

/-- Witness of C13 on the full board `[X, X, O, O, O, X, X, O, X]`. -/
theorem isTerminal_isFull_iff_witness :
    playNine.length = 9 ∧
    (isTerminal playNine = true ↔
      checkWin playNine Cell.X = true ∨ checkWin playNine Cell.O = true ∨
        ∀ i : Nat, i < 9 → cellAt playNine i ≠ Cell.empty) ∧
    (isFull playNine = true ↔ ∀ i : Nat, i < 9 → cellAt playNine i ≠ Cell.empty) :=
  ⟨rfl, isTerminal_isFull_iff playNine rfl⟩

theorem wins_lt {x y z : Nat} (h : (x, y, z) ∈ wins) : x < 9 ∧ y < 9 ∧ z < 9 := by
  simp only [wins, List.mem_cons, Prod.mk.injEq, List.mem_singleton, List.not_mem_nil,
    or_false] at h
  omega

theorem cellAt_set_or (b : Board) (e j : Nat) (p : Cell) (hj : j < b.length)
    (h : e = j ∨ cellAt b j = p) : cellAt (b.set e p) j = p := by
  rw [cellAt_set b e j p hj]
  rcases h with h | h
  · simp [h]
  · simp [h]

/-- C14, counterexample: on the nine-cell board `[X, X, _, O, O, _, _, _, _]`
the winning triple `{0,1,2}` has exactly one empty cell and its two other
cells hold `X`, yet `checkWin` is false for `X`. -/
theorem checkWin_false_on_open_triple :
    (exampleBoard Cell.X Cell.O).length = 9 ∧ (0, 1, 2) ∈ wins ∧
    cellAt (exampleBoard Cell.X Cell.O) 0 = Cell.X ∧
    cellAt (exampleBoard Cell.X Cell.O) 1 = Cell.X ∧
    cellAt (exampleBoard Cell.X Cell.O) 2 = Cell.empty ∧
    checkWin (exampleBoard Cell.X Cell.O) Cell.X = false := by
  refine ⟨rfl, by decide, by decide, by decide, by decide, by decide⟩

/-- C14, amended: on every nine-cell board, for a symbol `p` that is `X` or
`O`, if a winning triple has exactly one empty cell, at index `e`, and its two
other cells hold `p`, then `checkWin` is true for `p` on the board obtained by
putting `p` on that empty cell. -/
theorem checkWin_after_completing (b : Board) (p : Cell) (x y z e : Nat) (hlen : b.length = 9)
    (hp : p = Cell.X ∨ p = Cell.O) (hw : (x, y, z) ∈ wins)
    (h : (e = x ∧ cellAt b x = Cell.empty ∧ cellAt b y = p ∧ cellAt b z = p) ∨
      (e = y ∧ cellAt b x = p ∧ cellAt b y = Cell.empty ∧ cellAt b z = p) ∨
      (e = z ∧ cellAt b x = p ∧ cellAt b y = p ∧ cellAt b z = Cell.empty)) :
    checkWin (applyAction b ((e : Int) + 1) p) p = true := by
  obtain ⟨hx, hy, hz⟩ := wins_lt hw
  rw [applyAction_succ]
  simp only [checkWin, List.any_eq_true, Bool.and_eq_true, beq_iff_eq]
  refine ⟨(x, y, z), hw, ⟨?_, ?_⟩, ?_⟩
  · apply cellAt_set_or b e x p (by omega)
    rcases h with ⟨h, _⟩ | ⟨_, h, _⟩ | ⟨_, h, _⟩
    · exact Or.inl h
    · exact Or.inr h
    · exact Or.inr h
  · apply cellAt_set_or b e y p (by omega)
    rcases h with ⟨_, _, h, _⟩ | ⟨h, _⟩ | ⟨_, _, h, _⟩
    · exact Or.inr h
    · exact Or.inl h
    · exact Or.inr h
  · apply cellAt_set_or b e z p (by omega)
    rcases h with ⟨_, _, _, h⟩ | ⟨_, _, _, h⟩ | ⟨h, _⟩
    · exact Or.inr h
    · exact Or.inr h
    · exact Or.inl h

/-- Witness of the amended C14: `X` completes the triple `{0,1,2}` of the board
`[X, X, _, O, O, _, _, _, _]` at index 2. -/
theorem checkWin_after_completing_witness :
    (exampleBoard Cell.X Cell.O).length = 9 ∧ (0, 1, 2) ∈ wins ∧
    cellAt (exampleBoard Cell.X Cell.O) 0 = Cell.X ∧
    cellAt (exampleBoard Cell.X Cell.O) 1 = Cell.X ∧
    cellAt (exampleBoard Cell.X Cell.O) 2 = Cell.empty ∧
    checkWin (applyAction (exampleBoard Cell.X Cell.O) (((2 : Nat) : Int) + 1) Cell.X) Cell.X
      = true :=
  ⟨rfl, by decide, by decide, by decide, by decide,
    checkWin_after_completing (exampleBoard Cell.X Cell.O) Cell.X 0 1 2 2 rfl (Or.inl rfl)
      (by decide) (Or.inr (Or.inr ⟨rfl, by decide, by decide, by decide⟩))⟩

/-- C19: no board reachable from the empty board by legal alternating play
(`X` first, each move on an empty cell, no move from a terminal board) has a
completed triple for `X` and one for `O`. -/
theorem reachable_one_winner (b : Board) (p : Cell) (h : Reachable b p) :
    ¬(checkWin b Cell.X = true ∧ checkWin b Cell.O = true) :=
  h.good.2.2

/-- Witness of C19 on the reachable board `[_, X, _, _, X, O, O, _, _]`. -/
theorem reachable_one_winner_witness :
    Reachable forkBoard Cell.X ∧
    ¬(checkWin forkBoard Cell.X = true ∧ checkWin forkBoard Cell.O = true) :=
  ⟨reachable_forkBoard, reachable_one_winner forkBoard Cell.X reachable_forkBoard⟩

/-! ### Alpha-beta with an arbitrary window -/

theorem maxLoopV_within_from (search : Board → Int → Int → Option Int) (mm : Board → Int)
    (board : Board) (player : Cell) (alpha0 beta : Int) :
    ∀ (actions : List Int) (alpha best acc : Int),
      (∀ a ∈ actions, ∀ al : Int, alpha0 ≤ al → al < beta →
        ∃ v, search (applyAction board a player) al beta = some v ∧
          Within v (mm (applyAction board a player)) al beta) →
      alpha0 ≤ alpha → alpha < beta → best ≤ alpha → acc ≤ alpha →
      (alpha0 < alpha → best = alpha ∧ acc = alpha) →
      ∃ v, maxLoopV search board player actions alpha beta best = some v ∧
        Within v ((actions.map fun a => mm (applyAction board a player)).foldl max acc)
          alpha0 beta := by
  intro actions
  induction actions with
  | nil =>
    intro alpha best acc _ h1 h2 h3 h4 h5
    refine ⟨best, rfl, ?_⟩
    simp only [List.map_nil, List.foldl_nil, Within]
    omega
  | cons a rest ih =>
    intro alpha best acc hs h1 h2 h3 h4 h5
    obtain ⟨v, hv, hw⟩ := hs a (List.mem_cons_self _ _) alpha h1 h2
    simp only [maxLoopV, hv, List.map_cons, List.foldl_cons]
    simp only [Within] at hw
    by_cases hb : beta ≤ max alpha v
    · simp only [hb, if_true]
      refine ⟨_, rfl, ?_⟩
      have hge := le_foldl_max (rest.map fun a => mm (applyAction board a player))
        (max acc (mm (applyAction board a player)))
      simp only [Within]
      omega
    · simp only [hb, if_false]
      exact ih (max alpha v) (max best v) (max acc (mm (applyAction board a player)))
        (fun a' ha' => hs a' (List.mem_cons_of_mem _ ha')) (by omega) (by omega) (by omega)
        (by omega) (by omega)

theorem minLoopV_within_from (search : Board → Int → Int → Option Int) (mm : Board → Int)
    (board : Board) (player : Cell) (alpha beta0 : Int) :
    ∀ (actions : List Int) (beta best acc : Int),
      (∀ a ∈ actions, ∀ be : Int, be ≤ beta0 → alpha < be →
        ∃ v, search (applyAction board a player) alpha be = some v ∧
          Within v (mm (applyAction board a player)) alpha be) →
      beta ≤ beta0 → alpha < beta → beta ≤ best → beta ≤ acc →
      (beta < beta0 → best = beta ∧ acc = beta) →
      ∃ v, minLoopV search board player actions alpha beta best = some v ∧
        Within v ((actions.map fun a => mm (applyAction board a player)).foldl min acc)
          alpha beta0 := by
  intro actions
  induction actions with
  | nil =>
    intro beta best acc _ h1 h2 h3 h4 h5
    refine ⟨best, rfl, ?_⟩
    simp only [List.map_nil, List.foldl_nil, Within]
    omega
  | cons a rest ih =>
    intro beta best acc hs h1 h2 h3 h4 h5
    obtain ⟨v, hv, hw⟩ := hs a (List.mem_cons_self _ _) beta h1 h2
    simp only [minLoopV, hv, List.map_cons, List.foldl_cons]
    simp only [Within] at hw
    by_cases hb : min beta v ≤ alpha
    · simp only [hb, if_true]
      refine ⟨_, rfl, ?_⟩
      have hge := foldl_min_le (rest.map fun a => mm (applyAction board a player))
        (min acc (mm (applyAction board a player)))
      simp only [Within]
      omega
    · simp only [hb, if_false]
      exact ih (min beta v) (min best v) (min acc (mm (applyAction board a player)))
        (fun a' ha' => hs a' (List.mem_cons_of_mem _ ha')) (by omega) (by omega) (by omega)
        (by omega) (by omega)

theorem maxLoopV_range (search : Board → Int → Int → Option Int) (board : Board)
    (player : Cell) (lo hi : Int) :
    ∀ (actions : List Int) (alpha beta best v : Int),
      maxLoopV search board player actions alpha beta best = some v →
      lo ≤ best → best ≤ hi →
      (∀ a ∈ actions, ∀ (al be w : Int),
        search (applyAction board a player) al be = some w → lo ≤ w ∧ w ≤ hi) →
      lo ≤ v ∧ v ≤ hi := by
  intro actions
  induction actions with
  | nil =>
    intro alpha beta best v h h1 h2 _
    simp only [maxLoopV, Option.some.injEq] at h
    omega
  | cons a rest ih =>
    intro alpha beta best v h h1 h2 hs
    simp only [maxLoopV] at h
    cases hv : search (applyAction board a player) alpha beta with
    | none => simp [hv] at h
    | some w =>
      have hw := hs a (List.mem_cons_self _ _) alpha beta w hv
      simp only [hv] at h
      by_cases hb : beta ≤ max alpha w
      · simp only [hb, if_true, Option.some.injEq] at h
        omega
      · simp only [hb, if_false] at h
        exact ih _ _ _ _ h (by omega) (by omega)
          (fun a' ha' => hs a' (List.mem_cons_of_mem _ ha'))

theorem minLoopV_range (search : Board → Int → Int → Option Int) (board : Board)
    (player : Cell) (lo hi : Int) :
    ∀ (actions : List Int) (alpha beta best v : Int),
      minLoopV search board player actions alpha beta best = some v →
      lo ≤ best → best ≤ hi →
      (∀ a ∈ actions, ∀ (al be w : Int),
        search (applyAction board a player) al be = some w → lo ≤ w ∧ w ≤ hi) →
      lo ≤ v ∧ v ≤ hi := by
  intro actions
  induction actions with
  | nil =>
    intro alpha beta best v h h1 h2 _
    simp only [minLoopV, Option.some.injEq] at h
    omega
  | cons a rest ih =>
    intro alpha beta best v h h1 h2 hs
    simp only [minLoopV] at h
    cases hv : search (applyAction board a player) alpha beta with
    | none => simp [hv] at h
    | some w =>
      have hw := hs a (List.mem_cons_self _ _) alpha beta w hv
      simp only [hv] at h
      by_cases hb : min beta w ≤ alpha
      · simp only [hb, if_true, Option.some.injEq] at h
        omega
      · simp only [hb, if_false] at h
        exact ih _ _ _ _ h (by omega) (by omega)
          (fun a' ha' => hs a' (List.mem_cons_of_mem _ ha'))

theorem maxLoopV_range_of_ne_nil (search : Board → Int → Int → Option Int) (board : Board)
    (player : Cell) (lo hi : Int) (actions : List Int) (alpha beta best v : Int)
    (hne : actions ≠ [])
    (h : maxLoopV search board player actions alpha beta best = some v) (h2 : best ≤ hi)
    (hs : ∀ a ∈ actions, ∀ (al be w : Int),
      search (applyAction board a player) al be = some w → lo ≤ w ∧ w ≤ hi) :
    lo ≤ v ∧ v ≤ hi := by
  cases actions with
  | nil => exact absurd rfl hne
  | cons a rest =>
    simp only [maxLoopV] at h
    cases hv : search (applyAction board a player) alpha beta with
    | none => simp [hv] at h
    | some w =>
      have hw := hs a (List.mem_cons_self _ _) alpha beta w hv
      simp only [hv] at h
      by_cases hb : beta ≤ max alpha w
      · simp only [hb, if_true, Option.some.injEq] at h
        omega
      · simp only [hb, if_false] at h
        exact maxLoopV_range search board player lo hi rest _ _ _ _ h (by omega) (by omega)
          (fun a' ha' => hs a' (List.mem_cons_of_mem _ ha'))

theorem minLoopV_range_of_ne_nil (search : Board → Int → Int → Option Int) (board : Board)
    (player : Cell) (lo hi : Int) (actions : List Int) (alpha beta best v : Int)
    (hne : actions ≠ [])
    (h : minLoopV search board player actions alpha beta best = some v) (h2 : lo ≤ best)
    (hs : ∀ a ∈ actions, ∀ (al be w : Int),
      search (applyAction board a player) al be = some w → lo ≤ w ∧ w ≤ hi) :
    lo ≤ v ∧ v ≤ hi := by
  cases actions with
  | nil => exact absurd rfl hne
  | cons a rest =>
    simp only [minLoopV] at h
    cases hv : search (applyAction board a player) alpha beta with
    | none => simp [hv] at h
    | some w =>
      have hw := hs a (List.mem_cons_self _ _) alpha beta w hv
      simp only [hv] at h
      by_cases hb : min beta w ≤ alpha
      · simp only [hb, if_true, Option.some.injEq] at h
        omega
      · simp only [hb, if_false] at h
        exact minLoopV_range search board player lo hi rest _ _ _ _ h (by omega) (by omega)
          (fun a' ha' => hs a' (List.mem_cons_of_mem _ ha'))

/-- Every value returned by the search on a nine-cell board, whatever the
window, lies between `-10` and `10`. -/
theorem abValue_range (ai hu : Cell) (hai : ai ≠ Cell.empty) (hhu : hu ≠ Cell.empty) :
    ∀ (n : Nat) (b : Board), b.length = 9 → b.count Cell.empty = n →
      ∀ (fuel : Nat) (depth alpha beta : Int) (isMax : Bool) (v : Int),
        abValue fuel b depth alpha beta isMax ai hu = some v → -10 ≤ v ∧ v ≤ 10 := by
  intro n
  induction n with
  | zero =>
    intro b _ hc fuel depth alpha beta isMax v h
    cases fuel with
    | zero => simp [abValue] at h
    | succ f =>
      simp only [abValue, isTerminal_of_count_zero hc, Bool.true_or, if_true,
        Option.some.injEq] at h
      rw [← h]
      exact utility_range b ai
  | succ n ih =>
    intro b hlen hc fuel depth alpha beta isMax v h
    cases fuel with
    | zero => simp [abValue] at h
    | succ f =>
      simp only [abValue] at h
      by_cases hcut : (isTerminal b || depth == 0) = true
      · simp only [hcut, if_true, Option.some.injEq] at h
        rw [← h]
        exact utility_range b ai
      · simp only [hcut, if_false] at h
        have ht' : isTerminal b = false := by
          simp only [Bool.or_eq_true, not_or, Bool.not_eq_true] at hcut
          exact hcut.1
        have hne := getPossibleActions_ne_nil hlen (isFull_of_isTerminal_false ht')
        have hchild : ∀ (p : Cell), p ≠ Cell.empty → ∀ a ∈ getPossibleActions b,
            (applyAction b a p).length = 9 ∧ (applyAction b a p).count Cell.empty = n := by
          intro p hp a hmem
          refine ⟨by rw [length_applyAction, hlen], ?_⟩
          have := count_applyAction hlen hmem hp
          omega
        cases isMax with
        | true =>
          simp only [if_true] at h
          exact maxLoopV_range_of_ne_nil _ b ai (-10) 10 _ _ _ _ _ hne h (by omega)
            (fun a ha al be w hw =>
              ih _ (hchild ai hai a ha).1 (hchild ai hai a ha).2 f (depth - 1) al be false w hw)
        | false =>
          simp only [Bool.false_eq_true, if_false] at h
          exact minLoopV_range_of_ne_nil _ b hu (-10) 10 _ _ _ _ _ hne h (by omega)
            (fun a ha al be w hw =>
              ih _ (hchild hu hhu a ha).1 (hchild hu hhu a ha).2 f (depth - 1) al be true w hw)

/-- Alpha-beta against minimax for every window: on a nine-cell board with `n`
empty cells, given fuel and depth for `n` plies and integers `alpha < beta`,
the search returns a value that is `Within` the window of the minimax value. -/
theorem abValue_within_all (ai hu : Cell) (hai : ai ≠ Cell.empty) (hhu : hu ≠ Cell.empty) :
    ∀ (n : Nat) (b : Board), b.length = 9 → b.count Cell.empty = n →
      ∀ (fuel : Nat) (depth alpha beta : Int) (isMax : Bool),
        n < fuel → (n : Int) ≤ depth → alpha < beta →
        ∃ v, abValue fuel b depth alpha beta isMax ai hu = some v ∧
          Within v (minimaxN n b isMax ai hu) alpha beta := by
  intro n
  induction n with
  | zero =>
    intro b _ hc fuel depth alpha beta isMax hf _ _
    obtain ⟨f, rfl⟩ : ∃ f, fuel = f + 1 := ⟨fuel - 1, by omega⟩
    refine ⟨utility b ai, ?_, ?_⟩
    · simp [abValue, isTerminal_of_count_zero hc]
    · simp only [minimaxN]
      exact within_self _ _ _
  | succ n ih =>
    intro b hlen hc fuel depth alpha beta isMax hf hd hab
    obtain ⟨f, rfl⟩ : ∃ f, fuel = f + 1 := ⟨fuel - 1, by omega⟩
    by_cases ht : isTerminal b = true
    · refine ⟨utility b ai, ?_, ?_⟩
      · simp [abValue, ht]
      · simp only [minimaxN, ht, if_true]
        exact within_self _ _ _
    · have ht' : isTerminal b = false := by simpa using ht
      have hd0 : (depth == 0) = false := by
        simp only [beq_eq_false_iff_ne, ne_eq]
        omega
      have hne := getPossibleActions_ne_nil hlen (isFull_of_isTerminal_false ht')
      have hchild : ∀ (p : Cell), p ≠ Cell.empty → ∀ a ∈ getPossibleActions b,
          (applyAction b a p).length = 9 ∧ (applyAction b a p).count Cell.empty = n := by
        intro p hp a hmem
        refine ⟨by rw [length_applyAction, hlen], ?_⟩
        have := count_applyAction hlen hmem hp
        omega
      cases hacts : getPossibleActions b with
      | nil => exact absurd hacts hne
      | cons a rest =>
        have hmem : ∀ x ∈ a :: rest, x ∈ getPossibleActions b := by
          intro x hx; rw [hacts]; exact hx
        cases isMax with
        | true =>
          have hch : ∀ x ∈ a :: rest, ∀ (al be : Int), al < be →
              ∃ v, abValue f (applyAction b x ai) (depth - 1) al be false ai hu = some v ∧
                Within v (minimaxN n (applyAction b x ai) false ai hu) al be :=
            fun x hx al be hlt =>
              ih _ (hchild ai hai x (hmem x hx)).1 (hchild ai hai x (hmem x hx)).2 f
                (depth - 1) al be false (by omega) (by omega) hlt
          obtain ⟨v1, hv1, hw1⟩ := hch a (List.mem_cons_self _ _) alpha beta hab
          have hr1 := abValue_range ai hu hai hhu n _ (hchild ai hai a (hmem a
            (List.mem_cons_self _ _))).1 (hchild ai hai a (hmem a (List.mem_cons_self _ _))).2
            f (depth - 1) alpha beta false v1 hv1
          have hm1 := minimaxN_range ai hu n (applyAction b a ai) false
          have hunf : abValue (f + 1) b depth alpha beta true ai hu
              = maxLoopV (fun b' a c => abValue f b' (depth - 1) a c false ai hu) b ai
                  (a :: rest) alpha beta (-1000) := by
            simp only [abValue, ht', hd0, Bool.or_self, Bool.false_eq_true, if_false, if_true,
              hacts]
          have hmm : minimaxN (n + 1) b true ai hu
              = (rest.map fun x => minimaxN n (applyAction b x ai) false ai hu).foldl max
                  (minimaxN n (applyAction b a ai) false ai hu) := by
            simp only [minimaxN, ht', Bool.false_eq_true, if_false, if_true, hacts, List.map_cons,
              maxOfList]
          rw [hunf, hmm]
          simp only [maxLoopV, hv1]
          simp only [Within] at hw1
          by_cases hb : beta ≤ max alpha v1
          · simp only [hb, if_true]
            refine ⟨_, rfl, ?_⟩
            have hge := le_foldl_max
              (rest.map fun x => minimaxN n (applyAction b x ai) false ai hu)
              (minimaxN n (applyAction b a ai) false ai hu)
            simp only [Within]
            omega
          · simp only [hb, if_false]
            obtain ⟨v, hv, hw⟩ := maxLoopV_within_from
              (fun b' a c => abValue f b' (depth - 1) a c false ai hu)
              (fun b' => minimaxN n b' false ai hu) b ai alpha beta rest
              (max alpha v1) (max (-1000) v1)
              (max (-1000) (minimaxN n (applyAction b a ai) false ai hu))
              (fun x hx al _ hlt => hch x (List.mem_cons_of_mem _ hx) al beta hlt)
              (by omega) (by omega) (by omega) (by omega) (by omega)
            refine ⟨v, hv, ?_⟩
            rw [max_eq_right (by omega : (-1000 : Int) ≤ minimaxN n (applyAction b a ai) false ai hu)]
              at hw
            exact hw
        | false =>
          have hch : ∀ x ∈ a :: rest, ∀ (al be : Int), al < be →
              ∃ v, abValue f (applyAction b x hu) (depth - 1) al be true ai hu = some v ∧
                Within v (minimaxN n (applyAction b x hu) true ai hu) al be :=
            fun x hx al be hlt =>
              ih _ (hchild hu hhu x (hmem x hx)).1 (hchild hu hhu x (hmem x hx)).2 f
                (depth - 1) al be true (by omega) (by omega) hlt
          obtain ⟨v1, hv1, hw1⟩ := hch a (List.mem_cons_self _ _) alpha beta hab
          have hr1 := abValue_range ai hu hai hhu n _ (hchild hu hhu a (hmem a
            (List.mem_cons_self _ _))).1 (hchild hu hhu a (hmem a (List.mem_cons_self _ _))).2
            f (depth - 1) alpha beta true v1 hv1
          have hm1 := minimaxN_range ai hu n (applyAction b a hu) true
          have hunf : abValue (f + 1) b depth alpha beta false ai hu
              = minLoopV (fun b' a c => abValue f b' (depth - 1) a c true ai hu) b hu
                  (a :: rest) alpha beta 1000 := by
            simp only [abValue, ht', hd0, Bool.or_self, Bool.false_eq_true, if_false, hacts]
          have hmm : minimaxN (n + 1) b false ai hu
              = (rest.map fun x => minimaxN n (applyAction b x hu) true ai hu).foldl min
                  (minimaxN n (applyAction b a hu) true ai hu) := by
            simp only [minimaxN, ht', Bool.false_eq_true, if_false, hacts, List.map_cons,
              minOfList]
          rw [hunf, hmm]
          simp only [minLoopV, hv1]
          simp only [Within] at hw1
          by_cases hb : min beta v1 ≤ alpha
          · simp only [hb, if_true]
            refine ⟨_, rfl, ?_⟩
            have hge := foldl_min_le
              (rest.map fun x => minimaxN n (applyAction b x hu) true ai hu)
              (minimaxN n (applyAction b a hu) true ai hu)
            simp only [Within]
            omega
          · simp only [hb, if_false]
            obtain ⟨v, hv, hw⟩ := minLoopV_within_from
              (fun b' a c => abValue f b' (depth - 1) a c true ai hu)
              (fun b' => minimaxN n b' true ai hu) b hu alpha beta rest
              (min beta v1) (min 1000 v1)
              (min 1000 (minimaxN n (applyAction b a hu) true ai hu))
              (fun x hx be _ hlt => hch x (List.mem_cons_of_mem _ hx) alpha be hlt)
              (by omega) (by omega) (by omega) (by omega) (by omega)
            refine ⟨v, hv, ?_⟩
            rw [min_eq_right (by omega : minimaxN n (applyAction b a hu) true ai hu ≤ (1000 : Int))]
              at hw
            exact hw

theorem exists_result_of_value {o : Option SearchResult} {v : Int}
    (h : o.map SearchResult.value = some v) : ∃ r, o = some r ∧ r.value = v := by
  cases o with
  | none => simp at h
  | some r =>
    simp only [Option.map_some', Option.some.injEq] at h
    exact ⟨r, rfl, h⟩

/-- C16: alpha-beta pruning never changes a value that matters. On a node with
a nine-cell board, for either side to move, complementary symbols, depth equal
to the number of empty cells and integers `alpha < beta`, `alphaBetaMinimax`
returns a value `v` such that, with `m` the plain minimax value of the board,
`v = m` when `alpha < m < beta`, `v ≤ alpha` when `m ≤ alpha`, and `beta ≤ v`
when `beta ≤ m`; with the root window `(-1000, 1000)` it returns `m`. -/
theorem alphaBetaMinimax_window (node : TreeNode) (ai hu : Cell) (isMax : Bool) (fuel : Nat)
    (alpha beta nodeCount : Int) (hlen : node.board.length = 9) (hsym : Complementary ai hu)
    (hfuel : node.board.count Cell.empty < fuel) (hab : alpha < beta) :
    (∃ r, alphaBetaMinimax fuel node (countEmpty node.board) alpha beta isMax nodeCount ai hu
        = some r ∧
      (alpha < minimax node.board isMax ai hu → minimax node.board isMax ai hu < beta →
        r.value = minimax node.board isMax ai hu) ∧
      (minimax node.board isMax ai hu ≤ alpha → r.value ≤ alpha) ∧
      (beta ≤ minimax node.board isMax ai hu → beta ≤ r.value)) ∧
    (∃ r, alphaBetaMinimax fuel node (countEmpty node.board) (-1000) 1000 isMax nodeCount ai hu
        = some r ∧ r.value = minimax node.board isMax ai hu) := by
  obtain ⟨hai, hhu⟩ := hsym.ne_empty
  constructor
  · obtain ⟨v, hv, hw⟩ := abValue_within_all ai hu hai hhu _ node.board hlen rfl fuel
      (countEmpty node.board) alpha beta isMax hfuel (by simp [countEmpty]) hab
    rw [← alphaBetaMinimax_value fuel node _ _ _ _ nodeCount] at hv
    obtain ⟨r, hr, hrv⟩ := exists_result_of_value hv
    simp only [Within] at hw
    refine ⟨r, hr, ?_, ?_, ?_⟩
    · intro h1 h2; rw [hrv]; exact hw.2.2 h1 h2
    · intro h1; rw [hrv]; exact hw.1 h1
    · intro h1; rw [hrv]; exact hw.2.1 h1
  · have hv := abValue_root_window ai hu hai hhu node.board hlen fuel (countEmpty node.board)
      isMax hfuel (by simp [countEmpty])
    rw [← alphaBetaMinimax_value fuel node _ _ _ _ nodeCount] at hv
    obtain ⟨r, hr, hrv⟩ := exists_result_of_value hv
    exact ⟨r, hr, hrv⟩

/-- Witness of C16: the window `(-5, 5)` on the board `[X, X, _, O, O, _, _, _, _]`
with `X`, the computer, to move. -/
theorem alphaBetaMinimax_window_witness :
    exampleRoot.board.length = 9 ∧
    Complementary Cell.X Cell.O ∧
    exampleRoot.board.count Cell.empty < 6 ∧
    (-5 : Int) < 5 ∧
    (∃ r, alphaBetaMinimax 6 exampleRoot
        (countEmpty exampleRoot.board) (-5) 5 true 0
        Cell.X Cell.O = some r ∧
      (-5 < minimax exampleRoot.board true Cell.X Cell.O →
        minimax exampleRoot.board true Cell.X Cell.O < 5 →
        r.value
          = minimax exampleRoot.board true Cell.X Cell.O) ∧
      (minimax exampleRoot.board true Cell.X Cell.O ≤ -5 →
        r.value ≤ -5) ∧
      (5 ≤ minimax exampleRoot.board true Cell.X Cell.O →
        5 ≤ r.value)) ∧
    (∃ r, alphaBetaMinimax 6 exampleRoot
        (countEmpty exampleRoot.board) (-1000) 1000 true 0
        Cell.X Cell.O = some r ∧
      r.value
        = minimax exampleRoot.board true Cell.X Cell.O) :=
  ⟨rfl, Or.inl ⟨rfl, rfl⟩, by decide, by decide,
    alphaBetaMinimax_window exampleRoot Cell.X Cell.O true
      6 (-5) 5 0 rfl (Or.inl ⟨rfl, rfl⟩) (by decide) (by decide)⟩

/-! ### Termination -/

theorem maxLoopV_total (search : Board → Int → Int → Option Int) (board : Board)
    (player : Cell) :
    ∀ (actions : List Int) (alpha beta best : Int),
      (∀ a ∈ actions, ∀ (al be : Int), ∃ v, search (applyAction board a player) al be = some v) →
      ∃ v, maxLoopV search board player actions alpha beta best = some v := by
  intro actions
  induction actions with
  | nil => intro alpha beta best _; exact ⟨best, rfl⟩
  | cons a rest ih =>
    intro alpha beta best hs
    obtain ⟨v, hv⟩ := hs a (List.mem_cons_self _ _) alpha beta
    simp only [maxLoopV, hv]
    by_cases hb : beta ≤ max alpha v
    · simp only [hb, if_true]
      exact ⟨_, rfl⟩
    · simp only [hb, if_false]
      exact ih _ _ _ (fun a' ha' => hs a' (List.mem_cons_of_mem _ ha'))

theorem minLoopV_total (search : Board → Int → Int → Option Int) (board : Board)
    (player : Cell) :
    ∀ (actions : List Int) (alpha beta best : Int),
      (∀ a ∈ actions, ∀ (al be : Int), ∃ v, search (applyAction board a player) al be = some v) →
      ∃ v, minLoopV search board player actions alpha beta best = some v := by
  intro actions
  induction actions with
  | nil => intro alpha beta best _; exact ⟨best, rfl⟩
  | cons a rest ih =>
    intro alpha beta best hs
    obtain ⟨v, hv⟩ := hs a (List.mem_cons_self _ _) alpha beta
    simp only [minLoopV, hv]
    by_cases hb : min beta v ≤ alpha
    · simp only [hb, if_true]
      exact ⟨_, rfl⟩
    · simp only [hb, if_false]
      exact ih _ _ _ (fun a' ha' => hs a' (List.mem_cons_of_mem _ ha'))

/-- The search returns a value on every nine-cell board, whatever the depth
argument and the window, as soon as the fuel exceeds the number of empty
cells. -/
theorem abValue_total (ai hu : Cell) (hai : ai ≠ Cell.empty) (hhu : hu ≠ Cell.empty) :
    ∀ (n : Nat) (b : Board), b.length = 9 → b.count Cell.empty = n →
      ∀ (fuel : Nat) (depth alpha beta : Int) (isMax : Bool), n < fuel →
        ∃ v, abValue fuel b depth alpha beta isMax ai hu = some v := by
  intro n
  induction n with
  | zero =>
    intro b _ hc fuel depth alpha beta isMax hf
    obtain ⟨f, rfl⟩ : ∃ f, fuel = f + 1 := ⟨fuel - 1, by omega⟩
    exact ⟨utility b ai, by simp [abValue, isTerminal_of_count_zero hc]⟩
  | succ n ih =>
    intro b hlen hc fuel depth alpha beta isMax hf
    obtain ⟨f, rfl⟩ : ∃ f, fuel = f + 1 := ⟨fuel - 1, by omega⟩
    simp only [abValue]
    by_cases hcut : (isTerminal b || depth == 0) = true
    · simp only [hcut, if_true]
      exact ⟨_, rfl⟩
    · simp only [hcut, if_false]
      have hchild : ∀ (p : Cell), p ≠ Cell.empty → ∀ a ∈ getPossibleActions b,
          (applyAction b a p).length = 9 ∧ (applyAction b a p).count Cell.empty = n := by
        intro p hp a hmem
        refine ⟨by rw [length_applyAction, hlen], ?_⟩
        have := count_applyAction hlen hmem hp
        omega
      cases isMax with
      | true =>
        simp only [if_true]
        exact maxLoopV_total _ b ai _ _ _ _ (fun a ha al be =>
          ih _ (hchild ai hai a ha).1 (hchild ai hai a ha).2 f (depth - 1) al be false (by omega))
      | false =>
        simp only [Bool.false_eq_true, if_false]
        exact minLoopV_total _ b hu _ _ _ _ (fun a ha al be =>
          ih _ (hchild hu hhu a ha).1 (hchild hu hhu a ha).2 f (depth - 1) al be true (by omega))

/-- C20: `alphaBetaMinimax` terminates on every node with a nine-cell board,
for every integer depth argument and every `alpha` and `beta`: a result is
returned as soon as the fuel, which bounds the nesting of the recursive calls,
exceeds the number of empty cells of the board; each recursive call is made on
a board with exactly one empty cell less, and a board without empty cell is
terminal. -/
theorem alphaBetaMinimax_terminates (node : TreeNode) (ai hu : Cell)
    (hlen : node.board.length = 9) (hsym : Complementary ai hu) :
    (∀ (fuel : Nat) (depth alpha beta : Int) (isMax : Bool) (nodeCount : Int),
      node.board.count Cell.empty < fuel →
      ∃ r, alphaBetaMinimax fuel node depth alpha beta isMax nodeCount ai hu = some r) ∧
    (∀ (action : Int) (isMax : Bool), action ∈ getPossibleActions node.board →
      countEmpty (applyAction node.board action (if isMax then ai else hu))
        = countEmpty node.board - 1) ∧
    (countEmpty node.board = 0 → isTerminal node.board = true) := by
  obtain ⟨hai, hhu⟩ := hsym.ne_empty
  refine ⟨?_, ?_, ?_⟩
  · intro fuel depth alpha beta isMax nodeCount hf
    obtain ⟨v, hv⟩ := abValue_total ai hu hai hhu _ node.board hlen rfl fuel depth alpha beta
      isMax hf
    rw [← alphaBetaMinimax_value fuel node _ _ _ _ nodeCount] at hv
    obtain ⟨r, hr, _⟩ := exists_result_of_value hv
    exact ⟨r, hr⟩
  · intro action isMax ha
    have hp : (if isMax then ai else hu) ≠ Cell.empty := by
      cases isMax
      · simpa using hhu
      · simpa using hai
    have := count_applyAction hlen ha hp
    simp only [countEmpty]
    omega
  · intro h
    apply isTerminal_of_count_zero
    simp only [countEmpty] at h
    omega

/-- Witness of C20 on the root node of the board `[X, X, _, O, O, _, _, _, _]`. -/
theorem alphaBetaMinimax_terminates_witness :
    exampleRoot.board.length = 9 ∧
    Complementary Cell.X Cell.O ∧
    (∀ (fuel : Nat) (depth alpha beta : Int) (isMax : Bool) (nodeCount : Int),
      exampleRoot.board.count Cell.empty < fuel →
      ∃ r, alphaBetaMinimax fuel exampleRoot depth alpha
        beta isMax nodeCount Cell.X Cell.O = some r) ∧
    (∀ (action : Int) (isMax : Bool),
      action ∈ getPossibleActions exampleRoot.board →
      countEmpty (applyAction exampleRoot.board action
          (if isMax then Cell.X else Cell.O))
        = countEmpty exampleRoot.board - 1) ∧
    (countEmpty exampleRoot.board = 0 →
      isTerminal exampleRoot.board = true) :=
  ⟨rfl, Or.inl ⟨rfl, rfl⟩,
    alphaBetaMinimax_terminates exampleRoot Cell.X Cell.O
      rfl (Or.inl ⟨rfl, rfl⟩)⟩

/-! ### The node counter and the size of the tree -/

theorem size_eq (node : TreeNode) : node.size = 1 + sizeList node.children := by
  cases node with
  | mk b m cs => simp [TreeNode.size, TreeNode.children]

theorem sizeList_append (l1 l2 : List TreeNode) :
    sizeList (l1 ++ l2) = sizeList l1 + sizeList l2 := by
  induction l1 with
  | nil => simp [sizeList]
  | cons c cs ih =>
    show sizeList (c :: (cs ++ l2)) = sizeList (c :: cs) + sizeList l2
    simp only [sizeList, ih]
    omega

theorem size_setLastChild_insertChild (node child : TreeNode) (b : Board) (m : Int) :
    (setLastChild (insertChild node b m) child).size = node.size + child.size := by
  rw [size_eq (setLastChild _ _), size_eq node]
  simp only [setLastChild, insertChild, TreeNode.children, List.dropLast_concat, sizeList_append,
    sizeList]
  omega

theorem maxLoop_count (search : TreeNode → Int → Int → Int → Option SearchResult)
    (player : Cell)
    (hs : ∀ (b : Board) (a al be c : Int) (r : SearchResult),
      search (TreeNode.mk b a []) al be c = some r → r.nodeCount = c + (r.node.size : Int)) :
    ∀ (actions : List Int) (node : TreeNode) (alpha beta best cnt : Int) (r : SearchResult),
      maxLoop search player actions node alpha beta best cnt = some r →
      r.nodeCount + (node.size : Int) = cnt + (r.node.size : Int) := by
  intro actions
  induction actions with
  | nil =>
    intro node alpha beta best cnt r h
    simp only [maxLoop, Option.some.injEq] at h
    subst h
    rfl
  | cons a rest ih =>
    intro node alpha beta best cnt r h
    simp only [maxLoop, lastChild_insertChild] at h
    cases hr : search (TreeNode.mk (applyAction node.board a player) a []) alpha beta cnt with
    | none => simp [hr] at h
    | some r1 =>
      have h1 := hs _ _ _ _ _ _ hr
      have h2 := size_setLastChild_insertChild node r1.node (applyAction node.board a player) a
      simp only [hr] at h
      by_cases hb : beta ≤ max alpha r1.value
      · simp only [hb, if_true, Option.some.injEq] at h
        subst h
        simp only
        omega
      · simp only [hb, if_false] at h
        have h3 := ih _ _ _ _ _ _ h
        omega

theorem minLoop_count (search : TreeNode → Int → Int → Int → Option SearchResult)
    (player : Cell)
    (hs : ∀ (b : Board) (a al be c : Int) (r : SearchResult),
      search (TreeNode.mk b a []) al be c = some r → r.nodeCount = c + (r.node.size : Int)) :
    ∀ (actions : List Int) (node : TreeNode) (alpha beta best cnt : Int) (r : SearchResult),
      minLoop search player actions node alpha beta best cnt = some r →
      r.nodeCount + (node.size : Int) = cnt + (r.node.size : Int) := by
  intro actions
  induction actions with
  | nil =>
    intro node alpha beta best cnt r h
    simp only [minLoop, Option.some.injEq] at h
    subst h
    rfl
  | cons a rest ih =>
    intro node alpha beta best cnt r h
    simp only [minLoop, lastChild_insertChild] at h
    cases hr : search (TreeNode.mk (applyAction node.board a player) a []) alpha beta cnt with
    | none => simp [hr] at h
    | some r1 =>
      have h1 := hs _ _ _ _ _ _ hr
      have h2 := size_setLastChild_insertChild node r1.node (applyAction node.board a player) a
      simp only [hr] at h
      by_cases hb : min beta r1.value ≤ alpha
      · simp only [hb, if_true, Option.some.injEq] at h
        subst h
        simp only
        omega
      · simp only [hb, if_false] at h
        have h3 := ih _ _ _ _ _ _ h
        omega

/-- One call of `alphaBetaMinimax` adds to the counter one for the node it
enters and one for every node it appends below it. -/
theorem alphaBetaMinimax_count (fuel : Nat) :
    ∀ (node : TreeNode) (depth alpha beta : Int) (isMax : Bool) (cnt : Int) (ai hu : Cell)
      (r : SearchResult),
      alphaBetaMinimax fuel node depth alpha beta isMax cnt ai hu = some r →
      r.nodeCount + (node.size : Int) = cnt + 1 + (r.node.size : Int) := by
  induction fuel with
  | zero => intro node depth alpha beta isMax cnt ai hu r h; simp [alphaBetaMinimax] at h
  | succ fuel ih =>
    intro node depth alpha beta isMax cnt ai hu r h
    simp only [alphaBetaMinimax] at h
    have hs : ∀ (m : Bool) (b : Board) (a al be c : Int) (r : SearchResult),
        alphaBetaMinimax fuel (TreeNode.mk b a []) (depth - 1) al be m c ai hu = some r →
        r.nodeCount = c + (r.node.size : Int) := by
      intro m b a al be c r hr
      have := ih _ _ _ _ _ _ _ _ _ hr
      have h1 : (TreeNode.mk b a []).size = 1 := by simp [TreeNode.size, sizeList]
      omega
    by_cases hcut : (isTerminal node.board || depth == 0) = true
    · simp only [hcut, if_true, Option.some.injEq] at h
      subst h
      simp only
    · simp only [hcut, if_false] at h
      cases isMax with
      | true =>
        simp only [if_true] at h
        have := maxLoop_count _ _ (hs false) _ _ _ _ _ _ _ h
        omega
      | false =>
        simp only [Bool.false_eq_true, if_false] at h
        have := minLoop_count _ _ (hs true) _ _ _ _ _ _ _ h
        omega

theorem rootLoop_count (fuel : Nat) (board : Board) (depth : Int) (ai hu : Cell) :
    ∀ (actions : List Int) (s t : RootState),
      rootLoop fuel board depth ai hu actions s = some t →
      t.nodeCount + (s.root.size : Int) = s.nodeCount + (t.root.size : Int) := by
  intro actions
  induction actions with
  | nil =>
    intro s t h
    simp only [rootLoop, Option.some.injEq] at h
    subst h
    omega
  | cons a rest ih =>
    intro s t h
    simp only [rootLoop, lastChild_insertChild] at h
    cases hr : alphaBetaMinimax fuel (TreeNode.mk (applyAction board a ai) a []) (depth - 1)
        (-1000) 1000 false s.nodeCount ai hu with
    | none => simp [hr] at h
    | some r1 =>
      have h1 := alphaBetaMinimax_count _ _ _ _ _ _ _ _ _ _ hr
      have h0 : (TreeNode.mk (applyAction board a ai) a []).size = 1 := by
        simp [TreeNode.size, sizeList]
      have h2 := size_setLastChild_insertChild s.root r1.node (applyAction board a ai) a
      simp only [hr] at h
      by_cases hb : r1.value > s.bestValue
      · simp only [hb, if_true] at h
        have h3 := ih _ _ h
        simp only at h3
        omega
      · simp only [hb, if_false] at h
        have h3 := ih _ _ h
        simp only at h3
        omega

theorem makeAiMoveState_isSome (b : Board) (ai hu : Cell) (hlen : b.length = 9)
    (hsym : Complementary ai hu) : ∃ s, makeAiMoveState b ai hu = some s := by
  obtain ⟨hai, hhu⟩ := hsym.ne_empty
  have h1 := makeAiMoveV_eq_pick b ai hu hlen hai hhu
  have h2 := rootLoop_value (countEmpty b).toNat b (countEmpty b) ai hu (getPossibleActions b)
    ⟨-1000, -1, TreeNode.mk b (-1) [], 1⟩
  simp only [makeAiMoveV] at h1
  rw [h1] at h2
  unfold makeAiMoveState
  cases hs : rootLoop (countEmpty b).toNat b (countEmpty b) ai hu (getPossibleActions b)
      ⟨-1000, -1, TreeNode.mk b (-1) [], 1⟩ with
  | none => rw [hs] at h2; simp at h2
  | some s => exact ⟨s, rfl⟩

/-- C18: on every nine-cell board, with complementary symbols, `makeAiMove`
finishes with a node count equal to the number of nodes of the tree it has
built, the root and every descendant appended by `insertChild`. -/
theorem makeAiMove_nodeCount (b : Board) (ai hu : Cell) (hlen : b.length = 9)
    (hsym : Complementary ai hu) :
    ∃ s, makeAiMoveState b ai hu = some s ∧ s.nodeCount = (s.root.size : Int) := by
  obtain ⟨s, hs⟩ := makeAiMoveState_isSome b ai hu hlen hsym
  refine ⟨s, hs, ?_⟩
  have h := rootLoop_count _ _ _ _ _ _ _ _ hs
  have h0 : (TreeNode.mk b (-1) []).size = 1 := by simp [TreeNode.size, sizeList]
  simp only at h
  omega

/-- Witness of C18 on the board `[X, X, _, O, O, _, _, _, _]`. -/
theorem makeAiMove_nodeCount_witness :
    (exampleBoard Cell.X Cell.O).length = 9 ∧ Complementary Cell.X Cell.O ∧
    ∃ s, makeAiMoveState (exampleBoard Cell.X Cell.O) Cell.X Cell.O = some s ∧
      s.nodeCount = (s.root.size : Int) :=
  ⟨rfl, Or.inl ⟨rfl, rfl⟩,
    makeAiMove_nodeCount (exampleBoard Cell.X Cell.O) Cell.X Cell.O rfl (Or.inl ⟨rfl, rfl⟩)⟩

/-! ### The depth bound -/

theorem maxLoop_congr (s1 s2 : TreeNode → Int → Int → Int → Option SearchResult)
    (player : Cell) (board : Board) :
    ∀ (actions : List Int),
      (∀ a ∈ actions, ∀ (al be c : Int),
        s1 (TreeNode.mk (applyAction board a player) a []) al be c
          = s2 (TreeNode.mk (applyAction board a player) a []) al be c) →
      ∀ (node : TreeNode) (alpha beta best cnt : Int), node.board = board →
        maxLoop s1 player actions node alpha beta best cnt
          = maxLoop s2 player actions node alpha beta best cnt := by
  intro actions
  induction actions with
  | nil => intro _ node alpha beta best cnt _; rfl
  | cons a rest ih =>
    intro hs node alpha beta best cnt hb
    simp only [maxLoop, lastChild_insertChild, hb]
    rw [hs a (List.mem_cons_self _ _)]
    cases s2 (TreeNode.mk (applyAction board a player) a []) alpha beta cnt with
    | none => rfl
    | some r =>
      simp only
      by_cases hc : beta ≤ max alpha r.value
      · simp only [hc, if_true]
      · simp only [hc, if_false]
        exact ih (fun a' ha' => hs a' (List.mem_cons_of_mem _ ha')) _ _ _ _ _
          (by rw [board_setLastChild, board_insertChild, hb])

theorem minLoop_congr (s1 s2 : TreeNode → Int → Int → Int → Option SearchResult)
    (player : Cell) (board : Board) :
    ∀ (actions : List Int),
      (∀ a ∈ actions, ∀ (al be c : Int),
        s1 (TreeNode.mk (applyAction board a player) a []) al be c
          = s2 (TreeNode.mk (applyAction board a player) a []) al be c) →
      ∀ (node : TreeNode) (alpha beta best cnt : Int), node.board = board →
        minLoop s1 player actions node alpha beta best cnt
          = minLoop s2 player actions node alpha beta best cnt := by
  intro actions
  induction actions with
  | nil => intro _ node alpha beta best cnt _; rfl
  | cons a rest ih =>
    intro hs node alpha beta best cnt hb
    simp only [minLoop, lastChild_insertChild, hb]
    rw [hs a (List.mem_cons_self _ _)]
    cases s2 (TreeNode.mk (applyAction board a player) a []) alpha beta cnt with
    | none => rfl
    | some r =>
      simp only
      by_cases hc : min beta r.value ≤ alpha
      · simp only [hc, if_true]
      · simp only [hc, if_false]
        exact ih (fun a' ha' => hs a' (List.mem_cons_of_mem _ ha')) _ _ _ _ _
          (by rw [board_setLastChild, board_insertChild, hb])

/-- With a depth argument equal to the number of empty cells of the board,
`alphaBetaMinimax` returns what the search without depth bound returns: the
same value, the same tree, the same counter. -/
theorem alphaBetaMinimax_eq_noDepth (ai hu : Cell) (hai : ai ≠ Cell.empty)
    (hhu : hu ≠ Cell.empty) (fuel : Nat) :
    ∀ (node : TreeNode) (depth alpha beta : Int) (isMax : Bool) (cnt : Int),
      node.board.length = 9 → depth = countEmpty node.board →
      alphaBetaMinimax fuel node depth alpha beta isMax cnt ai hu
        = alphaBetaNoDepth fuel node alpha beta isMax cnt ai hu := by
  induction fuel with
  | zero => intros; rfl
  | succ fuel ih =>
    intro node depth alpha beta isMax cnt hlen hd
    have hcut : (isTerminal node.board || depth == 0) = isTerminal node.board := by
      by_cases h0 : depth = 0
      · have hc : node.board.count Cell.empty = 0 := by
          simp only [countEmpty] at hd
          omega
        simp [isTerminal_of_count_zero hc]
      · simp [h0]
    simp only [alphaBetaMinimax, alphaBetaNoDepth, hcut]
    by_cases ht : isTerminal node.board = true
    · simp only [ht, if_true]
    · simp only [ht, if_false]
      have hchild : ∀ (p : Cell), p ≠ Cell.empty → ∀ a ∈ getPossibleActions node.board,
          ∀ (m : Bool) (al be c : Int),
          alphaBetaMinimax fuel (TreeNode.mk (applyAction node.board a p) a []) (depth - 1)
              al be m c ai hu
            = alphaBetaNoDepth fuel (TreeNode.mk (applyAction node.board a p) a []) al be m c
              ai hu := by
        intro p hp a ha m al be c
        apply ih
        · rw [board_mk, length_applyAction, hlen]
        · rw [board_mk]
          have := count_applyAction hlen ha hp
          simp only [countEmpty] at hd ⊢
          omega
      cases isMax with
      | true =>
        simp only [if_true]
        exact maxLoop_congr _ _ ai node.board _
          (fun a ha al be c => hchild ai hai a ha false al be c) _ _ _ _ _ rfl
      | false =>
        simp only [Bool.false_eq_true, if_false]
        exact minLoop_congr _ _ hu node.board _
          (fun a ha al be c => hchild hu hhu a ha true al be c) _ _ _ _ _ rfl

/-! #### The record of calls does not change the search -/

theorem maxLoopTraced_fst
    (st : TreeNode → Int → Int → Int → List Call → Option (SearchResult × List Call))
    (s : TreeNode → Int → Int → Int → Option SearchResult) (player : Cell)
    (h : ∀ (child : TreeNode) (al be c : Int) (l : List Call),
      (st child al be c l).map Prod.fst = s child al be c) :
    ∀ (actions : List Int) (node : TreeNode) (alpha beta best cnt : Int) (l : List Call),
      (maxLoopTraced st player actions node alpha beta best cnt l).map Prod.fst
        = maxLoop s player actions node alpha beta best cnt := by
  intro actions
  induction actions with
  | nil => intros; rfl
  | cons a rest ih =>
    intro node alpha beta best cnt l
    simp only [maxLoopTraced, maxLoop]
    rw [← h _ alpha beta cnt l]
    cases st (lastChild (insertChild node (applyAction node.board a player) a)) alpha beta cnt l with
    | none => rfl
    | some p =>
      obtain ⟨r, l1⟩ := p
      simp only [Option.map_some']
      by_cases hc : beta ≤ max alpha r.value
      · simp only [hc, if_true, Option.map_some']
      · simp only [hc, if_false]
        exact ih _ _ _ _ _ _

theorem minLoopTraced_fst
    (st : TreeNode → Int → Int → Int → List Call → Option (SearchResult × List Call))
    (s : TreeNode → Int → Int → Int → Option SearchResult) (player : Cell)
    (h : ∀ (child : TreeNode) (al be c : Int) (l : List Call),
      (st child al be c l).map Prod.fst = s child al be c) :
    ∀ (actions : List Int) (node : TreeNode) (alpha beta best cnt : Int) (l : List Call),
      (minLoopTraced st player actions node alpha beta best cnt l).map Prod.fst
        = minLoop s player actions node alpha beta best cnt := by
  intro actions
  induction actions with
  | nil => intros; rfl
  | cons a rest ih =>
    intro node alpha beta best cnt l
    simp only [minLoopTraced, minLoop]
    rw [← h _ alpha beta cnt l]
    cases st (lastChild (insertChild node (applyAction node.board a player) a)) alpha beta cnt l with
    | none => rfl
    | some p =>
      obtain ⟨r, l1⟩ := p
      simp only [Option.map_some']
      by_cases hc : min beta r.value ≤ alpha
      · simp only [hc, if_true, Option.map_some']
      · simp only [hc, if_false]
        exact ih _ _ _ _ _ _

/-- Dropping the record of calls from `alphaBetaMinimaxTraced` gives
`alphaBetaMinimax`: the same value, tree and counter, or no result alike. -/
theorem alphaBetaMinimaxTraced_fst (ai hu : Cell) (fuel : Nat) :
    ∀ (node : TreeNode) (depth alpha beta : Int) (isMax : Bool) (cnt : Int) (l : List Call),
      (alphaBetaMinimaxTraced fuel node depth alpha beta isMax cnt ai hu l).map Prod.fst
        = alphaBetaMinimax fuel node depth alpha beta isMax cnt ai hu := by
  induction fuel with
  | zero => intros; rfl
  | succ fuel ih =>
    intro node depth alpha beta isMax cnt l
    simp only [alphaBetaMinimaxTraced, alphaBetaMinimax]
    by_cases hcut : (isTerminal node.board || depth == 0) = true
    · simp only [hcut, if_true, Option.map_some']
    · simp only [hcut, if_false]
      cases isMax with
      | true =>
        simp only [if_true]
        exact maxLoopTraced_fst _ _ ai (fun child al be c l1 => ih child _ al be false c l1)
          _ _ _ _ _ _ _
      | false =>
        simp only [Bool.false_eq_true, if_false]
        exact minLoopTraced_fst _ _ hu (fun child al be c l1 => ih child _ al be true c l1)
          _ _ _ _ _ _ _

theorem rootLoopTraced_fst (fuel : Nat) (board : Board) (depth : Int) (ai hu : Cell) :
    ∀ (actions : List Int) (s : RootState) (l : List Call),
      (rootLoopTraced fuel board depth ai hu actions s l).map Prod.fst
        = rootLoop fuel board depth ai hu actions s := by
  intro actions
  induction actions with
  | nil => intros; rfl
  | cons a rest ih =>
    intro s l
    simp only [rootLoopTraced, rootLoop]
    rw [← alphaBetaMinimaxTraced_fst ai hu fuel _ _ _ _ _ _ l]
    cases alphaBetaMinimaxTraced fuel (lastChild (insertChild s.root (applyAction board a ai) a))
        (depth - 1) (-1000) 1000 false s.nodeCount ai hu l with
    | none => rfl
    | some p =>
      obtain ⟨r, l1⟩ := p
      simp only [Option.map_some']
      by_cases hc : r.value > s.bestValue
      · simp only [hc, if_true]
        exact ih _ _
      · simp only [hc, if_false]
        exact ih _ _

/-- Dropping the record of calls from `makeAiMoveTraced` gives
`makeAiMoveState`. -/
theorem makeAiMoveTraced_fst (board : Board) (ai hu : Cell) :
    (makeAiMoveTraced board ai hu).map Prod.fst = makeAiMoveState board ai hu :=
  rootLoopTraced_fst _ _ _ _ _ _ _ _

/-! #### What the record holds -/

theorem maxLoopTraced_calls (P : Call → Prop)
    (st : TreeNode → Int → Int → Int → List Call → Option (SearchResult × List Call))
    (player : Cell) (board : Board) :
    ∀ (actions : List Int),
      (∀ a ∈ actions, ∀ (al be c : Int) (l : List Call) (r : SearchResult × List Call),
        st (TreeNode.mk (applyAction board a player) a []) al be c l = some r →
        ∃ new, r.2 = l ++ new ∧ (∀ x ∈ new, P x) ∧ (new.length : Int) = r.1.nodeCount - c) →
      ∀ (node : TreeNode) (alpha beta best cnt : Int) (l : List Call)
        (r : SearchResult × List Call), node.board = board →
        maxLoopTraced st player actions node alpha beta best cnt l = some r →
        ∃ new, r.2 = l ++ new ∧ (∀ x ∈ new, P x) ∧ (new.length : Int) = r.1.nodeCount - cnt := by
  intro actions
  induction actions with
  | nil =>
    intro _ node alpha beta best cnt l r _ hr
    simp only [maxLoopTraced, Option.some.injEq] at hr
    subst hr
    exact ⟨[], by simp, by simp, by simp⟩
  | cons a rest ih =>
    intro hs node alpha beta best cnt l r hb hr
    simp only [maxLoopTraced, lastChild_insertChild, hb] at hr
    cases hq : st (TreeNode.mk (applyAction board a player) a []) alpha beta cnt l with
    | none => rw [hq] at hr; simp at hr
    | some q =>
      obtain ⟨new1, h1, h2, h3⟩ := hs a (List.mem_cons_self _ _) alpha beta cnt l q hq
      obtain ⟨q1, l1⟩ := q
      rw [hq] at hr
      simp only at hr h1 h3
      by_cases hc : beta ≤ max alpha q1.value
      · simp only [hc, if_true, Option.some.injEq] at hr
        subst hr
        exact ⟨new1, h1, h2, h3⟩
      · simp only [hc, if_false] at hr
        obtain ⟨new2, k1, k2, k3⟩ := ih (fun a' ha' => hs a' (List.mem_cons_of_mem _ ha'))
          _ _ _ _ _ _ r (by rw [board_setLastChild, board_insertChild, hb]) hr
        refine ⟨new1 ++ new2, by rw [k1, h1, List.append_assoc], ?_, ?_⟩
        · intro x hx
          rcases List.mem_append.1 hx with hx | hx
          · exact h2 x hx
          · exact k2 x hx
        · rw [List.length_append]
          push_cast
          omega

theorem minLoopTraced_calls (P : Call → Prop)
    (st : TreeNode → Int → Int → Int → List Call → Option (SearchResult × List Call))
    (player : Cell) (board : Board) :
    ∀ (actions : List Int),
      (∀ a ∈ actions, ∀ (al be c : Int) (l : List Call) (r : SearchResult × List Call),
        st (TreeNode.mk (applyAction board a player) a []) al be c l = some r →
        ∃ new, r.2 = l ++ new ∧ (∀ x ∈ new, P x) ∧ (new.length : Int) = r.1.nodeCount - c) →
      ∀ (node : TreeNode) (alpha beta best cnt : Int) (l : List Call)
        (r : SearchResult × List Call), node.board = board →
        minLoopTraced st player actions node alpha beta best cnt l = some r →
        ∃ new, r.2 = l ++ new ∧ (∀ x ∈ new, P x) ∧ (new.length : Int) = r.1.nodeCount - cnt := by
  intro actions
  induction actions with
  | nil =>
    intro _ node alpha beta best cnt l r _ hr
    simp only [minLoopTraced, Option.some.injEq] at hr
    subst hr
    exact ⟨[], by simp, by simp, by simp⟩
  | cons a rest ih =>
    intro hs node alpha beta best cnt l r hb hr
    simp only [minLoopTraced, lastChild_insertChild, hb] at hr
    cases hq : st (TreeNode.mk (applyAction board a player) a []) alpha beta cnt l with
    | none => rw [hq] at hr; simp at hr
    | some q =>
      obtain ⟨new1, h1, h2, h3⟩ := hs a (List.mem_cons_self _ _) alpha beta cnt l q hq
      obtain ⟨q1, l1⟩ := q
      rw [hq] at hr
      simp only at hr h1 h3
      by_cases hc : min beta q1.value ≤ alpha
      · simp only [hc, if_true, Option.some.injEq] at hr
        subst hr
        exact ⟨new1, h1, h2, h3⟩
      · simp only [hc, if_false] at hr
        obtain ⟨new2, k1, k2, k3⟩ := ih (fun a' ha' => hs a' (List.mem_cons_of_mem _ ha'))
          _ _ _ _ _ _ r (by rw [board_setLastChild, board_insertChild, hb]) hr
        refine ⟨new1 ++ new2, by rw [k1, h1, List.append_assoc], ?_, ?_⟩
        · intro x hx
          rcases List.mem_append.1 hx with hx | hx
          · exact h2 x hx
          · exact k2 x hx
        · rw [List.length_append]
          push_cast
          omega

/-- A call of `alphaBetaMinimaxTraced` on a nine-cell board with a depth equal
to the number of its empty cells adds to the record one call for each unit of
the counter, each on a nine-cell board and with a depth equal to the number of
empty cells of that board. -/
theorem alphaBetaMinimaxTraced_calls (ai hu : Cell) (hai : ai ≠ Cell.empty)
    (hhu : hu ≠ Cell.empty) (fuel : Nat) :
    ∀ (node : TreeNode) (depth alpha beta : Int) (isMax : Bool) (cnt : Int) (l : List Call)
      (r : SearchResult × List Call),
      node.board.length = 9 → depth = countEmpty node.board →
      alphaBetaMinimaxTraced fuel node depth alpha beta isMax cnt ai hu l = some r →
      ∃ new, r.2 = l ++ new ∧
        (∀ x ∈ new, x.board.length = 9 ∧ x.depth = countEmpty x.board) ∧
        (new.length : Int) = r.1.nodeCount - cnt := by
  induction fuel with
  | zero =>
    intro node depth alpha beta isMax cnt l r _ _ hr
    simp [alphaBetaMinimaxTraced] at hr
  | succ fuel ih =>
    intro node depth alpha beta isMax cnt l r hlen hd hr
    simp only [alphaBetaMinimaxTraced] at hr
    have hself : ∀ x ∈ [(⟨node.board, depth, isMax⟩ : Call)],
        x.board.length = 9 ∧ x.depth = countEmpty x.board := by
      intro x hx
      rw [List.mem_singleton] at hx
      subst hx
      exact ⟨hlen, hd⟩
    by_cases hcut : (isTerminal node.board || depth == 0) = true
    · simp only [hcut, if_true, Option.some.injEq] at hr
      subst hr
      exact ⟨[⟨node.board, depth, isMax⟩], rfl, hself, by simp⟩
    · simp only [hcut, if_false] at hr
      have hchild : ∀ (p : Cell), p ≠ Cell.empty → ∀ a ∈ getPossibleActions node.board,
          ∀ (m : Bool) (al be c : Int) (l1 : List Call) (q : SearchResult × List Call),
          alphaBetaMinimaxTraced fuel (TreeNode.mk (applyAction node.board a p) a [])
              (depth - 1) al be m c ai hu l1 = some q →
          ∃ new, q.2 = l1 ++ new ∧
            (∀ x ∈ new, x.board.length = 9 ∧ x.depth = countEmpty x.board) ∧
            (new.length : Int) = q.1.nodeCount - c := by
        intro p hp a ha m al be c l1 q hq
        refine ih _ _ al be m c l1 q ?_ ?_ hq
        · rw [board_mk, length_applyAction, hlen]
        · rw [board_mk]
          have := count_applyAction hlen ha hp
          simp only [countEmpty] at hd ⊢
          omega
      have hloop : ∃ new, r.2 = (l ++ [⟨node.board, depth, isMax⟩]) ++ new ∧
          (∀ x ∈ new, x.board.length = 9 ∧ x.depth = countEmpty x.board) ∧
          (new.length : Int) = r.1.nodeCount - (cnt + 1) := by
        cases isMax with
        | true =>
          simp only [if_true] at hr
          exact maxLoopTraced_calls _ _ ai node.board _
            (fun a ha al be c l1 q hq => hchild ai hai a ha false al be c l1 q hq)
            _ _ _ _ _ _ r rfl hr
        | false =>
          simp only [Bool.false_eq_true, if_false] at hr
          exact minLoopTraced_calls _ _ hu node.board _
            (fun a ha al be c l1 q hq => hchild hu hhu a ha true al be c l1 q hq)
            _ _ _ _ _ _ r rfl hr
      obtain ⟨new, k1, k2, k3⟩ := hloop
      refine ⟨[⟨node.board, depth, isMax⟩] ++ new, by rw [k1, List.append_assoc], ?_, ?_⟩
      · intro x hx
        rcases List.mem_append.1 hx with hx | hx
        · exact hself x hx
        · exact k2 x hx
      · rw [List.length_append]
        simp only [List.length_singleton]
        push_cast
        omega

theorem rootLoopTraced_calls (fuel : Nat) (board : Board) (depth : Int) (ai hu : Cell)
    (hai : ai ≠ Cell.empty) (hhu : hu ≠ Cell.empty) (hlen : board.length = 9)
    (hd : depth = countEmpty board) :
    ∀ (actions : List Int), (∀ a ∈ actions, a ∈ getPossibleActions board) →
      ∀ (s : RootState) (l : List Call) (r : RootState × List Call),
        rootLoopTraced fuel board depth ai hu actions s l = some r →
        ∃ new, r.2 = l ++ new ∧
          (∀ x ∈ new, x.board.length = 9 ∧ x.depth = countEmpty x.board) ∧
          (new.length : Int) = r.1.nodeCount - s.nodeCount := by
  intro actions
  induction actions with
  | nil =>
    intro _ s l r hr
    simp only [rootLoopTraced, Option.some.injEq] at hr
    subst hr
    exact ⟨[], by simp, by simp, by simp⟩
  | cons a rest ih =>
    intro hmem s l r hr
    simp only [rootLoopTraced, lastChild_insertChild] at hr
    cases hq : alphaBetaMinimaxTraced fuel (TreeNode.mk (applyAction board a ai) a [])
        (depth - 1) (-1000) 1000 false s.nodeCount ai hu l with
    | none => rw [hq] at hr; simp at hr
    | some q =>
      have ha := hmem a (List.mem_cons_self _ _)
      obtain ⟨new1, h1, h2, h3⟩ := alphaBetaMinimaxTraced_calls ai hu hai hhu fuel _ _ _ _ _ _ _
        q (by rw [board_mk, length_applyAction, hlen])
        (by
          rw [board_mk]
          have := count_applyAction hlen ha hai
          simp only [countEmpty] at hd ⊢
          omega) hq
      obtain ⟨q1, l1⟩ := q
      rw [hq] at hr
      simp only at hr h1 h3
      have hrest : ∀ a' ∈ rest, a' ∈ getPossibleActions board :=
        fun a' ha' => hmem a' (List.mem_cons_of_mem _ ha')
      have hjoin : ∀ (s1 : RootState), s1.nodeCount = q1.nodeCount →
          rootLoopTraced fuel board depth ai hu rest s1 l1 = some r →
          ∃ new, r.2 = l ++ new ∧
            (∀ x ∈ new, x.board.length = 9 ∧ x.depth = countEmpty x.board) ∧
            (new.length : Int) = r.1.nodeCount - s.nodeCount := by
        intro s1 hs1 hr1
        obtain ⟨new2, k1, k2, k3⟩ := ih hrest s1 l1 r hr1
        refine ⟨new1 ++ new2, by rw [k1, h1, List.append_assoc], ?_, ?_⟩
        · intro x hx
          rcases List.mem_append.1 hx with hx | hx
          · exact h2 x hx
          · exact k2 x hx
        · rw [List.length_append]
          push_cast
          omega
      by_cases hc : q1.value > s.bestValue
      · simp only [hc, if_true] at hr
        exact hjoin _ rfl hr
      · simp only [hc, if_false] at hr
        exact hjoin _ rfl hr

/-- C17: the depth bound never truncates the search. A decision of
`makeAiMove` on a nine-cell board, run with a record of the calls of
`alphaBetaMinimax`, finishes in the state in which `makeAiMove` finishes, with
one recorded call for each node counted after the root; in every recorded call
the depth argument is the number of empty cells of the board of the node; so
when the depth is zero the board is full, hence terminal; and with that depth
`alphaBetaMinimax` returns on that board what the search without depth bound
returns. -/
theorem depth_bound_never_truncates (board : Board) (ai hu : Cell)
    (hlen : board.length = 9) (hsym : Complementary ai hu) :
    ∃ (s : RootState) (calls : List Call),
      makeAiMoveTraced board ai hu = some (s, calls) ∧
      makeAiMoveState board ai hu = some s ∧
      (calls.length : Int) + 1 = s.nodeCount ∧
      ∀ c ∈ calls,
        c.depth = countEmpty c.board ∧
        (c.depth = 0 → isFull c.board = true ∧ isTerminal c.board = true) ∧
        ∀ (fuel : Nat) (node : TreeNode) (alpha beta nodeCount : Int), node.board = c.board →
          alphaBetaMinimax fuel node c.depth alpha beta c.isMaximizing nodeCount ai hu
            = alphaBetaNoDepth fuel node alpha beta c.isMaximizing nodeCount ai hu := by
  obtain ⟨hai, hhu⟩ := hsym.ne_empty
  obtain ⟨s, hs⟩ := makeAiMoveState_isSome board ai hu hlen hsym
  have hfst := makeAiMoveTraced_fst board ai hu
  rw [hs] at hfst
  cases ht : makeAiMoveTraced board ai hu with
  | none => rw [ht] at hfst; simp at hfst
  | some r =>
    obtain ⟨s1, calls⟩ := r
    rw [ht] at hfst
    simp only [Option.map_some', Option.some.injEq] at hfst
    subst hfst
    obtain ⟨new, k1, k2, k3⟩ := rootLoopTraced_calls _ board _ ai hu hai hhu hlen rfl _
      (fun a ha => ha) _ _ _ ht
    simp only [List.nil_append] at k1 k3
    subst k1
    refine ⟨s1, calls, rfl, hs, by omega, ?_⟩
    intro c hc
    obtain ⟨hl, hd⟩ := k2 c hc
    refine ⟨hd, ?_, ?_⟩
    · intro h0
      have hz : c.board.count Cell.empty = 0 := by
        simp only [countEmpty] at hd
        omega
      exact ⟨(isFull_iff_count c.board).2 hz, isTerminal_of_count_zero hz⟩
    · intro fuel node alpha beta nodeCount hb
      exact alphaBetaMinimax_eq_noDepth ai hu hai hhu fuel node c.depth alpha beta
        c.isMaximizing nodeCount (by rw [hb]; exact hl) (by rw [hb]; exact hd)

/-- Witness of C17 on the board `[X, X, _, O, O, _, _, _, _]` with the
computer playing `X`. -/
theorem depth_bound_never_truncates_witness :
    (exampleBoard Cell.X Cell.O).length = 9 ∧ Complementary Cell.X Cell.O ∧
    ∃ (s : RootState) (calls : List Call),
      makeAiMoveTraced (exampleBoard Cell.X Cell.O) Cell.X Cell.O = some (s, calls) ∧
      makeAiMoveState (exampleBoard Cell.X Cell.O) Cell.X Cell.O = some s ∧
      (calls.length : Int) + 1 = s.nodeCount ∧
      ∀ c ∈ calls,
        c.depth = countEmpty c.board ∧
        (c.depth = 0 → isFull c.board = true ∧ isTerminal c.board = true) ∧
        ∀ (fuel : Nat) (node : TreeNode) (alpha beta nodeCount : Int), node.board = c.board →
          alphaBetaMinimax fuel node c.depth alpha beta c.isMaximizing nodeCount Cell.X Cell.O
            = alphaBetaNoDepth fuel node alpha beta c.isMaximizing nodeCount Cell.X Cell.O :=
  ⟨rfl, Or.inl ⟨rfl, rfl⟩,
    depth_bound_never_truncates (exampleBoard Cell.X Cell.O) Cell.X Cell.O rfl
      (Or.inl ⟨rfl, rfl⟩)⟩

/-! ### The computer never loses -/

theorem boundOK_certFirst : boundOK 10 certFirst emptyBoard true true 0 Cell.X Cell.O = true := by
  decide!

theorem boundOK_certSecond :
    boundOK 10 certSecond emptyBoard false true 0 Cell.O Cell.X = true := by
  decide!

theorem minimax_emptyBoard_first : 0 ≤ minimax emptyBoard true Cell.X Cell.O :=
  (boundOK_sound Cell.X Cell.O (by decide) (by decide) 10 certFirst emptyBoard true true 0 rfl
    boundOK_certFirst).1 rfl

theorem minimax_emptyBoard_second : 0 ≤ minimax emptyBoard false Cell.O Cell.X :=
  (boundOK_sound Cell.O Cell.X (by decide) (by decide) 10 certSecond emptyBoard false true 0 rfl
    boundOK_certSecond).1 rfl

theorem complementary_other (hu : Cell) (hp : hu = Cell.X ∨ hu = Cell.O) :
    Complementary (other hu) hu := by
  rcases hp with rfl | rfl
  · exact Or.inr ⟨rfl, rfl⟩
  · exact Or.inl ⟨rfl, rfl⟩

/-- Along the game loop the board keeps nine cells and at most one winner, and
its minimax value for the computer, with the side to move, is never negative. -/
theorem MainLoop.safe {hu : Cell} (hp : hu = Cell.X ∨ hu = Cell.O) {b : Board} {p : Cell}
    (h : MainLoop hu b p) :
    b.length = 9 ∧ (p = Cell.X ∨ p = Cell.O) ∧
    ¬(checkWin b Cell.X = true ∧ checkWin b Cell.O = true) ∧
    (p = hu → 0 ≤ minimax b false (other hu) hu) ∧
    (p ≠ hu → 0 ≤ minimax b true (other hu) hu) := by
  have hsym := complementary_other hu hp
  obtain ⟨hai, hhu⟩ := hsym.ne_empty
  have hother : ∀ q : Cell, q = Cell.X ∨ q = Cell.O → (other q = Cell.X ∨ other q = Cell.O) ∧
      other q ≠ q := by
    intro q hq
    rcases hq with rfl | rfl
    · exact ⟨Or.inr rfl, by decide⟩
    · exact ⟨Or.inl rfl, by decide⟩
  induction h with
  | start =>
    refine ⟨rfl, Or.inl rfl, by decide, ?_, ?_⟩
    · intro h
      rw [← h]
      exact minimax_emptyBoard_second
    · intro h
      rcases hp with rfl | rfl
      · exact absurd rfl h
      · exact minimax_emptyBoard_first
  | human b p m _ ht hturn h1 h9 hc ih =>
    obtain ⟨hlen, hpXO, _, hmin, _⟩ := ih
    have hmem : m ∈ getPossibleActions b := (mem_getPossibleActions_iff b m).2 ⟨h1, h9, hc⟩
    refine ⟨by rw [length_applyAction, hlen], (hother p hpXO).1,
      one_winner_after_move b m hu hp ht, ?_, ?_⟩
    · intro h
      rw [hturn] at h
      exact absurd h (hother hu hp).2
    · intro _
      have h0 := hmin hturn
      rw [minimax_min b (other hu) hu hlen hhu ht] at h0
      exact le_trans h0 (minOfList_le _ _ _ (List.mem_map.2 ⟨m, hmem, rfl⟩))
  | computer b p m _ ht hturn hmove ih =>
    obtain ⟨hlen, hpXO, _, _, hmax⟩ := ih
    have hpai : p = other hu := by
      rcases hp with rfl | rfl <;> rcases hpXO with rfl | rfl
      · exact absurd rfl hturn
      · rfl
      · rfl
      · exact absurd rfl hturn
    obtain ⟨m', hm', hmem', hall⟩ := makeAiMove_greatest b (other hu) hu hlen ht hsym
    rw [hmove] at hm'
    cases hm'
    refine ⟨by rw [length_applyAction, hlen], (hother p hpXO).1,
      one_winner_after_move b m (other hu) (by rw [← hpai]; exact hpXO) ht, ?_, ?_⟩
    · intro _
      have h0 := hmax hturn
      rw [minimax_max b (other hu) hu hlen hai ht] at h0
      refine le_trans h0 (maxOfList_le _ _ _ ?_ ?_)
      · intro hnil
        rw [List.map_eq_nil_iff] at hnil
        rw [hnil] at hmem'
        exact List.not_mem_nil _ hmem'
      · intro x hx
        obtain ⟨a, ha, rfl⟩ := List.mem_map.1 hx
        exact hall a ha
    · intro h
      rw [hpai] at h
      have := (hother (other hu) (by rw [← hpai]; exact hpXO)).1
      exfalso
      apply h
      rcases hp with rfl | rfl <;> rfl

/-- C15: the computer never loses. In the game loop of `main`, started on the
empty board with `X` to move, for either symbol of the human and whatever
legal moves the human enters, with every computer move the one returned by
`makeAiMove`, a board on which the loop stops has no completed triple of the
human's symbol. -/
theorem computer_never_loses (playerSymbol : Cell) (board : Board) (currentPlayer : Cell)
    (hp : playerSymbol = Cell.X ∨ playerSymbol = Cell.O)
    (h : MainLoop playerSymbol board currentPlayer) (ht : isTerminal board = true) :
    checkWin board playerSymbol = false := by
  obtain ⟨_, _, hone, hmin, hmax⟩ := h.safe hp
  have hsym := complementary_other playerSymbol hp
  have hu0 : 0 ≤ utility board (other playerSymbol) := by
    by_cases hturn : currentPlayer = playerSymbol
    · have := hmin hturn
      rwa [minimax_terminal _ _ _ _ ht] at this
    · have := hmax hturn
      rwa [minimax_terminal _ _ _ _ ht] at this
  cases hw : checkWin board playerSymbol with
  | false => rfl
  | true =>
    have := (utility_neg_iff board (other playerSymbol) playerSymbol hsym hone).2 hw
    omega

theorem MainLoop.humanStep {hu : Cell} {b b' : Board} {p p' : Cell} (move : Int)
    (h : MainLoop hu b p) (ht : isTerminal b = false) (hturn : p = hu) (h1 : 1 ≤ move)
    (h9 : move ≤ 9) (hc : cellAt b (move - 1).toNat = Cell.empty)
    (hb : b' = applyAction b move hu) (hp : p' = other p) : MainLoop hu b' p' := by
  subst hb
  subst hp
  exact MainLoop.human b p move h ht hturn h1 h9 hc

theorem MainLoop.computerStep {hu : Cell} {b b' : Board} {p p' : Cell} (move : Int)
    (h : MainLoop hu b p) (ht : isTerminal b = false) (hturn : p ≠ hu)
    (hmove : makeAiMove b (other hu) hu = some move)
    (hb : b' = applyAction b move (other hu)) (hp : p' = other p) : MainLoop hu b' p' := by
  subst hb
  subst hp
  exact MainLoop.computer b p move h ht hturn hmove

theorem mainLoop_playNine : MainLoop Cell.O playNine Cell.O := by
  have h0 : MainLoop Cell.O emptyBoard Cell.X := MainLoop.start
  have h1 : MainLoop Cell.O playOne Cell.O :=
    MainLoop.computerStep 1 h0 (by decide) (by decide) makeAiMove_emptyBoard rfl rfl
  have h2 : MainLoop Cell.O playTwo Cell.X :=
    MainLoop.humanStep 5 h1 (by decide) rfl (by decide) (by decide) (by decide) rfl rfl
  have h3 : MainLoop Cell.O playThree Cell.O :=
    MainLoop.computerStep 2 h2 (by decide) (by decide) makeAiMove_playTwo rfl rfl
  have h4 : MainLoop Cell.O playFour Cell.X :=
    MainLoop.humanStep 3 h3 (by decide) rfl (by decide) (by decide) (by decide) rfl rfl
  have h5 : MainLoop Cell.O playFive Cell.O :=
    MainLoop.computerStep 7 h4 (by decide) (by decide) makeAiMove_playFour rfl rfl
  have h6 : MainLoop Cell.O playSix Cell.X :=
    MainLoop.humanStep 4 h5 (by decide) rfl (by decide) (by decide) (by decide) rfl rfl
  have h7 : MainLoop Cell.O playSeven Cell.O :=
    MainLoop.computerStep 6 h6 (by decide) (by decide) makeAiMove_playSix rfl rfl
  have h8 : MainLoop Cell.O playEight Cell.X :=
    MainLoop.humanStep 8 h7 (by decide) rfl (by decide) (by decide) (by decide) rfl rfl
  exact MainLoop.computerStep 9 h8 (by decide) (by decide) makeAiMove_playEight rfl rfl

/-- Witness of C15: the human holds `O` and answers 5, 3, 4, 8 to the computer's
1, 2, 7, 6, 9; the loop stops on `[X, X, O, O, O, X, X, O, X]`. -/
theorem computer_never_loses_witness :
    (Cell.O = Cell.X ∨ Cell.O = Cell.O) ∧ MainLoop Cell.O playNine Cell.O ∧
    isTerminal playNine = true ∧ checkWin playNine Cell.O = false :=
  ⟨Or.inr rfl, mainLoop_playNine, by decide,
    computer_never_loses Cell.O playNine Cell.O (Or.inr rfl) mainLoop_playNine (by decide)⟩

end TicTacToe
